import Mathlib

/-!
Shallow embedding of `src/exactcover.c` (Knuth dancing-links exact cover
solver) and verification of its specification claims.

Nodes of the sparse matrix (both ordinary elements and column headers) are
identified by natural numbers; the four link fields `up`, `down`, `left`,
`right`, the owning-column field `col`, the header `count` field and the
two object fields are total functions from node ids.  Node `0` plays the
role of the `corner` (root) header allocated by `alloc_matrix`.

Every C loop is translated with an explicit fuel argument; the theorems
supply enough fuel through hypotheses about the lengths of the linked
lists being traversed.
-/

namespace ExactCover

/-- The sparse-matrix state: the fields of `struct ElementRec` and
`struct HeaderRec` of `src/exactcover.c`, as total functions over node
ids.  `hobj` is the header's `object` (the universe element labelling the
column); `robj` is the element's `object` (the index of the input row the
cell belongs to). -/
@[ext]
structure Mat (α : Type) where
  up : Nat → Nat
  down : Nat → Nat
  left : Nat → Nat
  right : Nat → Nat
  col : Nat → Nat
  count : Nat → Int
  hobj : Nat → Option α
  robj : Nat → Option Nat

variable {α : Type}

/-- Pointwise update of a `Nat`-valued field. -/
def upd (f : Nat → Nat) (i v : Nat) : Nat → Nat :=
  fun j => if j = i then v else f j

/-- Pointwise update of an `Int`-valued field. -/
def updZ (f : Nat → Int) (i : Nat) (v : Int) : Nat → Int :=
  fun j => if j = i then v else f j

@[simp] theorem upd_same (f : Nat → Nat) (i v : Nat) : upd f i v i = v := by
  simp [upd]

theorem upd_ne (f : Nat → Nat) {i j : Nat} (v : Nat) (h : j ≠ i) : upd f i v j = f j := by
  simp [upd, h]

@[simp] theorem updZ_same (f : Nat → Int) (i : Nat) (v : Int) : updZ f i v i = v := by
  simp [updZ]

theorem updZ_ne (f : Nat → Int) {i j : Nat} (v : Int) (h : j ≠ i) : updZ f i v j = f j := by
  simp [updZ, h]

/-- Body of the inner loop of `unlink_column`:
`e->column->count--; e->up->down = e->down; e->down->up = e->up;`
(statements applied in C order). -/
def removeCell (s : Mat α) (e : Nat) : Mat α :=
  let s1 := { s with count := updZ s.count (s.col e) (s.count (s.col e) - 1) }
  let s2 := { s1 with down := upd s1.down (s1.up e) (s1.down e) }
  { s2 with up := upd s2.up (s2.down e) (s2.up e) }

/-- Body of the inner loop of `link_column`:
`e->column->count++; e->up->down = e; e->down->up = e;`
(statements applied in C order). -/
def addCell (s : Mat α) (e : Nat) : Mat α :=
  let s1 := { s with count := updZ s.count (s.col e) (s.count (s.col e) + 1) }
  let s2 := { s1 with down := upd s1.down (s1.up e) e }
  { s2 with up := upd s2.up (s2.down e) e }

/-- Header removal part of `unlink_column`:
`column->e.left->right = column->e.right; column->e.right->left = column->e.left;` -/
def unlinkHeader (s : Mat α) (h : Nat) : Mat α :=
  let s1 := { s with right := upd s.right (s.left h) (s.right h) }
  { s1 with left := upd s1.left (s1.right h) (s1.left h) }

/-- Header relink part of `link_column`:
`column->e.left->right = &column->e; column->e.right->left = &column->e;` -/
def linkHeader (s : Mat α) (h : Nat) : Mat α :=
  let s1 := { s with right := upd s.right (s.left h) h }
  { s1 with left := upd s1.left (s1.right h) h }

/-- Inner loop of `unlink_column`:
`for (e = row->left; e != row; e = e->left) { ... }`. -/
def unlinkCells : Nat → Mat α → Nat → Nat → Mat α
  | 0, s, _, _ => s
  | fuel + 1, s, row, e =>
    if e = row then s
    else
      let s' := removeCell s e
      unlinkCells fuel s' row (s'.left e)

/-- Outer loop of `unlink_column`:
`for (row = column->e.up; row != &column->e; row = row->up) { inner }`. -/
def unlinkRows : Nat → Nat → Mat α → Nat → Nat → Mat α
  | 0, _, s, _, _ => s
  | fuel + 1, icap, s, h, row =>
    if row = h then s
    else
      let s' := unlinkCells icap s row (s.left row)
      unlinkRows fuel icap s' h (s'.up row)

/-- `unlink_column` of `src/exactcover.c`: remove a column header from the
horizontal header list, then remove every row with a cell in this column
from all other columns, walking the column upwards and each row leftwards. -/
def unlink_column (fuel : Nat) (s : Mat α) (h : Nat) : Mat α :=
  let s1 := unlinkHeader s h
  unlinkRows fuel fuel s1 h (s1.up h)

/-- Inner loop of `link_column`:
`for (e = row->right; e != row; e = e->right) { ... }`. -/
def linkCells : Nat → Mat α → Nat → Nat → Mat α
  | 0, s, _, _ => s
  | fuel + 1, s, row, e =>
    if e = row then s
    else
      let s' := addCell s e
      linkCells fuel s' row (s'.right e)

/-- Outer loop of `link_column`:
`for (row = column->e.down; row != &column->e; row = row->down) { inner }`. -/
def linkRows : Nat → Nat → Mat α → Nat → Nat → Mat α
  | 0, _, s, _, _ => s
  | fuel + 1, icap, s, h, row =>
    if row = h then s
    else
      let s' := linkCells icap s row (s.right row)
      linkRows fuel icap s' h (s'.down row)

/-- `link_column` of `src/exactcover.c`: relink the header into the
horizontal header list, then re-add every row, walking the column
downwards and each row rightwards. -/
def link_column (fuel : Nat) (s : Mat α) (h : Nat) : Mat α :=
  let s1 := linkHeader s h
  linkRows fuel fuel s1 h (s1.down h)

/-- Loop of `unlink_row`:
`e = row; do { unlink_column(e->column); e = e->right; } while (e != row);`. -/
def unlinkRowLoop : Nat → Nat → Mat α → Nat → Nat → Mat α
  | 0, _, s, _, _ => s
  | fuel + 1, icap, s, row, e =>
    let s' := unlink_column icap s (s.col e)
    let e' := s'.right e
    if e' = row then s' else unlinkRowLoop fuel icap s' row e'

/-- `unlink_row` of `src/exactcover.c`. -/
def unlink_row (fuel : Nat) (s : Mat α) (row : Nat) : Mat α :=
  unlinkRowLoop fuel fuel s row row

/-- Loop of `link_row`:
`e = row->left; do { link_column(e->column); e = e->left; } while (e != row->left);`. -/
def linkRowLoop : Nat → Nat → Mat α → Nat → Nat → Mat α
  | 0, _, s, _, _ => s
  | fuel + 1, icap, s, row, e =>
    let s' := link_column icap s (s.col e)
    let e' := s'.left e
    if e' = s'.left row then s' else linkRowLoop fuel icap s' row e'

/-- `link_row` of `src/exactcover.c`. -/
def link_row (fuel : Nat) (s : Mat α) (row : Nat) : Mat α :=
  linkRowLoop fuel fuel s row (s.left row)

/-- One comparison step of the `smallest_column` scan:
`if (!smallest || smallest->count > column->count) smallest = column;`. -/
def chooser (s : Mat α) (acc : Option Nat) (c : Nat) : Option Nat :=
  match acc with
  | none => some c
  | some sm => if s.count sm > s.count c then some c else some sm

/-- Loop of `smallest_column`, carrying the current best candidate. -/
def smallestLoop : Mat α → Nat → Nat → Nat → Option Nat → Option Nat
  | _, _, 0, _, smallest => smallest
  | s, corner, fuel + 1, column, smallest =>
    if column = corner then smallest
    else smallestLoop s corner fuel (s.right column) (chooser s smallest column)

/-- `smallest_column` of `src/exactcover.c`: scan the header list once from
`corner->e.right`, returning the header with the fewest ones, `none` if the
matrix has no columns. -/
def smallest_column (fuel : Nat) (s : Mat α) (corner : Nat) : Option Nat :=
  smallestLoop s corner fuel (s.right corner) none

/-- Loop of `column_count`. -/
def columnCountLoop : Mat α → Nat → Nat → Nat → Nat → Nat
  | _, _, 0, _, acc => acc
  | s, corner, fuel + 1, e, acc =>
    if e = corner then acc else columnCountLoop s corner fuel (s.right e) (acc + 1)

/-- `column_count` of `src/exactcover.c`: the number of headers in the
horizontal list, aka the number of elements of the universe. -/
def column_count (fuel : Nat) (s : Mat α) (corner : Nat) : Nat :=
  columnCountLoop s corner fuel (s.right corner) 0

/-- Scan part of `find_column`: a linear scan of the header list comparing
the column labels against `x` for equality. -/
def findColumnLoop [DecidableEq α] : Mat α → Nat → α → Nat → Nat → Option Nat
  | _, _, _, 0, _ => none
  | s, corner, x, fuel + 1, i =>
    if i = corner then none
    else if s.hobj i = some x then some i
    else findColumnLoop s corner x fuel (s.right i)

/-- `find_column` of `src/exactcover.c`: find the header labelled `x`, or
allocate a fresh header (id `nxt`) initialised exactly as in the C code
and append it at the left of `corner`.  Returns the new state, the header
id, and the next free node id. -/
def find_column [DecidableEq α] (fuel : Nat) (s : Mat α) (corner : Nat) (x : α)
    (nxt : Nat) : Mat α × Nat × Nat :=
  match findColumnLoop s corner x fuel (s.right corner) with
  | some i => (s, i, nxt)
  | none =>
    let i := nxt
    let s1 := { s with
      up := upd s.up i i
      down := upd s.down i i
      col := upd s.col i i
      hobj := fun j => if j = i then some x else s.hobj j
      count := updZ s.count i 0 }
    let s2 := { s1 with right := upd s1.right i corner }
    let s3 := { s2 with left := upd s2.left i (s2.left corner) }
    let s4 := { s3 with right := upd s3.right (s3.left corner) i }
    let s5 := { s4 with left := upd s4.left corner i }
    (s5, i, nxt + 1)

/-- The initial matrix produced by `alloc_matrix` with the corner node `0`:
every node is self-linked (unallocated heap cells are never inspected
before being initialised, so their default values are irrelevant), all
counts are `0` and all object fields are `NULL`. -/
def alloc_matrix : Mat α where
  up := fun j => j
  down := fun j => j
  left := fun j => j
  right := fun j => j
  col := fun j => j
  count := fun _ => 0
  hobj := fun _ => none
  robj := fun _ => none

/-- Cell-creation part of the inner element loop of `coverings_init`:
allocate cell `e` for the row object `rowIdx` in column `column`, link it
to the bottom of the column's vertical list and into the row circle, all
writes in C statement order.  Returns the new state and the first cell of
the row circle. -/
def insertCellAt (s0 : Mat α) (column rowIdx e : Nat) (rowFirst : Option Nat) :
    Mat α × Nat :=
  let s1 := { s0 with
    col := upd s0.col e column
    robj := fun j => if j = e then some rowIdx else s0.robj j
    count := updZ s0.count column (s0.count column + 1) }
  let s2 := { s1 with up := upd s1.up e (s1.up column) }
  let s3 := { s2 with down := upd s2.down e column }
  let s4 := { s3 with down := upd s3.down (s3.up column) e }
  let s5 := { s4 with up := upd s4.up column e }
  match rowFirst with
  | none =>
    let s6 := { s5 with left := upd s5.left e e }
    let s7 := { s6 with right := upd s6.right e e }
    ((s7, e) : Mat α × Nat)
  | some row =>
    let s6 := { s5 with left := upd s5.left e (s5.left row) }
    let s7 := { s6 with right := upd s6.right e row }
    let s8 := { s7 with right := upd s7.right (s7.left row) e }
    let s9 := { s8 with left := upd s8.left row e }
    ((s9, row) : Mat α × Nat)

/-- Body of the inner element loop of `coverings_init`: look up or create
the column for element `x`, then allocate a fresh cell for it.  `rowIdx`
is the identity of the input row (the `cover` object); `rowFirst` is the
first cell of the row circle built so far. -/
def insertCell [DecidableEq α] (fuel : Nat) (s : Mat α) (corner : Nat) (rowIdx : Nat)
    (rowFirst : Option Nat) (x : α) (nxt : Nat) : Mat α × Nat × Nat :=
  let fc := find_column fuel s corner x nxt
  let r := insertCellAt fc.1 fc.2.1 rowIdx fc.2.2 rowFirst
  (r.1, r.2, fc.2.2 + 1)

/-- Insert one input row: the inner `while ((elem = PyIter_Next(it)))`
loop of `coverings_init`, folding `insertCell` over the row's elements. -/
def insertRow [DecidableEq α] (fuel : Nat) (s : Mat α) (corner : Nat) (rowIdx : Nat)
    (xs : List α) (nxt : Nat) : Mat α × Nat :=
  let r := xs.foldl
    (fun (acc : Mat α × Option Nat × Nat) x =>
      let res := insertCell fuel acc.1 corner rowIdx acc.2.1 x acc.2.2
      (res.1, some res.2.1, res.2.2))
    (s, none, nxt)
  (r.1, r.2.2)

/-- Build loop of `coverings_init`: insert the input rows in order,
numbering them by their position. -/
def buildLoop [DecidableEq α] (fuel : Nat) :
    List (List α) → Nat → Mat α × Nat → Mat α × Nat
  | [], _, acc => acc
  | xs :: rest, i, acc =>
    buildLoop fuel rest (i + 1) (insertRow fuel acc.1 0 i xs acc.2)

/-- The matrix built by `coverings_init` from the given input rows, with
corner `0` and fresh ids starting at `1`; also returns the next free id. -/
def buildMatrix [DecidableEq α] (fuel : Nat) (rows : List (List α)) : Mat α × Nat :=
  buildLoop fuel rows 0 (alloc_matrix, 1)

/-- The three states of `enum Action` in `src/exactcover.c`. -/
inductive Action
  | CONT
  | BACKUP
  | SOLUTION
deriving DecidableEq

/-- The `coverings` iterator object: the matrix, the `first` flag and the
solution stack (topmost chosen cell at the head of the list, so that the
list length is `solutionSize`). -/
structure Iter (α : Type) where
  m : Mat α
  first : Bool
  solution : List Nat

/-- `coverings_step` of `src/exactcover.c`: choose the smallest column;
report `SOLUTION` if no column remains and `BACKUP` if the chosen column
is empty; otherwise take the column's first cell downward, unlink its row
and push it on the solution stack. -/
def coverings_step (fuel : Nat) (it : Iter α) : Iter α × Action :=
  match smallest_column fuel it.m 0 with
  | none => (it, Action.SOLUTION)
  | some column =>
    if it.m.count column = 0 then (it, Action.BACKUP)
    else
      let row := it.m.down column
      let m' := unlink_row fuel it.m row
      ({ it with m := m', solution := row :: it.solution }, Action.CONT)

/-- The `while (self->solutionSize > 0)` loop of `coverings_backup`,
structurally recursive on the solution stack.  Returns the new matrix, the
new stack, and `true` for success (`0` in C) or `false` for `-1`. -/
def backupLoop (fuel : Nat) (m : Mat α) : List Nat → Mat α × List Nat × Bool
  | [] => (m, [], false)
  | row :: rest =>
    let m' := link_row fuel m row
    let row' := m'.down row
    if row' = m'.col row' then backupLoop fuel m' rest
    else (unlink_row fuel m' row', row' :: rest, true)

/-- `coverings_backup` of `src/exactcover.c`. -/
def coverings_backup (fuel : Nat) (it : Iter α) : Iter α × Bool :=
  let r := backupLoop fuel it.m it.solution
  ({ it with m := r.1, solution := r.2.1 }, r.2.2)

/-- `coverings_solution` of `src/exactcover.c`: the tuple of the row
objects of the stacked cells, bottom of the stack first. -/
def coverings_solution (it : Iter α) : List Nat :=
  it.solution.reverse.map (fun e => (it.m.robj e).getD 0)

/-- The `for (;;)` loop of `coverings_next`, with an explicit iteration
bound `lfuel`; `none` means the bound was exhausted before the loop
returned (the C loop runs unboundedly), `some (none, it)` means the search
is exhausted (C returns `NULL`), `some (some t, it)` means the tuple `t`
was yielded. -/
def nextLoop (fuel : Nat) : Nat → Iter α → Option (Option (List Nat) × Iter α)
  | 0, _ => none
  | lfuel + 1, it =>
    let r := coverings_step fuel it
    match r.2 with
    | Action.CONT => nextLoop fuel lfuel r.1
    | Action.BACKUP =>
      let b := coverings_backup fuel r.1
      if b.2 then nextLoop fuel lfuel b.1 else some (none, b.1)
    | Action.SOLUTION => some (some (coverings_solution r.1), r.1)

/-- `coverings_next` of `src/exactcover.c`: on the first call just clear
the `first` flag, on every later call backtrack away from the previous
solution first; then run the step loop. -/
def coverings_next (fuel lfuel : Nat) (it : Iter α) :
    Option (Option (List Nat) × Iter α) :=
  if it.first then nextLoop fuel lfuel { it with first := false }
  else
    let b := coverings_backup fuel it
    if b.2 then nextLoop fuel lfuel b.1 else some (none, b.1)

/-- The iterator object constructed by `coverings_init` from the input
rows (the universe-sized solution buffer is implicit in the list model). -/
def coverings_init [DecidableEq α] (fuel : Nat) (rows : List (List α)) : Iter α :=
  { m := (buildMatrix fuel rows).1, first := true, solution := [] }

/-! ### Basic lemmas on field updates and the cell operations -/

theorem upd_self (f : Nat → Nat) (i : Nat) : upd f i (f i) = f := by
  funext j; by_cases h : j = i <;> simp [upd, h]

theorem upd_upd (f : Nat → Nat) (i v w : Nat) : upd (upd f i v) i w = upd f i w := by
  funext j; by_cases h : j = i <;> simp [upd, h]

theorem updZ_self (f : Nat → Int) (i : Nat) : updZ f i (f i) = f := by
  funext j; by_cases h : j = i <;> simp [updZ, h]

theorem updZ_updZ (f : Nat → Int) (i : Nat) (v w : Int) :
    updZ (updZ f i v) i w = updZ f i w := by
  funext j; by_cases h : j = i <;> simp [updZ, h]

/-- Closed form of `removeCell`: the two pointer writes never interfere
with the reads of the same statement block. -/
theorem removeCell_eq (s : Mat α) (e : Nat) :
    removeCell s e =
      { s with
        count := updZ s.count (s.col e) (s.count (s.col e) - 1)
        down := upd s.down (s.up e) (s.down e)
        up := upd s.up (s.down e) (s.up e) } := by
  show Mat.mk _ _ _ _ _ _ _ _ = _
  have hd : upd s.down (s.up e) (s.down e) e = s.down e := by
    unfold upd; split <;> rfl
  simp only [removeCell, hd]

@[simp] theorem removeCell_left (s : Mat α) (e : Nat) :
    (removeCell s e).left = s.left := rfl

@[simp] theorem removeCell_right (s : Mat α) (e : Nat) :
    (removeCell s e).right = s.right := rfl

@[simp] theorem removeCell_col (s : Mat α) (e : Nat) :
    (removeCell s e).col = s.col := rfl

@[simp] theorem removeCell_hobj (s : Mat α) (e : Nat) :
    (removeCell s e).hobj = s.hobj := rfl

@[simp] theorem removeCell_robj (s : Mat α) (e : Nat) :
    (removeCell s e).robj = s.robj := rfl

theorem removeCell_up (s : Mat α) (e : Nat) :
    (removeCell s e).up = upd s.up (s.down e) (s.up e) := by
  rw [removeCell_eq]

theorem removeCell_down (s : Mat α) (e : Nat) :
    (removeCell s e).down = upd s.down (s.up e) (s.down e) := by
  rw [removeCell_eq]

theorem removeCell_count (s : Mat α) (e : Nat) :
    (removeCell s e).count = updZ s.count (s.col e) (s.count (s.col e) - 1) := rfl

@[simp] theorem addCell_left (s : Mat α) (e : Nat) :
    (addCell s e).left = s.left := rfl

@[simp] theorem addCell_right (s : Mat α) (e : Nat) :
    (addCell s e).right = s.right := rfl

@[simp] theorem addCell_col (s : Mat α) (e : Nat) :
    (addCell s e).col = s.col := rfl

@[simp] theorem addCell_hobj (s : Mat α) (e : Nat) :
    (addCell s e).hobj = s.hobj := rfl

@[simp] theorem addCell_robj (s : Mat α) (e : Nat) :
    (addCell s e).robj = s.robj := rfl

/-- Closed form of `addCell` when the cell is not its own vertical
neighbour. -/
theorem addCell_eq (s : Mat α) (e : Nat) (h : s.up e ≠ e) :
    addCell s e =
      { s with
        count := updZ s.count (s.col e) (s.count (s.col e) + 1)
        down := upd s.down (s.up e) e
        up := upd s.up (s.down e) e } := by
  show Mat.mk _ _ _ _ _ _ _ _ = _
  have hd : upd s.down (s.up e) e e = s.down e :=
    upd_ne _ _ (fun hh => h hh.symm)
  simp only [addCell, hd]

/-- Closed form of `unlinkHeader`. -/
theorem unlinkHeader_eq (s : Mat α) (h : Nat) :
    unlinkHeader s h =
      { s with
        right := upd s.right (s.left h) (s.right h)
        left := upd s.left (s.right h) (s.left h) } := by
  show Mat.mk _ _ _ _ _ _ _ _ = _
  have h1 : upd s.right (s.left h) (s.right h) h = s.right h := by
    unfold upd; split <;> rfl
  simp only [unlinkHeader, h1]

@[simp] theorem unlinkHeader_up (s : Mat α) (h : Nat) :
    (unlinkHeader s h).up = s.up := rfl

@[simp] theorem unlinkHeader_down (s : Mat α) (h : Nat) :
    (unlinkHeader s h).down = s.down := rfl

@[simp] theorem unlinkHeader_col (s : Mat α) (h : Nat) :
    (unlinkHeader s h).col = s.col := rfl

@[simp] theorem unlinkHeader_count (s : Mat α) (h : Nat) :
    (unlinkHeader s h).count = s.count := rfl

@[simp] theorem linkHeader_up (s : Mat α) (h : Nat) :
    (linkHeader s h).up = s.up := rfl

@[simp] theorem linkHeader_down (s : Mat α) (h : Nat) :
    (linkHeader s h).down = s.down := rfl

@[simp] theorem linkHeader_col (s : Mat α) (h : Nat) :
    (linkHeader s h).col = s.col := rfl

@[simp] theorem linkHeader_count (s : Mat α) (h : Nat) :
    (linkHeader s h).count = s.count := rfl

/-- Closed form of `linkHeader` when the header is not its own horizontal
neighbour. -/
theorem linkHeader_eq (s : Mat α) (h : Nat) (hne : s.left h ≠ h) :
    linkHeader s h =
      { s with
        right := upd s.right (s.left h) h
        left := upd s.left (s.right h) h } := by
  show Mat.mk _ _ _ _ _ _ _ _ = _
  have h1 : upd s.right (s.left h) h h = s.right h :=
    upd_ne _ _ (fun hh => hne hh.symm)
  simp only [linkHeader, h1]

/-! ### Paths in a doubly linked structure

`Path nxt prv a l b` states that starting from node `a` and repeatedly
following the successor field `nxt` one visits exactly the nodes of `l`
and then arrives at `b`, with the predecessor field `prv` consistent along
every edge.  A circular list anchored at `h` with member list `l` is
`Path nxt prv h l h`. -/

def Path (nxt prv : Nat → Nat) : Nat → List Nat → Nat → Prop
  | a, [], b => nxt a = b ∧ prv b = a
  | a, x :: l, b => nxt a = x ∧ prv x = a ∧ Path nxt prv x l b

theorem Path.append {nxt prv : Nat → Nat} :
    ∀ {l₁ : List Nat} {a m : Nat} {l₂ : List Nat} {b : Nat},
      Path nxt prv a l₁ m → Path nxt prv m l₂ b → Path nxt prv a (l₁ ++ m :: l₂) b
  | [], _, _, _, _, h₁, h₂ => ⟨h₁.1, h₁.2, h₂⟩
  | _ :: _, _, _, _, _, h₁, h₂ => ⟨h₁.1, h₁.2.1, Path.append h₁.2.2 h₂⟩

theorem Path.split {nxt prv : Nat → Nat} :
    ∀ (l₁ : List Nat) {a x : Nat} {l₂ : List Nat} {b : Nat},
      Path nxt prv a (l₁ ++ x :: l₂) b → Path nxt prv a l₁ x ∧ Path nxt prv x l₂ b
  | [], _, _, _, _, h => ⟨⟨h.1, h.2.1⟩, h.2.2⟩
  | _ :: l₁, _, _, _, _, h => by
    have ih := Path.split l₁ h.2.2
    exact ⟨⟨h.1, h.2.1, ih.1⟩, ih.2⟩

theorem Path.reverse {nxt prv : Nat → Nat} :
    ∀ {l : List Nat} {a b : Nat},
      Path nxt prv a l b → Path prv nxt b l.reverse a
  | [], _, _, h => ⟨h.2, h.1⟩
  | x :: l, a, b, h => by
    have ih := Path.reverse h.2.2
    have hxa : Path prv nxt x [] a := ⟨h.2.1, h.1⟩
    have : Path prv nxt b (l.reverse ++ x :: []) a := Path.append ih hxa
    simpa using this

/-- A path only reads `nxt` on `a :: l` and `prv` on `l ++ [b]`, so it
transfers between states that agree there. -/
theorem Path.congr {nxt prv nxt' prv' : Nat → Nat} :
    ∀ {l : List Nat} {a b : Nat},
      Path nxt prv a l b →
      (∀ x ∈ a :: l, nxt' x = nxt x) →
      (∀ x ∈ l ++ [b], prv' x = prv x) →
      Path nxt' prv' a l b
  | [], a, b, h, hn, hp => by
    refine ⟨?_, ?_⟩
    · rw [hn a (by simp)]; exact h.1
    · rw [hp b (by simp)]; exact h.2
  | x :: l, a, b, h, hn, hp => by
    refine ⟨?_, ?_, ?_⟩
    · rw [hn a (by simp)]; exact h.1
    · rw [hp x (by simp)]; exact h.2.1
    · refine Path.congr h.2.2 (fun y hy => hn y ?_) (fun y hy => hp y ?_)
      · exact List.mem_cons_of_mem _ hy
      · rcases List.mem_append.mp hy with hy' | hy'
        · exact List.mem_append.mpr (Or.inl (List.mem_cons_of_mem _ hy'))
        · exact List.mem_append.mpr (Or.inr hy')

theorem path_prv_getLast {nxt prv : Nat → Nat} :
    ∀ {l : List Nat} {a b : Nat}, Path nxt prv a l b →
      prv b = (a :: l).getLast (List.cons_ne_nil a l)
  | [], _, _, h => by simpa using h.2
  | x :: l, a, b, h => by
    rw [path_prv_getLast h.2.2]
    simp [List.getLast_cons]

theorem path_nxt_getLast {nxt prv : Nat → Nat} :
    ∀ {l : List Nat} {a b : Nat}, Path nxt prv a l b →
      nxt ((a :: l).getLast (List.cons_ne_nil a l)) = b
  | [], _, _, h => by simpa using h.1
  | x :: l, a, b, h => by
    have := path_nxt_getLast h.2.2
    simpa [List.getLast_cons] using this

theorem path_prv_mem {nxt prv : Nat → Nat} {l : List Nat} {a b : Nat}
    (h : Path nxt prv a l b) : prv b ∈ a :: l := by
  rw [path_prv_getLast h]; exact List.getLast_mem _

theorem path_nxt_mem {nxt prv : Nat → Nat} :
    ∀ {l : List Nat} {a b : Nat}, Path nxt prv a l b → nxt a ∈ l ++ [b]
  | [], _, _, h => by simp [h.1]
  | x :: l, _, _, h => by simp [h.1]

/-- Dancing-links deletion: erasing a node `e` from a consistent path by
redirecting its neighbours' links leaves a consistent path over the
remaining nodes. -/
theorem path_erase {nxt prv : Nat → Nat} {h e : Nat} :
    ∀ {l₁ : List Nat} {a : Nat} {l₂ : List Nat},
      Path nxt prv a (l₁ ++ e :: l₂) h →
      (a :: (l₁ ++ e :: l₂)).Nodup →
      h ∉ l₁ ++ e :: l₂ →
      Path (upd nxt (prv e) (nxt e)) (upd prv (nxt e) (prv e)) a (l₁ ++ l₂) h := by
  intro l₁
  induction l₁ with
  | nil =>
    intro a l₂ hp hnd hh
    have h2 : prv e = a := hp.2.1
    have h3 : Path nxt prv e l₂ h := hp.2.2
    have ha : a ∉ e :: l₂ := (List.nodup_cons.mp hnd).1
    have hnd₂ : (e :: l₂).Nodup := (List.nodup_cons.mp hnd).2
    cases l₂ with
    | nil =>
      refine ⟨?_, ?_⟩
      · rw [h2]; simpa using h3.1
      · rw [h3.1, h2]; simp
    | cons c l₂' =>
      have hc : nxt e = c := h3.1
      refine ⟨?_, ?_, ?_⟩
      · rw [h2, hc]; simp
      · rw [hc, h2]; simp
      · refine Path.congr h3.2.2 (fun y hy => ?_) (fun y hy => ?_)
        · refine upd_ne _ _ ?_
          rw [h2]
          rintro rfl
          exact ha (List.mem_cons_of_mem _ hy)
        · refine upd_ne _ _ ?_
          rw [hc]
          have hcnotl : c ∉ l₂' := (List.nodup_cons.mp (List.nodup_cons.mp hnd₂).2).1
          rcases List.mem_append.mp hy with hy' | hy'
          · rintro rfl; exact hcnotl hy'
          · rintro rfl
            exact hh (by simpa using Or.inr (Or.inl (List.mem_singleton.mp hy').symm))
  | cons x l₁' ih =>
    intro a l₂ hp hnd hh
    have h1 : nxt a = x := hp.1
    have h2 : prv x = a := hp.2.1
    have h3 : Path nxt prv x (l₁' ++ e :: l₂) h := hp.2.2
    have ha : a ∉ x :: (l₁' ++ e :: l₂) := (List.nodup_cons.mp hnd).1
    have hnd' : (x :: (l₁' ++ e :: l₂)).Nodup := (List.nodup_cons.mp hnd).2
    have hx : x ∉ l₁' ++ e :: l₂ := (List.nodup_cons.mp hnd').1
    have hprvmem : prv e ∈ x :: l₁' :=
      path_prv_mem (Path.split l₁' h3).1
    have hnxtmem : nxt e ∈ l₂ ++ [h] :=
      path_nxt_mem (Path.split l₁' h3).2
    have hhx : h ≠ x := by
      rintro rfl; exact hh (by simp)
    refine ⟨?_, ?_, ?_⟩
    · rw [upd_ne _ _ ?_]
      · exact h1
      · rintro rfl
        rcases List.mem_cons.mp hprvmem with hx' | hx'
        · exact ha (hx' ▸ List.mem_cons_self _ _)
        · exact ha (List.mem_cons_of_mem _ (List.mem_append.mpr (Or.inl hx')))
    · rw [upd_ne _ _ ?_]
      · exact h2
      · rcases List.mem_append.mp hnxtmem with hy | hy
        · rintro rfl
          exact hx (List.mem_append.mpr (Or.inr (List.mem_cons_of_mem _ hy)))
        · rintro rfl
          exact hhx (List.mem_singleton.mp hy).symm
    · refine ih h3 hnd' (fun hmem => hh (List.mem_cons_of_mem _ hmem))

theorem path_nxt_prv {nxt prv : Nat → Nat} {l : List Nat} {a b : Nat}
    (h : Path nxt prv a l b) : nxt (prv b) = b := by
  rw [path_prv_getLast h]; exact path_nxt_getLast h

theorem path_prv_nxt {nxt prv : Nat → Nat} :
    ∀ {l : List Nat} {a b : Nat}, Path nxt prv a l b → prv (nxt a) = a
  | [], _, _, h => by rw [h.1]; exact h.2
  | _ :: _, _, _, h => by rw [h.1]; exact h.2.1

/-! ### Sequences of cell removals and additions -/

/-- All the cells of `unlink_column`'s double loop applied in order. -/
def removeSeq (s : Mat α) : List Nat → Mat α
  | [] => s
  | e :: es => removeSeq (removeCell s e) es

/-- All the cells of `link_column`'s double loop applied in order. -/
def addSeq (s : Mat α) : List Nat → Mat α
  | [] => s
  | e :: es => addSeq (addCell s e) es

theorem removeSeq_append (s : Mat α) (l₁ l₂ : List Nat) :
    removeSeq s (l₁ ++ l₂) = removeSeq (removeSeq s l₁) l₂ := by
  induction l₁ generalizing s with
  | nil => rfl
  | cons e l₁ ih => simp [removeSeq, ih]

theorem addSeq_append (s : Mat α) (l₁ l₂ : List Nat) :
    addSeq s (l₁ ++ l₂) = addSeq (addSeq s l₁) l₂ := by
  induction l₁ generalizing s with
  | nil => rfl
  | cons e l₁ ih => simp [addSeq, ih]

@[simp] theorem removeSeq_left (s : Mat α) (es : List Nat) :
    (removeSeq s es).left = s.left := by
  induction es generalizing s with
  | nil => rfl
  | cons e es ih => simp [removeSeq, ih]

@[simp] theorem removeSeq_right (s : Mat α) (es : List Nat) :
    (removeSeq s es).right = s.right := by
  induction es generalizing s with
  | nil => rfl
  | cons e es ih => simp [removeSeq, ih]

@[simp] theorem removeSeq_col (s : Mat α) (es : List Nat) :
    (removeSeq s es).col = s.col := by
  induction es generalizing s with
  | nil => rfl
  | cons e es ih => simp [removeSeq, ih]

@[simp] theorem removeSeq_hobj (s : Mat α) (es : List Nat) :
    (removeSeq s es).hobj = s.hobj := by
  induction es generalizing s with
  | nil => rfl
  | cons e es ih => simp [removeSeq, ih]

@[simp] theorem removeSeq_robj (s : Mat α) (es : List Nat) :
    (removeSeq s es).robj = s.robj := by
  induction es generalizing s with
  | nil => rfl
  | cons e es ih => simp [removeSeq, ih]

@[simp] theorem addSeq_left (s : Mat α) (es : List Nat) :
    (addSeq s es).left = s.left := by
  induction es generalizing s with
  | nil => rfl
  | cons e es ih => simp [addSeq, ih]

@[simp] theorem addSeq_right (s : Mat α) (es : List Nat) :
    (addSeq s es).right = s.right := by
  induction es generalizing s with
  | nil => rfl
  | cons e es ih => simp [addSeq, ih]

@[simp] theorem addSeq_col (s : Mat α) (es : List Nat) :
    (addSeq s es).col = s.col := by
  induction es generalizing s with
  | nil => rfl
  | cons e es ih => simp [addSeq, ih]

/-- The local consistency a cell needs for its removal to be undoable:
its vertical neighbours point back at it and it is not self-linked. -/
def CellOK (s : Mat α) (e : Nat) : Prop :=
  s.down (s.up e) = e ∧ s.up (s.down e) = e ∧ s.up e ≠ e ∧ s.down e ≠ e

/-- A removal sequence is valid if every cell is locally consistent at the
moment it is removed. -/
inductive SeqOK : Mat α → List Nat → Prop
  | nil (s : Mat α) : SeqOK s []
  | cons {s : Mat α} {e : Nat} {es : List Nat} :
      CellOK s e → SeqOK (removeCell s e) es → SeqOK s (e :: es)

/-- Dancing-links inversion, one cell: re-adding a locally consistent cell
right after removing it restores the state exactly. -/
theorem upd_of_eq (f : Nat → Nat) (i v : Nat) (h : f i = v) : upd f i v = f :=
  h ▸ upd_self f i

theorem updZ_of_eq (f : Nat → Int) (i : Nat) (v : Int) (h : f i = v) : updZ f i v = f :=
  h ▸ updZ_self f i

theorem addCell_removeCell {s : Mat α} {e : Nat} (hok : CellOK s e) :
    addCell (removeCell s e) e = s := by
  obtain ⟨h1, h2, h3, h4⟩ := hok
  have hu : (removeCell s e).up e = s.up e := by
    rw [removeCell_up]; exact upd_ne _ _ (fun hh => h4 hh.symm)
  have hd : (removeCell s e).down e = s.down e := by
    rw [removeCell_down]; exact upd_ne _ _ (fun hh => h3 hh.symm)
  have hup_ne : (removeCell s e).up e ≠ e := by rw [hu]; exact h3
  rw [addCell_eq _ _ hup_ne]
  apply Mat.ext
  · rw [hd, removeCell_up, upd_upd]
    exact upd_of_eq _ _ _ h2
  · rw [hu, removeCell_down, upd_upd]
    exact upd_of_eq _ _ _ h1
  · rfl
  · rfl
  · rfl
  · show updZ (removeCell s e).count ((removeCell s e).col e)
        ((removeCell s e).count ((removeCell s e).col e) + 1) = s.count
    rw [removeCell_col, removeCell_count, updZ_updZ, updZ_same, sub_add_cancel]
    exact updZ_self _ _
  · rfl
  · rfl

theorem seqOK_append_left {s : Mat α} {l₁ l₂ : List Nat}
    (h : SeqOK s (l₁ ++ l₂)) : SeqOK s l₁ ∧ SeqOK (removeSeq s l₁) l₂ := by
  induction l₁ generalizing s with
  | nil => exact ⟨SeqOK.nil s, h⟩
  | cons e l₁ ih =>
    cases h with
    | cons hok htail =>
      obtain ⟨ha, hb⟩ := ih htail
      exact ⟨SeqOK.cons hok ha, hb⟩

/-- Dancing-links inversion, sequence form: re-adding the removed cells in
reverse order restores the state exactly. -/
theorem addSeq_removeSeq {s : Mat α} {es : List Nat} (h : SeqOK s es) :
    addSeq (removeSeq s es) es.reverse = s := by
  induction es generalizing s with
  | nil => rfl
  | cons e es ih =>
    cases h with
    | cons hok htail =>
      rw [List.reverse_cons]
      show addSeq (removeSeq (removeCell s e) es) (es.reverse ++ [e]) = s
      rw [addSeq_append, ih htail]
      show addCell (removeCell s e) e = s
      exact addCell_removeCell hok

/-! ### The family invariant: consistent column circles -/

/-- All nodes of a family of column entries (header plus current cells). -/
def famNodes (F : List (Nat × List Nat)) : List Nat :=
  (F.map (fun p => p.1 :: p.2)).flatten

/-- One family entry is consistent: its down/up circle is well linked, all
its cells name it as their column, and its header count equals its length. -/
def EntryOK (s : Mat α) (c : Nat) (l : List Nat) : Prop :=
  Path s.down s.up c l c ∧ (∀ x ∈ l, s.col x = c) ∧ s.count c = (l.length : Int)

/-- The family invariant: every entry is consistent and all entry nodes
are distinct across the family. -/
def Fam (s : Mat α) (F : List (Nat × List Nat)) : Prop :=
  (∀ p ∈ F, EntryOK s p.1 p.2) ∧ (famNodes F).Nodup

/-- Remove a cell from every entry of the family. -/
def eraseF (F : List (Nat × List Nat)) (e : Nat) : List (Nat × List Nat) :=
  F.map (fun p => (p.1, p.2.erase e))

/-- A cell sequence is consumable from a family when every cell, in order,
is still present in an entry at its turn. -/
inductive Consume : List (Nat × List Nat) → List Nat → Prop
  | nil (F : List (Nat × List Nat)) : Consume F []
  | cons {F : List (Nat × List Nat)} {e : Nat} {es : List Nat} (c : Nat) (l : List Nat) :
      (c, l) ∈ F → e ∈ l → Consume (eraseF F e) es → Consume F (e :: es)

theorem famNodes_cons (p : Nat × List Nat) (F : List (Nat × List Nat)) :
    famNodes (p :: F) = (p.1 :: p.2) ++ famNodes F := by
  simp [famNodes]

theorem famNodes_eraseF_sublist (F : List (Nat × List Nat)) (e : Nat) :
    List.Sublist (famNodes (eraseF F e)) (famNodes F) := by
  induction F with
  | nil => simp [famNodes, eraseF]
  | cons p F ih =>
    show List.Sublist (famNodes ((p.1, p.2.erase e) :: eraseF F e)) _
    rw [famNodes_cons, famNodes_cons]
    exact List.Sublist.append (List.Sublist.cons₂ _ (List.erase_sublist _ _)) ih

theorem mem_famNodes_of_entry {F : List (Nat × List Nat)} {c : Nat} {l : List Nat}
    (h : (c, l) ∈ F) {x : Nat} (hx : x ∈ c :: l) : x ∈ famNodes F := by
  induction F with
  | nil => cases h
  | cons p F ih =>
    rw [famNodes_cons]
    rcases List.mem_cons.mp h with rfl | h'
    · exact List.mem_append.mpr (Or.inl hx)
    · exact List.mem_append.mpr (Or.inr (ih h'))

/-- In a family with globally distinct nodes, a node determines its block. -/
theorem block_eq_of_mem {L : List (List Nat)} (h : L.flatten.Nodup) :
    ∀ {l₁ l₂ : List Nat}, l₁ ∈ L → l₂ ∈ L → ∀ {x : Nat}, x ∈ l₁ → x ∈ l₂ → l₁ = l₂ := by
  induction L with
  | nil => intro l₁ l₂ h₁; cases h₁
  | cons a L ih =>
    intro l₁ l₂ h₁ h₂ x hx₁ hx₂
    rw [List.flatten_cons] at h
    have hdisj := List.disjoint_of_nodup_append h
    rcases List.mem_cons.mp h₁ with rfl | h₁' <;>
      rcases List.mem_cons.mp h₂ with rfl | h₂'
    · rfl
    · exact absurd (List.mem_flatten.mpr ⟨l₂, h₂', hx₂⟩) (hdisj hx₁)
    · exact absurd (List.mem_flatten.mpr ⟨l₁, h₁', hx₁⟩) (hdisj hx₂)
    · exact ih (List.Nodup.of_append_right h) h₁' h₂' hx₁ hx₂

theorem block_nodup {L : List (List Nat)} (h : L.flatten.Nodup) {l : List Nat}
    (hl : l ∈ L) : l.Nodup := by
  induction L with
  | nil => cases hl
  | cons a L ih =>
    rw [List.flatten_cons] at h
    rcases List.mem_cons.mp hl with rfl | hl'
    · exact List.Nodup.of_append_left h
    · exact ih (List.Nodup.of_append_right h) hl'

theorem removeCell_up_ne (s : Mat α) (e : Nat) {x : Nat} (h : x ≠ s.down e) :
    (removeCell s e).up x = s.up x := by
  rw [removeCell_up]; exact upd_ne _ _ h

theorem removeCell_down_ne (s : Mat α) (e : Nat) {x : Nat} (h : x ≠ s.up e) :
    (removeCell s e).down x = s.down x := by
  rw [removeCell_down]; exact upd_ne _ _ h

theorem removeCell_count_ne (s : Mat α) (e : Nat) {x : Nat} (h : x ≠ s.col e) :
    (removeCell s e).count x = s.count x := by
  rw [removeCell_count]; exact updZ_ne _ _ h

/-- Removing a cell that is present in a consistent family: the cell is
locally consistent, its column and vertical neighbours lie in its entry's
block, and the family invariant survives with the cell erased. -/
theorem fam_remove {s : Mat α} {F : List (Nat × List Nat)} {c : Nat} {l : List Nat}
    {e : Nat} (hF : Fam s F) (hcl : (c, l) ∈ F) (he : e ∈ l) :
    CellOK s e ∧ s.col e = c ∧ s.up e ∈ c :: l ∧ s.down e ∈ c :: l ∧
      Fam (removeCell s e) (eraseF F e) := by
  obtain ⟨hEnt, hnd⟩ := hF
  obtain ⟨hpath, hcols, hcnt⟩ := hEnt _ hcl
  obtain ⟨l₁, l₂, rfl⟩ := List.append_of_mem he
  have hblockmem : (c :: (l₁ ++ e :: l₂)) ∈ F.map (fun p => p.1 :: p.2) :=
    List.mem_map_of_mem _ hcl
  have hndblk : (c :: (l₁ ++ e :: l₂)).Nodup := block_nodup hnd hblockmem
  have hcnot : c ∉ l₁ ++ e :: l₂ := (List.nodup_cons.mp hndblk).1
  have hndtl : (l₁ ++ e :: l₂).Nodup := (List.nodup_cons.mp hndblk).2
  have henl₁ : e ∉ l₁ := fun hx =>
    (List.disjoint_of_nodup_append hndtl) hx (List.mem_cons_self e l₂)
  have henl₂ : e ∉ l₂ :=
    (List.nodup_cons.mp (List.Nodup.of_append_right hndtl)).1
  have henc : e ≠ c := fun hx =>
    hcnot (hx ▸ List.mem_append.mpr (Or.inr (List.mem_cons_self _ _)))
  obtain ⟨P₁, P₂⟩ := Path.split l₁ hpath
  have hup_mem : s.up e ∈ c :: l₁ := path_prv_mem P₁
  have hdown_mem : s.down e ∈ l₂ ++ [c] := path_nxt_mem P₂
  have hok : CellOK s e := by
    refine ⟨path_nxt_prv P₁, path_prv_nxt P₂, ?_, ?_⟩
    · intro hcontra
      rw [hcontra] at hup_mem
      rcases List.mem_cons.mp hup_mem with h' | h'
      · exact henc h'
      · exact henl₁ h'
    · intro hcontra
      rw [hcontra] at hdown_mem
      rcases List.mem_append.mp hdown_mem with h' | h'
      · exact henl₂ h'
      · exact henc (List.mem_singleton.mp h')
  have hcole : s.col e = c :=
    hcols e (List.mem_append.mpr (Or.inr (List.mem_cons_self _ _)))
  have hup_mem' : s.up e ∈ c :: (l₁ ++ e :: l₂) := by
    rcases List.mem_cons.mp hup_mem with h' | h'
    · exact h' ▸ List.mem_cons_self _ _
    · exact List.mem_cons_of_mem _ (List.mem_append.mpr (Or.inl h'))
  have hdown_mem' : s.down e ∈ c :: (l₁ ++ e :: l₂) := by
    rcases List.mem_append.mp hdown_mem with h' | h'
    · exact List.mem_cons_of_mem _
        (List.mem_append.mpr (Or.inr (List.mem_cons_of_mem _ h')))
    · exact (List.mem_singleton.mp h') ▸ List.mem_cons_self _ _
  refine ⟨hok, hcole, hup_mem', hdown_mem', ?_, ?_⟩
  · intro p hp
    obtain ⟨q, hq, rfl⟩ := List.mem_map.mp hp
    by_cases heq : e ∈ q.2
    · have hblk : q.1 :: q.2 = c :: (l₁ ++ e :: l₂) :=
        block_eq_of_mem hnd (List.mem_map_of_mem _ hq) hblockmem
          (List.mem_cons_of_mem _ heq) (List.mem_cons_of_mem _ he)
      obtain ⟨hq1, hq2⟩ := List.cons.injEq _ _ _ _ ▸ hblk
      have herase : q.2.erase e = l₁ ++ l₂ := by
        rw [hq2, List.erase_append_right _ henl₁, List.erase_cons_head]
      rw [hq1, herase]
      refine ⟨?_, ?_, ?_⟩
      · rw [removeCell_down, removeCell_up]
        exact path_erase hpath hndblk hcnot
      · intro x hx
        rw [removeCell_col]
        refine hcols x ?_
        rcases List.mem_append.mp hx with h' | h'
        · exact List.mem_append.mpr (Or.inl h')
        · exact List.mem_append.mpr (Or.inr (List.mem_cons_of_mem _ h'))
      · rw [removeCell_count, hcole, updZ_same, hcnt]
        simp only [List.length_append, List.length_cons]
        push_cast
        ring
    · have herase : q.2.erase e = q.2 := List.erase_of_not_mem heq
      have hdisjq : ∀ x, x ∈ q.1 :: q.2 → x ∈ c :: (l₁ ++ e :: l₂) → False := by
        intro x hx hx'
        have hblk : q.1 :: q.2 = c :: (l₁ ++ e :: l₂) :=
          block_eq_of_mem hnd (List.mem_map_of_mem _ hq) hblockmem hx hx'
        have : e ∈ q.1 :: q.2 := hblk ▸ List.mem_cons_of_mem _ he
        rcases List.mem_cons.mp this with h' | h'
        · have : q.1 = c := (List.cons.injEq _ _ _ _ ▸ hblk).1
          exact henc (h' ▸ this)
        · exact heq h'
      obtain ⟨hqpath, hqcols, hqcnt⟩ := hEnt _ hq
      rw [herase]
      refine ⟨?_, ?_, ?_⟩
      · refine Path.congr hqpath (fun y hy => ?_) (fun y hy => ?_)
        · refine removeCell_down_ne s e (fun hcon => hdisjq y hy (hcon ▸ hup_mem'))
        · refine removeCell_up_ne s e (fun hcon => ?_)
          have hy' : y ∈ q.1 :: q.2 := by
            rcases List.mem_append.mp hy with h' | h'
            · exact List.mem_cons_of_mem _ h'
            · exact (List.mem_singleton.mp h') ▸ List.mem_cons_self _ _
          exact hdisjq y hy' (hcon ▸ hdown_mem')
      · intro x hx
        rw [removeCell_col]; exact hqcols x hx
      · rw [removeCell_count_ne s e (fun hcon => ?_), hqcnt]
        rw [hcole] at hcon
        exact hdisjq q.1 (List.mem_cons_self _ _) (hcon ▸ List.mem_cons_self _ _)
  · exact List.Nodup.sublist (famNodes_eraseF_sublist F e) hnd

/-- Erasing consumed cells step by step through a list. -/
def eraseFseq (F : List (Nat × List Nat)) (es : List Nat) : List (Nat × List Nat) :=
  es.foldl eraseF F

/-- Removing a consumable sequence: it is a valid removal sequence, the
family invariant survives with the consumed cells erased, and nodes
outside the family are untouched in their `up`, `down` and `count`. -/
theorem fam_consume {s : Mat α} {F : List (Nat × List Nat)} {es : List Nat}
    (hF : Fam s F) (hc : Consume F es) :
    SeqOK s es ∧ Fam (removeSeq s es) (eraseFseq F es) ∧
      ∀ x, x ∉ famNodes F →
        (removeSeq s es).up x = s.up x ∧ (removeSeq s es).down x = s.down x ∧
          (removeSeq s es).count x = s.count x := by
  induction hc generalizing s with
  | nil F => exact ⟨SeqOK.nil s, hF, fun x _ => ⟨rfl, rfl, rfl⟩⟩
  | @cons F e es c l hclF hel _ ih =>
    obtain ⟨hok, hcole, hupmem, hdownmem, hF'⟩ := fam_remove hF hclF hel
    obtain ⟨hseq, hfam, hframe⟩ := ih hF'
    refine ⟨SeqOK.cons hok hseq, hfam, fun x hx => ?_⟩
    have hxsub : x ∉ famNodes (eraseF F e) := fun hmem =>
      hx (List.Sublist.subset (famNodes_eraseF_sublist F e) hmem)
    obtain ⟨f1, f2, f3⟩ := hframe x hxsub
    have hup : (removeCell s e).up x = s.up x :=
      removeCell_up_ne s e (fun hcon => hx (mem_famNodes_of_entry hclF (hcon ▸ hdownmem)))
    have hdown : (removeCell s e).down x = s.down x :=
      removeCell_down_ne s e (fun hcon => hx (mem_famNodes_of_entry hclF (hcon ▸ hupmem)))
    have hcount : (removeCell s e).count x = s.count x :=
      removeCell_count_ne s e (fun hcon => by
        rw [hcole] at hcon
        exact hx (mem_famNodes_of_entry hclF (hcon ▸ List.mem_cons_self _ _)))
    exact ⟨by rw [show removeSeq s (e :: es) = removeSeq (removeCell s e) es from rfl,
        f1, hup],
      by rw [show removeSeq s (e :: es) = removeSeq (removeCell s e) es from rfl, f2, hdown],
      by rw [show removeSeq s (e :: es) = removeSeq (removeCell s e) es from rfl, f3, hcount]⟩

/-- Distinct cells that are each present in an entry of the family can be
consumed in any order. -/
theorem consume_of_mem {F : List (Nat × List Nat)} :
    ∀ {es : List Nat}, es.Nodup → (∀ e ∈ es, ∃ p ∈ F, e ∈ p.2) → Consume F es := by
  intro es
  induction es generalizing F with
  | nil => exact fun _ _ => Consume.nil F
  | cons e es ih =>
    intro hnd hmem
    obtain ⟨p, hpF, hep⟩ := hmem e (List.mem_cons_self _ _)
    refine Consume.cons p.1 p.2 hpF hep (ih (List.Nodup.of_cons hnd) ?_)
    intro e' he'
    obtain ⟨q, hq, he'q⟩ := hmem e' (List.mem_cons_of_mem _ he')
    refine ⟨(q.1, q.2.erase e), List.mem_map_of_mem _ hq, ?_⟩
    have hne : e' ≠ e := by
      rintro rfl
      exact (List.nodup_cons.mp hnd).1 he'
    exact (List.mem_erase_of_ne hne).mpr he'q

theorem consume_append_left {F : List (Nat × List Nat)} :
    ∀ (l₁ l₂ : List Nat), Consume F (l₁ ++ l₂) → Consume F l₁ := by
  intro l₁
  induction l₁ generalizing F with
  | nil => exact fun _ _ => Consume.nil F
  | cons e l₁ ih =>
    intro l₂ h
    cases h with
    | cons c l hcl hel htail => exact Consume.cons c l hcl hel (ih _ htail)

/-! ### Traversal lemmas: the C loops compute removal and addition
sequences over the linked lists they walk -/

/-- Cells processed by `unlink_column` for a list of rows, each row
contributing its cells in left-to-right reversed (i.e. leftward) order. -/
def flatRev (rc : Nat → List Nat) : List Nat → List Nat
  | [] => []
  | r :: rs => (rc r).reverse ++ flatRev rc rs

theorem flatRev_append (rc : Nat → List Nat) (l₁ l₂ : List Nat) :
    flatRev rc (l₁ ++ l₂) = flatRev rc l₁ ++ flatRev rc l₂ := by
  induction l₁ with
  | nil => rfl
  | cons r l₁ ih => simp [flatRev, ih]

/-- The inner loop of `unlink_column` removes exactly the cells on the
leftward path from its starting cell back to the row sentinel. -/
theorem unlinkCells_run {row : Nat} :
    ∀ {p : List Nat} {s : Mat α} {e : Nat} {fuel : Nat},
      Path s.left s.right e p row → e ≠ row → row ∉ p →
      p.length + 2 ≤ fuel →
      unlinkCells fuel s row e = removeSeq s (e :: p) := by
  intro p
  induction p with
  | nil =>
    intro s e fuel hP hne hrow hfuel
    obtain ⟨f, rfl⟩ : ∃ f, fuel = f + 1 + 1 := ⟨fuel - 2, by omega⟩
    show unlinkCells (f + 1 + 1) s row e = _
    rw [unlinkCells, if_neg hne]
    show unlinkCells (f + 1) (removeCell s e) row ((removeCell s e).left e) = _
    have hl : (removeCell s e).left e = row := by rw [removeCell_left]; exact hP.1
    rw [hl, unlinkCells, if_pos rfl]
    rfl
  | cons x p ih =>
    intro s e fuel hP hne hrow hfuel
    obtain ⟨f, rfl⟩ : ∃ f, fuel = f + 1 := ⟨fuel - 1, by omega⟩
    show unlinkCells (f + 1) s row e = _
    rw [unlinkCells, if_neg hne]
    show unlinkCells f (removeCell s e) row ((removeCell s e).left e) = _
    have hl : (removeCell s e).left e = x := by rw [removeCell_left]; exact hP.1
    rw [hl]
    have hP' : Path (removeCell s e).left (removeCell s e).right x p row := by
      rw [removeCell_left, removeCell_right]; exact hP.2.2
    have hxne : x ≠ row := fun hc => hrow (hc ▸ List.mem_cons_self _ _)
    have hrow' : row ∉ p := fun hc => hrow (List.mem_cons_of_mem _ hc)
    rw [ih hP' hxne hrow' (by simp at hfuel ⊢; omega)]
    rfl

/-- The inner loop of `link_column` adds exactly the cells on the
rightward path from its starting cell back to the row sentinel. -/
theorem linkCells_run {row : Nat} :
    ∀ {p : List Nat} {s : Mat α} {e : Nat} {fuel : Nat},
      Path s.right s.left e p row → e ≠ row → row ∉ p →
      p.length + 2 ≤ fuel →
      linkCells fuel s row e = addSeq s (e :: p) := by
  intro p
  induction p with
  | nil =>
    intro s e fuel hP hne hrow hfuel
    obtain ⟨f, rfl⟩ : ∃ f, fuel = f + 1 + 1 := ⟨fuel - 2, by omega⟩
    show linkCells (f + 1 + 1) s row e = _
    rw [linkCells, if_neg hne]
    show linkCells (f + 1) (addCell s e) row ((addCell s e).right e) = _
    have hl : (addCell s e).right e = row := by rw [addCell_right]; exact hP.1
    rw [hl, linkCells, if_pos rfl]
    rfl
  | cons x p ih =>
    intro s e fuel hP hne hrow hfuel
    obtain ⟨f, rfl⟩ : ∃ f, fuel = f + 1 := ⟨fuel - 1, by omega⟩
    show linkCells (f + 1) s row e = _
    rw [linkCells, if_neg hne]
    show linkCells f (addCell s e) row ((addCell s e).right e) = _
    have hl : (addCell s e).right e = x := by rw [addCell_right]; exact hP.1
    rw [hl]
    have hP' : Path (addCell s e).right (addCell s e).left x p row := by
      rw [addCell_left, addCell_right]; exact hP.2.2
    have hxne : x ≠ row := fun hc => hrow (hc ▸ List.mem_cons_self _ _)
    have hrow' : row ∉ p := fun hc => hrow (List.mem_cons_of_mem _ hc)
    rw [ih hP' hxne hrow' (by simp at hfuel ⊢; omega)]
    rfl

/-- `linkHeader` only involves the horizontal fields, cell additions only
the vertical ones, so the two operations commute. -/
theorem linkHeader_addCell (m : Mat α) (h e : Nat) :
    addCell (linkHeader m h) e = linkHeader (addCell m e) h := rfl

theorem linkHeader_addSeq (m : Mat α) (h : Nat) :
    ∀ (es : List Nat), addSeq (linkHeader m h) es = linkHeader (addSeq m es) h := by
  intro es
  induction es generalizing m with
  | nil => rfl
  | cons e es ih =>
    show addSeq (addCell (linkHeader m h) e) es = _
    rw [linkHeader_addCell, ih]
    rfl

/-- The horizontal fields of `linkHeader` depend only on the horizontal
fields of its input, which cell removals preserve. -/
theorem linkHeader_removeSeq_left (t : Mat α) (h : Nat) (es : List Nat) :
    (linkHeader (removeSeq t es) h).left = (linkHeader t h).left := by
  show upd (removeSeq t es).left
      ((upd (removeSeq t es).right ((removeSeq t es).left h) h) h) h
    = upd t.left ((upd t.right (t.left h) h) h) h
  rw [removeSeq_left, removeSeq_right]

theorem linkHeader_removeSeq_right (t : Mat α) (h : Nat) (es : List Nat) :
    (linkHeader (removeSeq t es) h).right = (linkHeader t h).right := by
  show upd (removeSeq t es).right _ _ = upd t.right _ _
  rw [removeSeq_left, removeSeq_right]

/-- Relinking a header right after unlinking it restores the state, when
the neighbours pointed back at it. -/
theorem linkHeader_unlinkHeader (s : Mat α) (h : Nat)
    (h1 : s.right (s.left h) = h) (h2 : s.left (s.right h) = h)
    (h3 : s.left h ≠ h) (h4 : s.right h ≠ h) :
    linkHeader (unlinkHeader s h) h = s := by
  have tl : (unlinkHeader s h).left h = s.left h := by
    rw [unlinkHeader_eq]
    exact upd_ne _ _ (fun hc => h4 hc.symm)
  have tr : (unlinkHeader s h).right h = s.right h := by
    rw [unlinkHeader_eq]
    exact upd_ne _ _ (fun hc => h3 hc.symm)
  have hs1r : (upd (unlinkHeader s h).right ((unlinkHeader s h).left h) h) h
      = s.right h := by
    rw [tl, upd_ne _ _ (fun hc => h3 hc.symm)]
    exact tr
  apply Mat.ext
  · rfl
  · rfl
  · show upd (unlinkHeader s h).left
        ((upd (unlinkHeader s h).right ((unlinkHeader s h).left h) h) h) h = s.left
    rw [hs1r]
    have : (unlinkHeader s h).left = upd s.left (s.right h) (s.left h) := by
      rw [unlinkHeader_eq]
    rw [this, upd_upd]
    exact upd_of_eq _ _ _ h2
  · show upd (unlinkHeader s h).right ((unlinkHeader s h).left h) h = s.right
    rw [tl]
    have : (unlinkHeader s h).right = upd s.right (s.left h) (s.right h) := by
      rw [unlinkHeader_eq]
    rw [this, upd_upd]
    exact upd_of_eq _ _ _ h1
  · rfl
  · rfl
  · rfl
  · rfl

theorem mem_flatRev {rc : Nat → List Nat} {e : Nat} :
    ∀ {rs : List Nat}, e ∈ flatRev rc rs ↔ ∃ r ∈ rs, e ∈ rc r := by
  intro rs
  induction rs with
  | nil => simp [flatRev]
  | cons r rs ih => simp [flatRev, ih]

/-- Outer loop of `unlink_column`: walking the remaining rows upward from
`cur`, the loop performs exactly the removal sequence of those rows'
cells, appended to the removals already done. -/
theorem unlinkRows_go (t : Mat α) (F : List (Nat × List Nat)) (h : Nat)
    (rc : Nat → List Nat) (hFam : Fam t F) :
    ∀ (RS done : List Nat) (cur fuel icap : Nat),
      Path t.up t.down cur RS h → cur ≠ h → h ∉ RS →
      (∀ x ∈ cur :: RS, x ∉ famNodes F) →
      (∀ r ∈ cur :: RS, Path t.right t.left r (rc r) r ∧ (r :: rc r).Nodup) →
      Consume F (flatRev rc done ++ flatRev rc (cur :: RS)) →
      RS.length + 2 ≤ fuel →
      (∀ r ∈ cur :: RS, (rc r).length + 2 ≤ icap) →
      unlinkRows fuel icap (removeSeq t (flatRev rc done)) h cur
        = removeSeq t (flatRev rc done ++ flatRev rc (cur :: RS)) := by
  intro RS
  induction RS with
  | nil =>
    intro done cur fuel icap hP hcur hh hnotF hrows hC hfuel hicap
    obtain ⟨f, rfl⟩ : ∃ f, fuel = f + 1 + 1 := ⟨fuel - 2, by omega⟩
    rw [unlinkRows, if_neg hcur]
    set T := removeSeq t (flatRev rc done) with hT
    show unlinkRows (f + 1) icap (unlinkCells icap T cur (T.left cur)) h
        ((unlinkCells icap T cur (T.left cur)).up cur) = _
    obtain ⟨hrowP, hrownd⟩ := hrows cur (List.mem_cons_self _ _)
    have hinner : unlinkCells icap T cur (T.left cur)
        = removeSeq t (flatRev rc done ++ (rc cur).reverse) := by
      rw [removeSeq_append, ← hT]
      cases hrc : rc cur with
      | nil =>
        have hlcur : T.left cur = cur := by
          rw [hT, removeSeq_left]
          rw [hrc] at hrowP
          exact hrowP.2
        obtain ⟨g, rfl⟩ : ∃ g, icap = g + 1 := by
          have := hicap cur (List.mem_cons_self _ _)
          exact ⟨icap - 1, by omega⟩
        rw [hlcur, unlinkCells, if_pos rfl]
        rfl
      | cons x R' =>
        rw [hrc] at hrowP hrownd
        have hrev : Path t.left t.right cur ((x :: R').reverse) cur :=
          Path.reverse hrowP
        obtain ⟨e₀, p', hEq⟩ : ∃ e₀ p', (x :: R').reverse = e₀ :: p' := by
          rcases List.exists_cons_of_ne_nil
            (show (x :: R').reverse ≠ [] by simp) with ⟨e₀, p', hEq⟩
          exact ⟨e₀, p', hEq⟩
        rw [hEq] at hrev
        have hlcur : T.left cur = e₀ := by rw [hT, removeSeq_left]; exact hrev.1
        have hmemrev : ∀ y ∈ e₀ :: p', y ∈ x :: R' := by
          intro y hy
          rw [← List.mem_reverse, hEq]
          exact hy
        have hcurnot : cur ∉ x :: R' := (List.nodup_cons.mp hrownd).1
        have hP' : Path T.left T.right e₀ p' cur := by
          rw [hT, removeSeq_left, removeSeq_right]; exact hrev.2.2
        have hlen : p'.length + 1 = (x :: R').length := by
          have := congrArg List.length hEq
          simpa using this.symm
        rw [hlcur, unlinkCells_run hP'
          (fun hc => hcurnot (hmemrev e₀ (List.mem_cons_self _ _) |> (hc ▸ ·)))
          (fun hc => hcurnot (hmemrev cur (List.mem_cons_of_mem _ hc)))
          (by have h2 := congrArg List.length hEq
              simp only [List.length_reverse, List.length_cons] at h2
              have := hicap cur (List.mem_cons_self _ _)
              rw [hrc] at this
              simp only [List.length_cons] at this
              omega)]
        rw [hEq]
    rw [hinner]
    have hCpre : Consume F (flatRev rc done ++ (rc cur).reverse) := by
      refine consume_append_left _ [] ?_
      simpa [flatRev] using hC
    have hup : (removeSeq t (flatRev rc done ++ (rc cur).reverse)).up cur = t.up cur :=
      ((fam_consume hFam hCpre).2.2 cur
        (hnotF cur (List.mem_cons_self _ _))).1
    rw [hup, hP.1, unlinkRows, if_pos rfl]
    simp [flatRev]
  | cons nr RS' ih =>
    intro done cur fuel icap hP hcur hh hnotF hrows hC hfuel hicap
    obtain ⟨f, rfl⟩ : ∃ f, fuel = f + 1 := ⟨fuel - 1, by omega⟩
    rw [unlinkRows, if_neg hcur]
    set T := removeSeq t (flatRev rc done) with hT
    show unlinkRows f icap (unlinkCells icap T cur (T.left cur)) h
        ((unlinkCells icap T cur (T.left cur)).up cur) = _
    obtain ⟨hrowP, hrownd⟩ := hrows cur (List.mem_cons_self _ _)
    have hinner : unlinkCells icap T cur (T.left cur)
        = removeSeq t (flatRev rc done ++ (rc cur).reverse) := by
      rw [removeSeq_append, ← hT]
      cases hrc : rc cur with
      | nil =>
        have hlcur : T.left cur = cur := by
          rw [hT, removeSeq_left]
          rw [hrc] at hrowP
          exact hrowP.2
        obtain ⟨g, rfl⟩ : ∃ g, icap = g + 1 := by
          have := hicap cur (List.mem_cons_self _ _)
          exact ⟨icap - 1, by omega⟩
        rw [hlcur, unlinkCells, if_pos rfl]
        rfl
      | cons x R' =>
        rw [hrc] at hrowP hrownd
        have hrev : Path t.left t.right cur ((x :: R').reverse) cur :=
          Path.reverse hrowP
        obtain ⟨e₀, p', hEq⟩ : ∃ e₀ p', (x :: R').reverse = e₀ :: p' := by
          rcases List.exists_cons_of_ne_nil
            (show (x :: R').reverse ≠ [] by simp) with ⟨e₀, p', hEq⟩
          exact ⟨e₀, p', hEq⟩
        rw [hEq] at hrev
        have hlcur : T.left cur = e₀ := by rw [hT, removeSeq_left]; exact hrev.1
        have hmemrev : ∀ y ∈ e₀ :: p', y ∈ x :: R' := by
          intro y hy
          rw [← List.mem_reverse, hEq]
          exact hy
        have hcurnot : cur ∉ x :: R' := (List.nodup_cons.mp hrownd).1
        have hP' : Path T.left T.right e₀ p' cur := by
          rw [hT, removeSeq_left, removeSeq_right]; exact hrev.2.2
        rw [hlcur, unlinkCells_run hP'
          (fun hc => hcurnot (hmemrev e₀ (List.mem_cons_self _ _) |> (hc ▸ ·)))
          (fun hc => hcurnot (hmemrev cur (List.mem_cons_of_mem _ hc)))
          (by have h2 := congrArg List.length hEq
              simp only [List.length_reverse, List.length_cons] at h2
              have := hicap cur (List.mem_cons_self _ _)
              rw [hrc] at this
              simp only [List.length_cons] at this
              omega)]
        rw [hEq]
    rw [hinner]
    have hCpre : Consume F (flatRev rc done ++ (rc cur).reverse) := by
      have : flatRev rc done ++ flatRev rc (cur :: nr :: RS')
          = (flatRev rc done ++ (rc cur).reverse) ++ flatRev rc (nr :: RS') := by
        simp [flatRev]
      rw [this] at hC
      exact consume_append_left _ _ hC
    have hup : (removeSeq t (flatRev rc done ++ (rc cur).reverse)).up cur = t.up cur :=
      ((fam_consume hFam hCpre).2.2 cur
        (hnotF cur (List.mem_cons_self _ _))).1
    rw [hup, hP.1]
    have hdone' : flatRev rc done ++ (rc cur).reverse = flatRev rc (done ++ [cur]) := by
      simp [flatRev_append, flatRev]
    rw [hdone']
    have hres := ih (done ++ [cur]) nr f icap hP.2.2
      (fun hc => hh (hc ▸ List.mem_cons_self _ _))
      (fun hc => hh (List.mem_cons_of_mem _ hc))
      (fun x hx => hnotF x (List.mem_cons_of_mem _ hx))
      (fun r hr => hrows r (List.mem_cons_of_mem _ hr))
      (by
        have : flatRev rc (done ++ [cur]) ++ flatRev rc (nr :: RS')
            = flatRev rc done ++ flatRev rc (cur :: nr :: RS') := by
          simp [flatRev_append, flatRev]
        rw [this]
        exact hC)
      (by simp at hfuel ⊢; omega)
      (fun r hr => hicap r (List.mem_cons_of_mem _ hr))
    rw [hres]
    have : flatRev rc (done ++ [cur]) ++ flatRev rc (nr :: RS')
        = flatRev rc done ++ flatRev rc (cur :: nr :: RS') := by
      simp [flatRev_append, flatRev]
    rw [this]

/-- Outer loop of `link_column`: walking the rows downward from `cur`
through the covered state, the loop re-adds exactly the remaining removal
sequence and restores the state up to the header relink. -/
theorem linkRows_go (t : Mat α) (F : List (Nat × List Nat)) (h : Nat)
    (rc : Nat → List Nat) (hFam : Fam t F) :
    ∀ (RSrem : List Nat) (cur fuel icap : Nat),
      Path t.down t.up cur RSrem h → cur ≠ h → h ∉ RSrem →
      (∀ x ∈ cur :: RSrem, x ∉ famNodes F) →
      (∀ r ∈ cur :: RSrem,
        Path (linkHeader t h).right (linkHeader t h).left r (rc r) r ∧
          (r :: rc r).Nodup) →
      Consume F (flatRev rc RSrem.reverse ++ (rc cur).reverse) →
      RSrem.length + 2 ≤ fuel →
      (∀ r ∈ cur :: RSrem, (rc r).length + 2 ≤ icap) →
      linkRows fuel icap
          (linkHeader (removeSeq t (flatRev rc RSrem.reverse ++ (rc cur).reverse)) h)
          h cur
        = linkHeader t h := by
  intro RSrem
  induction RSrem with
  | nil =>
    intro cur fuel icap hP hcur hh hnotF hrows hC hfuel hicap
    obtain ⟨f, rfl⟩ : ∃ f, fuel = f + 1 + 1 := ⟨fuel - 2, by omega⟩
    obtain ⟨hrowP, hrownd⟩ := hrows cur (List.mem_cons_self _ _)
    have hSeq : SeqOK t (flatRev rc List.nil.reverse ++ (rc cur).reverse) :=
      (fam_consume hFam hC).1
    rw [linkRows, if_neg hcur]
    have hinner : (linkCells icap
        (linkHeader (removeSeq t (flatRev rc List.nil.reverse ++ (rc cur).reverse)) h)
        cur ((linkHeader (removeSeq t (flatRev rc List.nil.reverse ++ (rc cur).reverse))
          h).right cur))
        = linkHeader (removeSeq t (flatRev rc List.nil.reverse)) h := by
      have hSB := (seqOK_append_left hSeq).2
      cases hrc : rc cur with
      | nil =>
        rw [hrc] at hrowP
        have hrcur : (linkHeader
            (removeSeq t (flatRev rc List.nil.reverse ++ List.nil.reverse)) h).right cur
            = cur := by
          rw [linkHeader_removeSeq_right]
          exact hrowP.1
        obtain ⟨g, rfl⟩ : ∃ g, icap = g + 1 := ⟨icap - 1, by
          have := hicap cur (List.mem_cons_self _ _); omega⟩
        rw [hrcur, linkCells, if_pos rfl]
        simp
      | cons x R' =>
        rw [hrc] at hrowP hrownd hSB
        have hrcur : (linkHeader
            (removeSeq t (flatRev rc List.nil.reverse ++ (x :: R').reverse)) h).right cur
            = x := by
          rw [linkHeader_removeSeq_right]
          exact hrowP.1
        have hP' : Path (linkHeader
              (removeSeq t (flatRev rc List.nil.reverse ++ (x :: R').reverse)) h).right
            (linkHeader
              (removeSeq t (flatRev rc List.nil.reverse ++ (x :: R').reverse)) h).left
            x R' cur := by
          rw [linkHeader_removeSeq_right, linkHeader_removeSeq_left]
          exact hrowP.2.2
        have hcurnot : cur ∉ x :: R' := (List.nodup_cons.mp hrownd).1
        rw [hrcur, linkCells_run hP'
          (fun hc => hcurnot (hc ▸ List.mem_cons_self _ _))
          (fun hc => hcurnot (List.mem_cons_of_mem _ hc))
          (by have := hicap cur (List.mem_cons_self _ _)
              rw [hrc] at this
              simp only [List.length_cons] at this ⊢
              omega)]
        rw [linkHeader_addSeq]
        congr 1
        rw [removeSeq_append]
        have hres := addSeq_removeSeq hSB
        rw [List.reverse_reverse] at hres
        exact hres
    rw [hinner]
    show linkRows (f + 1) icap (linkHeader (removeSeq t (flatRev rc List.nil.reverse)) h)
        h ((linkHeader (removeSeq t (flatRev rc List.nil.reverse)) h).down cur)
      = linkHeader t h
    have hdown : (linkHeader (removeSeq t (flatRev rc List.nil.reverse)) h).down cur
        = t.down cur := by
      rw [linkHeader_down]
      show (removeSeq t []).down cur = t.down cur
      rfl
    rw [hdown, hP.1]
    show linkRows (f + 1) icap (linkHeader t h) h h = linkHeader t h
    rw [linkRows, if_pos rfl]
  | cons nr RS' ih =>
    intro cur fuel icap hP hcur hh hnotF hrows hC hfuel hicap
    obtain ⟨f, rfl⟩ : ∃ f, fuel = f + 1 := ⟨fuel - 1, by omega⟩
    obtain ⟨hrowP, hrownd⟩ := hrows cur (List.mem_cons_self _ _)
    have hSeq : SeqOK t (flatRev rc (nr :: RS').reverse ++ (rc cur).reverse) :=
      (fam_consume hFam hC).1
    rw [linkRows, if_neg hcur]
    have hinner : (linkCells icap
        (linkHeader (removeSeq t (flatRev rc (nr :: RS').reverse ++ (rc cur).reverse)) h)
        cur ((linkHeader (removeSeq t
          (flatRev rc (nr :: RS').reverse ++ (rc cur).reverse)) h).right cur))
        = linkHeader (removeSeq t (flatRev rc (nr :: RS').reverse)) h := by
      have hSB := (seqOK_append_left hSeq).2
      cases hrc : rc cur with
      | nil =>
        rw [hrc] at hrowP
        have hrcur : (linkHeader
            (removeSeq t (flatRev rc (nr :: RS').reverse ++ List.nil.reverse)) h).right
            cur = cur := by
          rw [linkHeader_removeSeq_right]
          exact hrowP.1
        obtain ⟨g, rfl⟩ : ∃ g, icap = g + 1 := ⟨icap - 1, by
          have := hicap cur (List.mem_cons_self _ _); omega⟩
        rw [hrcur, linkCells, if_pos rfl]
        simp
      | cons x R' =>
        rw [hrc] at hrowP hrownd hSB
        have hrcur : (linkHeader
            (removeSeq t (flatRev rc (nr :: RS').reverse ++ (x :: R').reverse)) h).right
            cur = x := by
          rw [linkHeader_removeSeq_right]
          exact hrowP.1
        have hP' : Path (linkHeader
              (removeSeq t (flatRev rc (nr :: RS').reverse ++ (x :: R').reverse)) h).right
            (linkHeader
              (removeSeq t (flatRev rc (nr :: RS').reverse ++ (x :: R').reverse)) h).left
            x R' cur := by
          rw [linkHeader_removeSeq_right, linkHeader_removeSeq_left]
          exact hrowP.2.2
        have hcurnot : cur ∉ x :: R' := (List.nodup_cons.mp hrownd).1
        rw [hrcur, linkCells_run hP'
          (fun hc => hcurnot (hc ▸ List.mem_cons_self _ _))
          (fun hc => hcurnot (List.mem_cons_of_mem _ hc))
          (by have := hicap cur (List.mem_cons_self _ _)
              rw [hrc] at this
              simp only [List.length_cons] at this ⊢
              omega)]
        rw [linkHeader_addSeq]
        congr 1
        rw [removeSeq_append]
        have hres := addSeq_removeSeq hSB
        rw [List.reverse_reverse] at hres
        exact hres
    rw [hinner]
    show linkRows f icap (linkHeader (removeSeq t (flatRev rc (nr :: RS').reverse)) h)
        h ((linkHeader (removeSeq t (flatRev rc (nr :: RS').reverse)) h).down cur)
      = linkHeader t h
    have hCA : Consume F (flatRev rc (nr :: RS').reverse) :=
      consume_append_left _ _ hC
    have hdown : (linkHeader (removeSeq t (flatRev rc (nr :: RS').reverse)) h).down cur
        = t.down cur := by
      rw [linkHeader_down]
      exact ((fam_consume hFam hCA).2.2 cur (hnotF cur (List.mem_cons_self _ _))).2.1
    rw [hdown, hP.1]
    have hA : flatRev rc (nr :: RS').reverse
        = flatRev rc RS'.reverse ++ (rc nr).reverse := by
      rw [List.reverse_cons, flatRev_append]
      simp [flatRev]
    rw [hA]
    refine ih nr f icap hP.2.2 ?_ ?_ ?_ ?_ ?_ ?_ ?_
    · rintro rfl; exact hh (List.mem_cons_self _ _)
    · exact fun hc => hh (List.mem_cons_of_mem _ hc)
    · exact fun x hx => hnotF x (List.mem_cons_of_mem _ hx)
    · exact fun r hr => hrows r (List.mem_cons_of_mem _ hr)
    · rw [← hA]; exact hCA
    · simp only [List.length_cons] at hfuel ⊢; omega
    · exact fun r hr => hicap r (List.mem_cons_of_mem _ hr)

/-- The neighbour identities for any member of a consistent circle with
distinct members. -/
theorem circle_ok {nxt prv : Nat → Nat} {c : Nat} {l : List Nat} {e : Nat}
    (hp : Path nxt prv c l c) (hnd : (c :: l).Nodup) (he : e ∈ l) :
    nxt (prv e) = e ∧ prv (nxt e) = e ∧ prv e ≠ e ∧ nxt e ≠ e ∧
      prv e ∈ c :: l ∧ nxt e ∈ c :: l := by
  obtain ⟨l₁, l₂, rfl⟩ := List.append_of_mem he
  have hcnot : c ∉ l₁ ++ e :: l₂ := (List.nodup_cons.mp hnd).1
  have hndtl : (l₁ ++ e :: l₂).Nodup := (List.nodup_cons.mp hnd).2
  have henl₁ : e ∉ l₁ := fun hx =>
    (List.disjoint_of_nodup_append hndtl) hx (List.mem_cons_self e l₂)
  have henl₂ : e ∉ l₂ :=
    (List.nodup_cons.mp (List.Nodup.of_append_right hndtl)).1
  have henc : e ≠ c := fun hx =>
    hcnot (hx ▸ List.mem_append.mpr (Or.inr (List.mem_cons_self _ _)))
  obtain ⟨P₁, P₂⟩ := Path.split l₁ hp
  have hprv_mem : prv e ∈ c :: l₁ := path_prv_mem P₁
  have hnxt_mem : nxt e ∈ l₂ ++ [c] := path_nxt_mem P₂
  refine ⟨path_nxt_prv P₁, path_prv_nxt P₂, ?_, ?_, ?_, ?_⟩
  · intro hcontra
    rw [hcontra] at hprv_mem
    rcases List.mem_cons.mp hprv_mem with h' | h'
    · exact henc h'
    · exact henl₁ h'
  · intro hcontra
    rw [hcontra] at hnxt_mem
    rcases List.mem_append.mp hnxt_mem with h' | h'
    · exact henl₂ h'
    · exact henc (List.mem_singleton.mp h')
  · rcases List.mem_cons.mp hprv_mem with h' | h'
    · exact h' ▸ List.mem_cons_self _ _
    · exact List.mem_cons_of_mem _ (List.mem_append.mpr (Or.inl h'))
  · rcases List.mem_append.mp hnxt_mem with h' | h'
    · exact List.mem_cons_of_mem _
        (List.mem_append.mpr (Or.inr (List.mem_cons_of_mem _ h')))
    · exact (List.mem_singleton.mp h') ▸ List.mem_cons_self _ _

/-- The family invariant only involves the vertical fields and the counts. -/
theorem fam_eq_fields {s s' : Mat α} (hup : s'.up = s.up) (hdown : s'.down = s.down)
    (hcol : s'.col = s.col) (hcount : s'.count = s.count)
    {F : List (Nat × List Nat)} (hF : Fam s F) : Fam s' F := by
  obtain ⟨hE, hnd⟩ := hF
  refine ⟨fun p hp => ?_, hnd⟩
  obtain ⟨h1, h2, h3⟩ := hE p hp
  refine ⟨?_, ?_, ?_⟩
  · rw [hdown, hup]; exact h1
  · rw [hcol]; exact fun x hx => h2 x hx
  · rw [hcount]; exact h3

/-- Global well-formedness of the matrix state around a column `h` that is
about to be covered: the header circle, `h`'s own vertical circle, the
horizontal circle of each row through `h`, the family invariant for the
other columns, the membership of each row cell in its column's entry, and
the node-distinctness conditions. -/
structure CoverOK (s : Mat α) (corner h : Nat) (hs cells : List Nat)
    (rc : Nat → List Nat) (F : List (Nat × List Nat)) : Prop where
  hdr : Path s.right s.left corner hs corner
  hdrnd : (corner :: hs).Nodup
  hmem : h ∈ hs
  vert : Path s.down s.up h cells h
  vertnd : (h :: cells).Nodup
  rows : ∀ r ∈ cells, Path s.right s.left r (rc r) r
  rowsnd : ∀ r ∈ cells, (r :: rc r).Nodup
  fam : Fam s F
  colhF : ∀ x ∈ h :: cells, x ∉ famNodes F
  cellsF : ∀ r ∈ cells, ∀ e ∈ rc r, ∃ p ∈ F, e ∈ p.2
  flatnd : (flatRev rc cells.reverse).Nodup
  hdrdisj : ∀ y ∈ corner :: hs, ∀ r ∈ cells, y ∉ r :: rc r

namespace CoverOK

variable {s : Mat α} {corner h : Nat} {hs cells : List Nat}
  {rc : Nat → List Nat} {F : List (Nat × List Nat)}

/-- The horizontal neighbour identities of the covered header. -/
theorem hdrOK (W : CoverOK s corner h hs cells rc F) :
    s.right (s.left h) = h ∧ s.left (s.right h) = h ∧ s.left h ≠ h ∧
      s.right h ≠ h ∧ s.left h ∈ corner :: hs ∧ s.right h ∈ corner :: hs :=
  circle_ok W.hdr W.hdrnd W.hmem

theorem fam_t (W : CoverOK s corner h hs cells rc F) :
    Fam (unlinkHeader s h) F :=
  fam_eq_fields rfl rfl rfl rfl W.fam

/-- Row circles survive the header unlink: only the header's horizontal
neighbours' links change, and they are header-row nodes. -/
theorem rows_t (W : CoverOK s corner h hs cells rc F) :
    ∀ r ∈ cells, Path (unlinkHeader s h).right (unlinkHeader s h).left r (rc r) r := by
  intro r hr
  obtain ⟨_, _, _, _, hlmem, hrmem⟩ := W.hdrOK
  refine Path.congr (W.rows r hr) (fun y hy => ?_) (fun y hy => ?_)
  · rw [unlinkHeader_eq]
    refine upd_ne _ _ (fun hc => ?_)
    exact W.hdrdisj (s.left h) hlmem r hr (hc ▸ hy)
  · rw [unlinkHeader_eq]
    refine upd_ne _ _ (fun hc => ?_)
    have hy' : y ∈ r :: rc r := by
      rcases List.mem_append.mp hy with h' | h'
      · exact List.mem_cons_of_mem _ h'
      · exact (List.mem_singleton.mp h') ▸ List.mem_cons_self _ _
    exact W.hdrdisj (s.right h) hrmem r hr (hc ▸ hy')

/-- Row circles seen through the relinked header (the state in which the
`link_column` loop reads the row pointers). -/
theorem rows_u (W : CoverOK s corner h hs cells rc F) :
    ∀ r ∈ cells,
      Path (linkHeader (unlinkHeader s h) h).right
        (linkHeader (unlinkHeader s h) h).left r (rc r) r := by
  intro r hr
  obtain ⟨_, _, h3, h4, hlmem, hrmem⟩ := W.hdrOK
  have tl : (unlinkHeader s h).left h = s.left h := by
    rw [unlinkHeader_eq]
    exact upd_ne _ _ (fun hc => h4 hc.symm)
  refine Path.congr (W.rows_t r hr) (fun y hy => ?_) (fun y hy => ?_)
  · show upd (unlinkHeader s h).right ((unlinkHeader s h).left h) h y = _
    rw [tl]
    refine upd_ne _ _ (fun hc => ?_)
    exact W.hdrdisj (s.left h) hlmem r hr (hc ▸ hy)
  · show upd (unlinkHeader s h).left
        ((upd (unlinkHeader s h).right ((unlinkHeader s h).left h) h) h) h y = _
    rw [tl, upd_ne _ _ (fun hc => h3 hc.symm)]
    have tr : (unlinkHeader s h).right h = s.right h := by
      rw [unlinkHeader_eq]
      exact upd_ne _ _ (fun hc => h3 hc.symm)
    rw [tr]
    refine upd_ne _ _ (fun hc => ?_)
    have hy' : y ∈ r :: rc r := by
      rcases List.mem_append.mp hy with h' | h'
      · exact List.mem_cons_of_mem _ h'
      · exact (List.mem_singleton.mp h') ▸ List.mem_cons_self _ _
    exact W.hdrdisj (s.right h) hrmem r hr (hc ▸ hy')

theorem consumeES (W : CoverOK s corner h hs cells rc F) :
    Consume F (flatRev rc cells.reverse) := by
  refine consume_of_mem W.flatnd (fun e he => ?_)
  obtain ⟨r, hr, her⟩ := mem_flatRev.mp he
  exact W.cellsF r (List.mem_reverse.mp hr) e her

end CoverOK

/-- The state computed by `unlink_column`: the header unlink followed by
the removal of every cell of every row of the covered column, rows
walked bottom-up and cells walked leftwards. -/
theorem unlink_column_eq {s : Mat α} {corner h : Nat} {hs cells : List Nat}
    {rc : Nat → List Nat} {F : List (Nat × List Nat)}
    (W : CoverOK s corner h hs cells rc F) {fuel : Nat}
    (hfuel : cells.length + 2 ≤ fuel)
    (hicap : ∀ r ∈ cells, (rc r).length + 2 ≤ fuel) :
    unlink_column fuel s h
      = removeSeq (unlinkHeader s h) (flatRev rc cells.reverse) := by
  show unlinkRows fuel fuel (unlinkHeader s h) h ((unlinkHeader s h).up h) = _
  have hup_h : (unlinkHeader s h).up h = s.up h := rfl
  cases hcells : cells with
  | nil =>
    rw [hcells] at hfuel
    obtain ⟨f, rfl⟩ : ∃ f, fuel = f + 1 := ⟨fuel - 1, by omega⟩
    have : s.up h = h := by
      have := W.vert
      rw [hcells] at this
      exact this.2
    rw [hup_h, this, unlinkRows, if_pos rfl]
    rfl
  | cons c₀ rest =>
    have hvert := W.vert
    have hrev : Path s.up s.down h cells.reverse h := Path.reverse hvert
    obtain ⟨ck, restRev, hEq⟩ : ∃ ck restRev, cells.reverse = ck :: restRev := by
      rcases List.exists_cons_of_ne_nil
        (show cells.reverse ≠ [] by simp [hcells]) with ⟨ck, restRev, hEq⟩
      exact ⟨ck, restRev, hEq⟩
    rw [hEq] at hrev
    have hmemck : ck ∈ cells := by
      rw [← List.mem_reverse, hEq]; exact List.mem_cons_self _ _
    have hsubrev : ∀ x ∈ ck :: restRev, x ∈ cells := by
      intro x hx
      rw [← List.mem_reverse, hEq]; exact hx
    have hhnot : h ∉ cells := (List.nodup_cons.mp W.vertnd).1
    have hgo := unlinkRows_go (unlinkHeader s h) F h rc W.fam_t restRev [] ck fuel fuel
      hrev.2.2
      (fun hc => hhnot (hc ▸ hmemck))
      (fun hc => hhnot (hsubrev h (List.mem_cons_of_mem _ hc)))
      (fun x hx => W.colhF x (List.mem_cons_of_mem _ (hsubrev x hx)))
      (fun r hr => ⟨W.rows_t r (hsubrev r hr), W.rowsnd r (hsubrev r hr)⟩)
      (by
        show Consume F (flatRev rc [] ++ flatRev rc (ck :: restRev))
        rw [← hEq]
        exact W.consumeES)
      (by
        have hlen : restRev.length + 1 = cells.length := by
          have := congrArg List.length hEq
          simpa using this.symm
        omega)
      (fun r hr => hicap r (hsubrev r hr))
    rw [hup_h, hrev.1]
    rw [show removeSeq (unlinkHeader s h) (flatRev rc []) = unlinkHeader s h from rfl]
      at hgo
    rw [hgo, ← hEq]
    simp [flatRev, hcells]

/-- Dancing-links restoration: `link_column` right after `unlink_column`
on the same well-formed state restores the matrix exactly. -/
theorem cover_uncover_restore {s : Mat α} {corner h : Nat} {hs cells : List Nat}
    {rc : Nat → List Nat} {F : List (Nat × List Nat)}
    (W : CoverOK s corner h hs cells rc F) {fuel : Nat}
    (hfuel : cells.length + 2 ≤ fuel)
    (hicap : ∀ r ∈ cells, (rc r).length + 2 ≤ fuel) :
    link_column fuel (unlink_column fuel s h) h = s := by
  obtain ⟨q1, q2, q3, q4, hlmem, hrmem⟩ := W.hdrOK
  have hrestore : linkHeader (unlinkHeader s h) h = s :=
    linkHeader_unlinkHeader s h q1 q2 q3 q4
  rw [unlink_column_eq W hfuel hicap]
  set t := unlinkHeader s h with ht
  set ES := flatRev rc cells.reverse with hES
  show linkRows fuel fuel (linkHeader (removeSeq t ES) h) h
      ((linkHeader (removeSeq t ES) h).down h) = s
  have hdown_h : (linkHeader (removeSeq t ES) h).down h = s.down h := by
    rw [linkHeader_down]
    have := ((fam_consume W.fam_t W.consumeES).2.2 h
      (W.colhF h (List.mem_cons_self _ _))).2.1
    rw [← hES] at this
    rw [this]
    rfl
  rw [hdown_h]
  cases hcells : cells with
  | nil =>
    have hdh : s.down h = h := by
      have := W.vert
      rw [hcells] at this
      exact this.1
    rw [hdh]
    have hESnil : ES = [] := by rw [hES, hcells]; rfl
    rw [hESnil]
    obtain ⟨f, rfl⟩ : ∃ f, fuel = f + 1 := ⟨fuel - 1, by omega⟩
    show linkRows (f + 1) (f + 1) (linkHeader t h) h h = s
    rw [linkRows, if_pos rfl]
    exact hrestore
  | cons c₀ rest =>
    have hdh : s.down h = c₀ := by
      have := W.vert
      rw [hcells] at this
      exact this.1
    rw [hdh]
    have hESsplit : ES = flatRev rc rest.reverse ++ (rc c₀).reverse := by
      rw [hES, hcells, List.reverse_cons, flatRev_append]
      simp [flatRev]
    have hsubcells : ∀ x ∈ c₀ :: rest, x ∈ cells := by
      intro x hx; rw [hcells]; exact hx
    have hhnot : h ∉ cells := (List.nodup_cons.mp W.vertnd).1
    have hvert' : Path t.down t.up c₀ rest h := by
      have := W.vert
      rw [hcells] at this
      exact this.2.2
    have hgo := linkRows_go t F h rc W.fam_t rest c₀ fuel fuel
      hvert'
      (fun hc => hhnot (hc ▸ hsubcells c₀ (List.mem_cons_self _ _)))
      (fun hc => hhnot (hsubcells h (List.mem_cons_of_mem _ hc)))
      (fun x hx => W.colhF x (List.mem_cons_of_mem _ (hsubcells x hx)))
      (fun r hr => ⟨W.rows_u r (hsubcells r hr), W.rowsnd r (hsubcells r hr)⟩)
      (by rw [← hESsplit]; exact W.consumeES)
      (by
        rw [hcells] at hfuel
        simp only [List.length_cons] at hfuel
        omega)
      (fun r hr => hicap r (hsubcells r hr))
    rw [← hESsplit] at hgo
    rw [hgo]
    exact hrestore

/-! ### Decidability of the well-formedness side conditions, so the
theorems can be instantiated on concrete matrices -/

def Path.dec (nxt prv : Nat → Nat) :
    (a : Nat) → (l : List Nat) → (b : Nat) → Decidable (Path nxt prv a l b)
  | a, [], b => inferInstanceAs (Decidable (nxt a = b ∧ prv b = a))
  | a, x :: l, b =>
    haveI : Decidable (Path nxt prv x l b) := Path.dec nxt prv x l b
    inferInstanceAs (Decidable (nxt a = x ∧ prv x = a ∧ Path nxt prv x l b))

instance {nxt prv : Nat → Nat} {a b : Nat} {l : List Nat} :
    Decidable (Path nxt prv a l b) :=
  Path.dec nxt prv a l b

instance {s : Mat α} {c : Nat} {l : List Nat} : Decidable (EntryOK s c l) :=
  inferInstanceAs (Decidable (_ ∧ _ ∧ _))

instance {s : Mat α} {F : List (Nat × List Nat)} : Decidable (Fam s F) :=
  inferInstanceAs (Decidable (_ ∧ _))

instance {nxt prv : Nat → Nat} {l : List Nat} {rc : Nat → List Nat} :
    Decidable (∀ r ∈ l, Path nxt prv r (rc r) r) :=
  List.decidableBAll _ _

/-- Dancing-links insertion at the bottom of a circle: linking a fresh
node just before the anchor (the write pattern shared by the header
append of `find_column`, the column append and the row append of the cell
insertion) extends the circle by one node. -/
theorem circle_append {nxt prv : Nat → Nat} {a : Nat} {l : List Nat} {e : Nat}
    (hp : Path nxt prv a l a) (hnd : (a :: l).Nodup) (he : e ∉ a :: l) :
    Path (upd (upd nxt e a) (prv a) e) (upd (upd prv e (prv a)) a e) a (l ++ [e]) a := by
  have hea : e ≠ a := fun hc => he (hc ▸ List.mem_cons_self _ _)
  rcases List.eq_nil_or_concat l with rfl | ⟨l₁, lastel, rfl⟩
  · have h1 : nxt a = a := hp.1
    have h2 : prv a = a := hp.2
    rw [h2]
    refine ⟨?_, ?_, ?_, ?_⟩
    · exact upd_same _ _ _
    · rw [upd_ne _ _ hea]; exact upd_same _ _ _
    · rw [upd_ne _ _ hea]; exact upd_same _ _ _
    · exact upd_same _ _ _
  · rw [List.concat_eq_append] at hp hnd he ⊢
    obtain ⟨P₁, P₂⟩ := Path.split l₁ hp
    have hlast_nxt : nxt lastel = a := P₂.1
    have hlast_prv : prv a = lastel := P₂.2
    have hndl : a ∉ l₁ ++ [lastel] := (List.nodup_cons.mp hnd).1
    have hnd₂ : (l₁ ++ [lastel]).Nodup := (List.nodup_cons.mp hnd).2
    have hlast_notl₁ : lastel ∉ l₁ := fun hc =>
      (List.disjoint_of_nodup_append hnd₂) hc (List.mem_singleton.mpr rfl)
    have helast : e ≠ lastel := fun hc =>
      he (hc ▸ List.mem_cons_of_mem _ (List.mem_append.mpr (Or.inr (by simp))))
    have hQ : Path (upd (upd nxt e a) (prv a) e) (upd (upd prv e (prv a)) a e)
        lastel [e] a := by
      refine ⟨?_, ?_, ?_, ?_⟩
      · rw [hlast_prv]; exact upd_same _ _ _
      · rw [upd_ne _ _ hea, upd_same, hlast_prv]
      · rw [upd_ne _ _ (fun hc => helast (hc.trans hlast_prv))]
        exact upd_same _ _ _
      · exact upd_same _ _ _
    have hP₁' : Path (upd (upd nxt e a) (prv a) e) (upd (upd prv e (prv a)) a e)
        a l₁ lastel := by
      refine Path.congr P₁ (fun y hy => ?_) (fun y hy => ?_)
      · rw [hlast_prv]
        have hylast : y ≠ lastel := by
          rintro rfl
          rcases List.mem_cons.mp hy with hc | hc
          · exact hndl (hc ▸ List.mem_append.mpr (Or.inr (by simp)))
          · exact hlast_notl₁ hc
        have hye : y ≠ e := by
          rintro rfl
          rcases List.mem_cons.mp hy with hc | hc
          · exact hea hc
          · exact he (List.mem_cons_of_mem _ (List.mem_append.mpr (Or.inl hc)))
        rw [upd_ne _ _ hylast, upd_ne _ _ hye]
      · have hya : y ≠ a := by
          rintro rfl
          rcases List.mem_append.mp hy with hc | hc
          · exact hndl (List.mem_append.mpr (Or.inl hc))
          · exact hndl (List.mem_append.mpr (Or.inr (by simpa using hc)))
        have hye : y ≠ e := by
          rintro rfl
          rcases List.mem_append.mp hy with hc | hc
          · exact he (List.mem_cons_of_mem _ (List.mem_append.mpr (Or.inl hc)))
          · exact helast (List.mem_singleton.mp hc)
        rw [upd_ne _ _ hya, upd_ne _ _ hye]
    have := Path.append hP₁' hQ
    simpa using this

/-- All cell nodes of the matrix, grouped by column. -/
def allCells (hs : List Nat) (cl : Nat → List Nat) : List Nat :=
  (hs.map cl).flatten

/-- The invariant maintained by the matrix builder: `hs` is the header
list in order, `cl c` is column `c`'s cell list in downward order, all
circles are consistent, counts match list lengths, all nodes are distinct
and below the allocation cursor `nxt`, and every node at or above the
cursor is still in its pristine `alloc_matrix` state. -/
structure BuildInv (s : Mat α) (nxt : Nat) (hs : List Nat) (cl : Nat → List Nat) :
    Prop where
  hdr : Path s.right s.left 0 hs 0
  cols : ∀ c ∈ hs, Path s.down s.up c (cl c) c
  colOK : ∀ c ∈ hs, ∀ x ∈ cl c, s.col x = c
  counts : ∀ c ∈ hs, s.count c = ((cl c).length : Int)
  nodes : (0 :: (hs ++ allCells hs cl)).Nodup
  bound : ∀ x ∈ 0 :: (hs ++ allCells hs cl), x < nxt
  fresh : ∀ j, nxt ≤ j →
    s.up j = j ∧ s.down j = j ∧ s.left j = j ∧ s.right j = j ∧ s.col j = j ∧
      s.count j = 0 ∧ s.hobj j = none ∧ s.robj j = none
  hdrcol : ∀ c ∈ hs, s.col c = c

theorem buildInv_init : BuildInv (alloc_matrix : Mat α) 1 [] (fun _ => []) := by
  refine ⟨⟨rfl, rfl⟩, ?_, ?_, ?_, ?_, ?_, ?_, fun c hc => by cases hc⟩
  · intro c hc; cases hc
  · intro c hc; cases hc
  · intro c hc; cases hc
  · simp [allCells]
  · intro x hx
    simp [allCells] at hx
    omega
  · intro j _
    exact ⟨rfl, rfl, rfl, rfl, rfl, rfl, rfl, rfl⟩

/-- Extending one column's cell list by a fresh node permutes the flat
cell list with the node appended. -/
theorem allCells_update_perm {hs : List Nat} (hnd : hs.Nodup) {c : Nat} (hc : c ∈ hs)
    (cl : Nat → List Nat) (e : Nat) :
    (allCells hs (fun d => if d = c then cl c ++ [e] else cl d)).Perm
      (allCells hs cl ++ [e]) := by
  induction hs with
  | nil => cases hc
  | cons d hs' ih =>
    simp only [allCells, List.map_cons, List.flatten_cons]
    rcases List.mem_cons.mp hc with rfl | hc'
    · rw [if_pos rfl]
      have hnotc : c ∉ hs' := (List.nodup_cons.mp hnd).1
      have hmapeq : hs'.map (fun d' => if d' = c then cl c ++ [e] else cl d')
          = hs'.map cl := by
        refine List.map_congr_left (fun d' hd' => ?_)
        refine if_neg (fun hcc => hnotc ?_)
        rw [← hcc]
        exact hd'
      rw [hmapeq, List.append_assoc, List.append_assoc]
      exact List.Perm.append_left _ List.perm_append_comm
    · by_cases hdc : d = c
      · subst hdc
        exact absurd hc' (List.nodup_cons.mp hnd).1
      · rw [if_neg hdc]
        have hper := ih (List.Nodup.of_cons hnd) hc'
        rw [List.append_assoc]
        refine List.Perm.append_left _ ?_
        simpa [allCells] using hper

/-- The `find_column` scan returns the first header on the rightward path
whose label equals the sought element. -/
theorem findColumnLoop_run [DecidableEq α] {s : Mat α} {corner : Nat} {x : α} :
    ∀ {l : List Nat} {i fuel : Nat},
      Path s.right s.left i l corner → corner ∉ i :: l → l.length + 2 ≤ fuel →
      findColumnLoop s corner x fuel i
        = (i :: l).find? (fun c => decide (s.hobj c = some x)) := by
  intro l
  induction l with
  | nil =>
    intro i fuel hP hc hfuel
    obtain ⟨f, rfl⟩ : ∃ f, fuel = f + 1 + 1 := ⟨fuel - 2, by omega⟩
    have hine : i ≠ corner := fun hh => hc (hh ▸ List.mem_cons_self _ _)
    rw [findColumnLoop, if_neg hine]
    by_cases hx : s.hobj i = some x
    · rw [if_pos hx, List.find?_cons]
      simp [hx]
    · rw [if_neg hx, hP.1, findColumnLoop, if_pos rfl, List.find?_cons]
      simp [hx]
  | cons y l ih =>
    intro i fuel hP hc hfuel
    obtain ⟨f, rfl⟩ : ∃ f, fuel = f + 1 := ⟨fuel - 1, by omega⟩
    have hine : i ≠ corner := fun hh => hc (hh ▸ List.mem_cons_self _ _)
    rw [findColumnLoop, if_neg hine]
    by_cases hx : s.hobj i = some x
    · rw [if_pos hx, List.find?_cons]
      simp [hx]
    · rw [if_neg hx, hP.1, List.find?_cons]
      rw [ih hP.2.2 (fun hh => hc (List.mem_cons_of_mem _ hh))
        (by simp at hfuel ⊢; omega)]
      simp [hx]

/-- Closed form of the allocation branch of `find_column`. -/
theorem find_column_alloc_eq [DecidableEq α] (s : Mat α) (x : α) (nxt fuel : Nat)
    (hnone : findColumnLoop s 0 x fuel (s.right 0) = none) (hne : nxt ≠ 0) :
    find_column fuel s 0 x nxt
      = ({ s with
          up := upd s.up nxt nxt
          down := upd s.down nxt nxt
          col := upd s.col nxt nxt
          hobj := fun j => if j = nxt then some x else s.hobj j
          count := updZ s.count nxt 0
          right := upd (upd s.right nxt 0) (s.left 0) nxt
          left := upd (upd s.left nxt (s.left 0)) 0 nxt }, nxt, nxt + 1) := by
  unfold find_column
  rw [hnone]
  have h0 : upd (upd s.left nxt (s.left 0)) 0 nxt 0 = nxt := by
    rw [upd_same]
  have hl0 : (upd s.left nxt (s.left 0)) 0 = s.left 0 :=
    upd_ne _ _ (fun hc => hne hc.symm)
  simp only [hl0]

theorem buildInv_hs_nodup {s : Mat α} {nxt : Nat} {hs : List Nat}
    {cl : Nat → List Nat} (B : BuildInv s nxt hs cl) : (0 :: hs).Nodup := by
  have hsub : List.Sublist (0 :: hs) (0 :: (hs ++ allCells hs cl)) :=
    List.Sublist.cons₂ _ (List.sublist_append_left _ _)
  exact List.Nodup.sublist hsub B.nodes

theorem buildInv_scan [DecidableEq α] {s : Mat α} {nxt : Nat} {hs : List Nat}
    {cl : Nat → List Nat} (B : BuildInv s nxt hs cl) (x : α) {fuel : Nat}
    (hfuel : hs.length + 2 ≤ fuel) :
    findColumnLoop s 0 x fuel (s.right 0)
      = hs.find? (fun c => decide (s.hobj c = some x)) := by
  have h0hs : (0 : Nat) ∉ hs := (List.nodup_cons.mp (buildInv_hs_nodup B)).1
  cases hhs : hs with
  | nil =>
    obtain ⟨f, rfl⟩ : ∃ f, fuel = f + 1 := ⟨fuel - 1, by omega⟩
    have h0 := B.hdr
    rw [hhs] at h0
    rw [h0.1, findColumnLoop, if_pos rfl]
    rfl
  | cons c rest =>
    have h0 := B.hdr
    rw [hhs] at h0 h0hs
    rw [h0.1]
    exact findColumnLoop_run h0.2.2 (fun hc => h0hs hc)
      (by rw [hhs] at hfuel; simp only [List.length_cons] at hfuel ⊢; omega)

/-- Cells of a listed column are matrix nodes. -/
theorem mem_allCells {hs : List Nat} {cl : Nat → List Nat} {c : Nat} (hc : c ∈ hs)
    {y : Nat} (hy : y ∈ cl c) : y ∈ allCells hs cl :=
  List.mem_flatten.mpr ⟨cl c, List.mem_map_of_mem _ hc, hy⟩

/-- `find_column` on a well-built matrix: either the element's column is
found (no state change), or a fresh header is appended to the header list
with an empty column, preserving the build invariant. -/
theorem find_column_inv [DecidableEq α] {s : Mat α} {nxt : Nat} {hs : List Nat}
    {cl : Nat → List Nat} (B : BuildInv s nxt hs cl) (x : α) {fuel : Nat}
    (hfuel : hs.length + 2 ≤ fuel) :
    (∃ c, find_column fuel s 0 x nxt = (s, c, nxt) ∧ c ∈ hs ∧ s.hobj c = some x)
      ∨ ((find_column fuel s 0 x nxt).2.1 = nxt
          ∧ (find_column fuel s 0 x nxt).2.2 = nxt + 1
          ∧ BuildInv (find_column fuel s 0 x nxt).1 (nxt + 1) (hs ++ [nxt])
              (fun d => if d = nxt then [] else cl d)
          ∧ allCells (hs ++ [nxt]) (fun d => if d = nxt then [] else cl d)
              = allCells hs cl
          ∧ (∀ y ∈ allCells hs cl,
              (find_column fuel s 0 x nxt).1.right y = s.right y
              ∧ (find_column fuel s 0 x nxt).1.left y = s.left y)
          ∧ (find_column fuel s 0 x nxt).1.hobj nxt = some x
          ∧ (∀ y, y ≠ nxt →
              (find_column fuel s 0 x nxt).1.hobj y = s.hobj y
              ∧ (find_column fuel s 0 x nxt).1.col y = s.col y)
          ∧ (∀ c ∈ hs, s.hobj c ≠ some x)) := by
  have hscan := buildInv_scan B x hfuel
  have hnxt0 : nxt ≠ 0 := by
    have := B.bound 0 (List.mem_cons_self _ _)
    omega
  cases hfind : hs.find? (fun c => decide (s.hobj c = some x)) with
  | some c =>
    left
    have hp := List.find?_some hfind
    refine ⟨c, ?_, List.mem_of_find?_eq_some hfind, of_decide_eq_true hp⟩
    unfold find_column
    rw [hscan, hfind]
  | none =>
    right
    have halloc := find_column_alloc_eq s x nxt fuel (hscan.trans hfind) hnxt0
    rw [halloc]
    have hbound' : ∀ y ∈ 0 :: (hs ++ allCells hs cl), y ≠ nxt := by
      intro y hy
      have := B.bound y hy
      omega
    have hhdrne : ∀ c ∈ hs, c ≠ nxt := fun c hc =>
      hbound' c (List.mem_cons_of_mem _ (List.mem_append.mpr (Or.inl hc)))
    have hcellne : ∀ c ∈ hs, ∀ y ∈ cl c, y ≠ nxt := fun c hc y hy =>
      hbound' y (List.mem_cons_of_mem _ (List.mem_append.mpr
        (Or.inr (mem_allCells hc hy))))
    have hnxt_notin : nxt ∉ (0 : Nat) :: hs := by
      intro hc
      rcases List.mem_cons.mp hc with hc | hc
      · exact hnxt0 hc
      · exact hhdrne nxt hc rfl
    have hl0mem : s.left 0 ∈ (0 : Nat) :: hs := path_prv_mem B.hdr
    have hAC : allCells (hs ++ [nxt]) (fun d => if d = nxt then [] else cl d)
        = allCells hs cl := by
      show ((hs ++ [nxt]).map fun d => if d = nxt then [] else cl d).flatten = _
      rw [List.map_append, List.flatten_append]
      have h1 : (hs.map fun d => if d = nxt then [] else cl d) = hs.map cl :=
        List.map_congr_left (fun d hd => if_neg (hhdrne d hd))
      rw [h1]
      simp [allCells]
    have hnofind : ∀ c ∈ hs, s.hobj c ≠ some x := fun c hc hsome =>
      (List.find?_eq_none.mp hfind c hc) (decide_eq_true hsome)
    refine ⟨rfl, rfl, ⟨?_, ?_, ?_, ?_, ?_, ?_, ?_, ?_⟩, hAC, ?_, ?_, ?_, hnofind⟩
    · exact circle_append B.hdr (buildInv_hs_nodup B) hnxt_notin
    · intro c hc
      rcases List.mem_append.mp hc with hc | hc
      · rw [if_neg (hhdrne c hc)]
        refine Path.congr (B.cols c hc) (fun y hy => ?_) (fun y hy => ?_)
        · refine upd_ne _ _ ?_
          rcases List.mem_cons.mp hy with rfl | hy'
          · exact hhdrne y hc
          · exact hcellne c hc y hy'
        · refine upd_ne _ _ ?_
          rcases List.mem_append.mp hy with hy' | hy'
          · exact hcellne c hc y hy'
          · rw [List.mem_singleton.mp hy']
            exact hhdrne c hc
      · rw [List.mem_singleton.mp hc, if_pos rfl]
        exact ⟨upd_same _ _ _, upd_same _ _ _⟩
    · intro c hc y hy
      rcases List.mem_append.mp hc with hc | hc
      · rw [if_neg (hhdrne c hc)] at hy
        show upd s.col nxt nxt y = c
        rw [upd_ne _ _ (hcellne c hc y hy)]
        exact B.colOK c hc y hy
      · rw [List.mem_singleton.mp hc, if_pos rfl] at hy
        cases hy
    · intro c hc
      rcases List.mem_append.mp hc with hc | hc
      · rw [if_neg (hhdrne c hc)]
        show updZ s.count nxt 0 c = _
        rw [updZ_ne _ _ (hhdrne c hc)]
        exact B.counts c hc
      · rw [List.mem_singleton.mp hc]
        rw [if_pos rfl]
        exact updZ_same _ _ _
    · rw [hAC]
      have hperm : (0 :: ((hs ++ [nxt]) ++ allCells hs cl)).Perm
          ((0 :: (hs ++ allCells hs cl)) ++ [nxt]) := by
        show (0 :: ((hs ++ [nxt]) ++ allCells hs cl)).Perm
          (0 :: ((hs ++ allCells hs cl) ++ [nxt]))
        refine List.Perm.cons 0 ?_
        rw [List.append_assoc, List.append_assoc]
        exact List.Perm.append_left _ List.perm_append_comm
      refine hperm.symm.nodup ?_
      refine List.Nodup.append B.nodes (List.nodup_singleton _) ?_
      intro y hy hy'
      exact hbound' y hy (List.mem_singleton.mp hy')
    · intro y hy
      rw [hAC] at hy
      rcases List.mem_cons.mp hy with rfl | hy
      · omega
      · rcases List.mem_append.mp hy with hy | hy
        · rcases List.mem_append.mp hy with hy | hy
          · have := B.bound y (List.mem_cons_of_mem _ (List.mem_append.mpr (Or.inl hy)))
            omega
          · rw [List.mem_singleton.mp hy]
            omega
        · have := B.bound y (List.mem_cons_of_mem _ (List.mem_append.mpr (Or.inr hy)))
          omega
    · intro j hj
      have hjnxt : j ≠ nxt := by omega
      have hj0 : j ≠ 0 := by omega
      have hjl0 : j ≠ s.left 0 := by
        have := B.bound (s.left 0) (by
          rcases List.mem_cons.mp hl0mem with hc | hc
          · rw [hc]; exact List.mem_cons_self _ _
          · exact List.mem_cons_of_mem _ (List.mem_append.mpr (Or.inl hc)))
        omega
      have hfr := B.fresh j (by omega)
      refine ⟨?_, ?_, ?_, ?_, ?_, ?_, ?_, ?_⟩
      · show upd s.up nxt nxt j = j
        rw [upd_ne _ _ hjnxt]; exact hfr.1
      · show upd s.down nxt nxt j = j
        rw [upd_ne _ _ hjnxt]; exact hfr.2.1
      · show upd (upd s.left nxt (s.left 0)) 0 nxt j = j
        rw [upd_ne _ _ hj0, upd_ne _ _ hjnxt]; exact hfr.2.2.1
      · show upd (upd s.right nxt 0) (s.left 0) nxt j = j
        rw [upd_ne _ _ hjl0, upd_ne _ _ hjnxt]; exact hfr.2.2.2.1
      · show upd s.col nxt nxt j = j
        rw [upd_ne _ _ hjnxt]; exact hfr.2.2.2.2.1
      · show updZ s.count nxt 0 j = 0
        rw [updZ_ne _ _ hjnxt]; exact hfr.2.2.2.2.2.1
      · show (if j = nxt then some x else s.hobj j) = none
        rw [if_neg hjnxt]; exact hfr.2.2.2.2.2.2.1
      · exact hfr.2.2.2.2.2.2.2
    · intro c hc
      rcases List.mem_append.mp hc with hc1 | hc1
      · show upd s.col nxt nxt c = c
        rw [upd_ne _ _ (hhdrne c hc1)]
        exact B.hdrcol c hc1
      · rw [List.mem_singleton.mp hc1]
        exact upd_same _ _ _
    · intro y hy
      have hyN : y ≠ nxt :=
        hbound' y (List.mem_cons_of_mem _ (List.mem_append.mpr (Or.inr hy)))
      have h0notin : (0 : Nat) ∉ hs ++ allCells hs cl :=
        (List.nodup_cons.mp B.nodes).1
      have hdisj := List.disjoint_of_nodup_append (List.nodup_cons.mp B.nodes).2
      have hy0 : y ≠ 0 := fun h =>
        h0notin (List.mem_append.mpr (Or.inr (h ▸ hy)))
      have hylr : y ≠ s.left 0 := by
        intro h
        rcases List.mem_cons.mp hl0mem with h1 | h1
        · rw [h1] at h
          exact h0notin (List.mem_append.mpr (Or.inr (h ▸ hy)))
        · rw [← h] at h1
          exact hdisj h1 hy
      refine ⟨?_, ?_⟩
      · show upd (upd s.right nxt 0) (s.left 0) nxt y = s.right y
        rw [upd_ne _ _ hylr, upd_ne _ _ hyN]
      · show upd (upd s.left nxt (s.left 0)) 0 nxt y = s.left y
        rw [upd_ne _ _ hy0, upd_ne _ _ hyN]
    · show (if nxt = nxt then some x else s.hobj nxt) = some x
      rw [if_pos rfl]
    · intro y hy
      refine ⟨?_, ?_⟩
      · show (if y = nxt then some x else s.hobj y) = s.hobj y
        rw [if_neg hy]
      · show upd s.col nxt nxt y = s.col y
        rw [upd_ne _ _ hy]

/-- Closed form of `insertCellAt` when the cell starts a new row circle. -/
theorem insertCellAt_none_eq (s : Mat α) (column rowIdx e : Nat) :
    insertCellAt s column rowIdx e none
      = ({ s with
          col := upd s.col e column,
          robj := fun j => if j = e then some rowIdx else s.robj j,
          count := updZ s.count column (s.count column + 1),
          up := upd (upd s.up e (s.up column)) column e,
          down := upd (upd s.down e column) (upd s.up e (s.up column) column) e,
          left := upd s.left e e,
          right := upd s.right e e }, e) := rfl

/-- Closed form of `insertCellAt` when the cell joins an existing row
circle headed by `row`. -/
theorem insertCellAt_some_eq (s : Mat α) (column rowIdx e row : Nat) :
    insertCellAt s column rowIdx e (some row)
      = ({ s with
          col := upd s.col e column,
          robj := fun j => if j = e then some rowIdx else s.robj j,
          count := updZ s.count column (s.count column + 1),
          up := upd (upd s.up e (s.up column)) column e,
          down := upd (upd s.down e column) (upd s.up e (s.up column) column) e,
          left := upd (upd s.left e (s.left row)) row e,
          right := upd (upd s.right e row) (upd s.left e (s.left row) row) e },
        row) := rfl

/-- Cell lists of distinct headers of a well-built matrix are disjoint. -/
theorem allCells_disjoint {cl : Nat → List Nat} {c d : Nat} (hne : c ≠ d)
    {y : Nat} (hyc : y ∈ cl c) (hyd : y ∈ cl d) :
    ∀ {hs : List Nat}, (allCells hs cl).Nodup → c ∈ hs → d ∈ hs → False
  | h :: t, hnodup, hc, hd => by
    have hflat : allCells (h :: t) cl = cl h ++ allCells t cl := by
      simp [allCells]
    rw [hflat] at hnodup
    have hdisj := List.disjoint_of_nodup_append hnodup
    rcases List.mem_cons.mp hc with rfl | hc' <;>
      rcases List.mem_cons.mp hd with h1 | hd'
    · exact hne h1.symm
    · exact hdisj hyc (mem_allCells hd' hyd)
    · rw [← h1] at hdisj
      exact hdisj hyd (mem_allCells hc' hyc)
    · exact allCells_disjoint hne hyc hyd hnodup.of_append_right hc' hd'

/-- Each single column's cell list of a well-built matrix has no
duplicates. -/
theorem allCells_block_nodup {cl : Nat → List Nat} :
    ∀ {hs : List Nat}, (allCells hs cl).Nodup → ∀ {c : Nat}, c ∈ hs →
      (cl c).Nodup
  | h :: t, hnodup, c, hc => by
    have hflat : allCells (h :: t) cl = cl h ++ allCells t cl := by
      simp [allCells]
    rw [hflat] at hnodup
    rcases List.mem_cons.mp hc with rfl | hc'
    · exact hnodup.of_append_left
    · exact allCells_block_nodup hnodup.of_append_right hc'

/-- The header list is shorter than the allocation cursor. -/
theorem buildInv_hs_lt {s : Mat α} {nxt : Nat} {hs : List Nat}
    {cl : Nat → List Nat} (B : BuildInv s nxt hs cl) : hs.length < nxt := by
  have hnd : (0 :: hs).Nodup := buildInv_hs_nodup B
  have hsub : (0 :: hs) ⊆ List.range nxt := by
    intro y hy
    rw [List.mem_range]
    refine B.bound y ?_
    rcases List.mem_cons.mp hy with rfl | hy'
    · exact List.mem_cons_self _ _
    · exact List.mem_cons_of_mem _ (List.mem_append.mpr (Or.inl hy'))
  have hlen := (hnd.subperm hsub).length_le
  simp only [List.length_cons, List.length_range] at hlen
  omega

/-- The row circle built so far by the inner element loop of
`coverings_init`: either no cell of the row has been placed yet, or
`first` heads a consistent horizontal circle of already-placed cells. -/
def RowOK (s : Mat α) (hs : List Nat) (cl : Nat → List Nat) :
    Option Nat → List Nat → Prop
  | none, rl => rl = []
  | some r, rl =>
    Path s.right s.left r rl r ∧ (r :: rl).Nodup
      ∧ ∀ y ∈ r :: rl, y ∈ allCells hs cl

/-- The row-circle tail after inserting cell `e`: a fresh one-cell circle
if the row was empty, otherwise the old circle extended by `e`. -/
def rlExt (rf : Option Nat) (rl : List Nat) (e : Nat) : List Nat :=
  match rf with
  | none => []
  | some _ => rl ++ [e]

/-- Inserting a fresh cell `nxt` into column `column ∈ hs` preserves the
build invariant, appending `nxt` to that column's cell list, and extends
the row circle being built. -/
theorem insertCellAt_inv {s : Mat α} {nxt : Nat} {hs : List Nat}
    {cl : Nat → List Nat} (B : BuildInv s nxt hs cl) {column : Nat}
    (hcol : column ∈ hs) (rowIdx : Nat) {rf : Option Nat} {rl : List Nat}
    (RF : RowOK s hs cl rf rl) :
    BuildInv (insertCellAt s column rowIdx nxt rf).1 (nxt + 1) hs
        (fun d => if d = column then cl column ++ [nxt] else cl d)
      ∧ RowOK (insertCellAt s column rowIdx nxt rf).1 hs
          (fun d => if d = column then cl column ++ [nxt] else cl d)
          (some (insertCellAt s column rowIdx nxt rf).2) (rlExt rf rl nxt) := by
  have hta : (hs ++ allCells hs cl).Nodup := (List.nodup_cons.mp B.nodes).2
  have h0notin : (0 : Nat) ∉ hs ++ allCells hs cl := (List.nodup_cons.mp B.nodes).1
  have hdisjHA := List.disjoint_of_nodup_append hta
  have hACnd : (allCells hs cl).Nodup := hta.of_append_right
  have hsnd : hs.Nodup := hta.of_append_left
  have hhdrN : ∀ c ∈ hs, c ≠ nxt := by
    intro c hc
    have := B.bound c (List.mem_cons_of_mem _ (List.mem_append.mpr (Or.inl hc)))
    omega
  have hcellN : ∀ y ∈ allCells hs cl, y ≠ nxt := by
    intro y hy
    have := B.bound y (List.mem_cons_of_mem _ (List.mem_append.mpr (Or.inr hy)))
    omega
  have h0hsN : ∀ x ∈ (0 : Nat) :: hs, x ≠ nxt := by
    intro x hx
    rcases List.mem_cons.mp hx with rfl | h
    · have := B.bound 0 (List.mem_cons_self _ _); omega
    · exact hhdrN x h
  have hnotAC : ∀ x ∈ (0 : Nat) :: hs, ∀ y ∈ allCells hs cl, x ≠ y := by
    intro x hx y hy h
    subst h
    rcases List.mem_cons.mp hx with rfl | hx'
    · exact h0notin (List.mem_append.mpr (Or.inr hy))
    · exact hdisjHA hx' hy
  have hmemconv : ∀ x ∈ hs ++ [(0 : Nat)], x ∈ (0 : Nat) :: hs := by
    intro x hx
    rcases List.mem_append.mp hx with h | h
    · exact List.mem_cons_of_mem _ h
    · rw [List.mem_singleton.mp h]; exact List.mem_cons_self _ _
  have hcolnx : column ≠ nxt := hhdrN column hcol
  have hcolpath := B.cols column hcol
  have hupcolmem : s.up column ∈ column :: cl column := path_prv_mem hcolpath
  have hupcol_node : s.up column ∈ hs ++ allCells hs cl := by
    rcases List.mem_cons.mp hupcolmem with h1 | h1
    · rw [h1]; exact List.mem_append.mpr (Or.inl hcol)
    · exact List.mem_append.mpr (Or.inr (mem_allCells hcol h1))
  have hupred : upd s.up nxt (s.up column) column = s.up column :=
    upd_ne _ _ hcolnx
  have hsep : ∀ {c : Nat}, c ∈ hs → c ≠ column →
      ∀ {y : Nat}, y ∈ c :: cl c → y ∈ column :: cl column → False := by
    intro c hc hcc y hy1 hy2
    rcases List.mem_cons.mp hy1 with rfl | hy1' <;>
      rcases List.mem_cons.mp hy2 with h2 | hy2'
    · exact hcc h2
    · exact hdisjHA hc (mem_allCells hcol hy2')
    · rw [h2] at hy1'
      exact hdisjHA hcol (mem_allCells hc hy1')
    · exact allCells_disjoint hcc hy1' hy2' hACnd hc hcol
  have hcolnd : (column :: cl column).Nodup := by
    rw [List.nodup_cons]
    exact ⟨fun hmem => hdisjHA hcol (mem_allCells hcol hmem),
      allCells_block_nodup hACnd hcol⟩
  have hcole : nxt ∉ column :: cl column := by
    intro hmem
    rcases List.mem_cons.mp hmem with h1 | h1
    · exact hcolnx h1.symm
    · exact hcellN nxt (mem_allCells hcol h1) rfl
  have hcols' : ∀ c ∈ hs,
      Path (upd (upd s.down nxt column) (s.up column) nxt)
        (upd (upd s.up nxt (s.up column)) column nxt) c
        (if c = column then cl column ++ [nxt] else cl c) c := by
    intro c hc
    by_cases hcc : c = column
    · rw [if_pos hcc, hcc]
      exact circle_append hcolpath hcolnd hcole
    · rw [if_neg hcc]
      refine Path.congr (B.cols c hc) ?_ ?_
      · intro y hy
        have hyN : y ≠ nxt := by
          rcases List.mem_cons.mp hy with rfl | h
          · exact hhdrN _ hc
          · exact hcellN y (mem_allCells hc h)
        have hyU : y ≠ s.up column := by
          intro h
          refine hsep hc hcc hy ?_
          rw [← h] at hupcolmem
          exact hupcolmem
        rw [upd_ne _ _ hyU, upd_ne _ _ hyN]
      · intro y hy
        have hy' : y ∈ c :: cl c := by
          rcases List.mem_append.mp hy with h | h
          · exact List.mem_cons_of_mem _ h
          · rw [List.mem_singleton.mp h]; exact List.mem_cons_self _ _
        have hyN : y ≠ nxt := by
          rcases List.mem_cons.mp hy' with rfl | h
          · exact hhdrN _ hc
          · exact hcellN y (mem_allCells hc h)
        have hyC : y ≠ column := by
          intro h
          refine hsep hc hcc hy' ?_
          rw [h]
          exact List.mem_cons_self _ _
        rw [upd_ne _ _ hyC, upd_ne _ _ hyN]
  have hcolOK' : ∀ c ∈ hs, ∀ y ∈ (if c = column then cl column ++ [nxt] else cl c),
      upd s.col nxt column y = c := by
    intro c hc y hy
    by_cases hcc : c = column
    · rw [hcc] at hy
      rw [if_pos rfl] at hy
      rw [hcc]
      rcases List.mem_append.mp hy with h | h
      · rw [upd_ne _ _ (hcellN y (mem_allCells hcol h))]
        exact B.colOK column hcol y h
      · rw [List.mem_singleton.mp h]
        exact upd_same _ _ _
    · rw [if_neg hcc] at hy
      rw [upd_ne _ _ (hcellN y (mem_allCells hc hy))]
      exact B.colOK c hc y hy
  have hcounts' : ∀ c ∈ hs, updZ s.count column (s.count column + 1) c
      = (((if c = column then cl column ++ [nxt] else cl c)).length : Int) := by
    intro c hc
    by_cases hcc : c = column
    · rw [hcc, if_pos rfl, updZ_same, B.counts column hcol]
      simp only [List.length_append, List.length_cons, List.length_nil]
      push_cast
      ring
    · rw [if_neg hcc, updZ_ne _ _ hcc]
      exact B.counts c hc
  have hP := allCells_update_perm hsnd hcol cl nxt
  have hnodes' : (0 :: (hs ++ allCells hs
      (fun d => if d = column then cl column ++ [nxt] else cl d))).Nodup := by
    have hperm : (0 :: (hs ++ allCells hs
        (fun d => if d = column then cl column ++ [nxt] else cl d))).Perm
        ((0 :: (hs ++ allCells hs cl)) ++ [nxt]) := by
      have h1 := List.Perm.cons 0 (List.Perm.append_left hs hP)
      have h2 : (0 :: (hs ++ allCells hs cl)) ++ [nxt]
          = 0 :: (hs ++ (allCells hs cl ++ [nxt])) := by
        rw [List.cons_append, List.append_assoc]
      rw [h2]
      exact h1
    refine hperm.symm.nodup ?_
    refine List.Nodup.append B.nodes (List.nodup_singleton _) ?_
    intro y hy hy'
    have := B.bound y hy
    rw [List.mem_singleton.mp hy'] at this
    omega
  have hbound' : ∀ y ∈ 0 :: (hs ++ allCells hs
      (fun d => if d = column then cl column ++ [nxt] else cl d)), y < nxt + 1 := by
    intro y hy
    rcases List.mem_cons.mp hy with rfl | hy'
    · have := B.bound 0 (List.mem_cons_self _ _); omega
    · rcases List.mem_append.mp hy' with h | h
      · have := B.bound y (List.mem_cons_of_mem _ (List.mem_append.mpr (Or.inl h)))
        omega
      · rcases List.mem_append.mp (hP.mem_iff.mp h) with h2 | h2
        · have := B.bound y (List.mem_cons_of_mem _ (List.mem_append.mpr (Or.inr h2)))
          omega
        · rw [List.mem_singleton.mp h2]
          omega
  have hfreshV : ∀ j, nxt + 1 ≤ j →
      upd (upd s.up nxt (s.up column)) column nxt j = j
      ∧ upd (upd s.down nxt column) (s.up column) nxt j = j
      ∧ upd s.col nxt column j = j
      ∧ updZ s.count column (s.count column + 1) j = 0
      ∧ s.hobj j = none
      ∧ (if j = nxt then some rowIdx else s.robj j) = none := by
    intro j hj
    have hfr := B.fresh j (by omega)
    have hjn : j ≠ nxt := by omega
    have hjc : j ≠ column := by
      have := B.bound column (List.mem_cons_of_mem _ (List.mem_append.mpr (Or.inl hcol)))
      omega
    have hju : j ≠ s.up column := by
      have := B.bound (s.up column) (List.mem_cons_of_mem _ hupcol_node)
      omega
    refine ⟨?_, ?_, ?_, ?_, ?_, ?_⟩
    · rw [upd_ne _ _ hjc, upd_ne _ _ hjn]; exact hfr.1
    · rw [upd_ne _ _ hju, upd_ne _ _ hjn]; exact hfr.2.1
    · rw [upd_ne _ _ hjn]; exact hfr.2.2.2.2.1
    · rw [updZ_ne _ _ hjc]; exact hfr.2.2.2.2.2.1
    · exact hfr.2.2.2.2.2.2.1
    · rw [if_neg hjn]; exact hfr.2.2.2.2.2.2.2
  have hmono : ∀ y ∈ allCells hs cl, y ∈ allCells hs
      (fun d => if d = column then cl column ++ [nxt] else cl d) := by
    intro y hy
    rcases List.mem_flatten.mp hy with ⟨bl, hbl, hybl⟩
    rcases List.mem_map.mp hbl with ⟨c, hc, rfl⟩
    by_cases hcc : c = column
    · rw [hcc] at hybl
      refine mem_allCells hcol ?_
      rw [if_pos rfl]
      exact List.mem_append.mpr (Or.inl hybl)
    · refine mem_allCells hc ?_
      rw [if_neg hcc]
      exact hybl
  have hnxtmem : nxt ∈ allCells hs
      (fun d => if d = column then cl column ++ [nxt] else cl d) := by
    refine mem_allCells hcol ?_
    rw [if_pos rfl]
    exact List.mem_append.mpr (Or.inr (List.mem_singleton.mpr rfl))
  have hhdrcol' : ∀ c ∈ hs, upd s.col nxt column c = c := by
    intro c hc
    rw [upd_ne _ _ (hhdrN c hc)]
    exact B.hdrcol c hc
  cases rf with
  | none =>
    rw [insertCellAt_none_eq]
    dsimp only
    rw [hupred]
    refine ⟨⟨?_, hcols', hcolOK', hcounts', hnodes', hbound', ?_, hhdrcol'⟩,
      ?_, ?_, ?_⟩
    · exact Path.congr B.hdr (fun x hx => upd_ne _ _ (h0hsN x hx))
        (fun x hx => upd_ne _ _ (h0hsN x (hmemconv x hx)))
    · intro j hj
      obtain ⟨h1, h2, h3, h4, h5, h6⟩ := hfreshV j hj
      have hjn : j ≠ nxt := by omega
      refine ⟨h1, h2, ?_, ?_, h3, h4, h5, h6⟩
      · show upd s.left nxt nxt j = j
        rw [upd_ne _ _ hjn]; exact (B.fresh j (by omega)).2.2.1
      · show upd s.right nxt nxt j = j
        rw [upd_ne _ _ hjn]; exact (B.fresh j (by omega)).2.2.2.1
    · exact ⟨upd_same _ _ _, upd_same _ _ _⟩
    · exact List.nodup_singleton _
    · intro y hy
      rw [List.mem_singleton.mp hy]
      exact hnxtmem
  | some row =>
    obtain ⟨hrp, hrnd, hrmem⟩ := RF
    have hrow_ac : row ∈ allCells hs cl := hrmem row (List.mem_cons_self _ _)
    have hrowN : row ≠ nxt := hcellN row hrow_ac
    have hlr_ac : s.left row ∈ allCells hs cl := hrmem _ (path_prv_mem hrp)
    have hlrN : s.left row ≠ nxt := hcellN _ hlr_ac
    have hlred : upd s.left nxt (s.left row) row = s.left row :=
      upd_ne _ _ hrowN
    rw [insertCellAt_some_eq]
    dsimp only
    rw [hupred, hlred]
    refine ⟨⟨?_, hcols', hcolOK', hcounts', hnodes', hbound', ?_, hhdrcol'⟩,
      ?_, ?_, ?_⟩
    · show Path (upd (upd s.right nxt row) (s.left row) nxt)
        (upd (upd s.left nxt (s.left row)) row nxt) 0 hs 0
      refine Path.congr B.hdr ?_ ?_
      · intro x hx
        rw [upd_ne _ _ (hnotAC x hx (s.left row) hlr_ac), upd_ne _ _ (h0hsN x hx)]
      · intro x hx
        have hx' := hmemconv x hx
        rw [upd_ne _ _ (hnotAC x hx' row hrow_ac), upd_ne _ _ (h0hsN x hx')]
    · intro j hj
      obtain ⟨h1, h2, h3, h4, h5, h6⟩ := hfreshV j hj
      have hjn : j ≠ nxt := by omega
      have hjrow : j ≠ row := by
        have := B.bound row (List.mem_cons_of_mem _ (List.mem_append.mpr (Or.inr hrow_ac)))
        omega
      have hjlr : j ≠ s.left row := by
        have := B.bound (s.left row)
          (List.mem_cons_of_mem _ (List.mem_append.mpr (Or.inr hlr_ac)))
        omega
      refine ⟨h1, h2, ?_, ?_, h3, h4, h5, h6⟩
      · show upd (upd s.left nxt (s.left row)) row nxt j = j
        rw [upd_ne _ _ hjrow, upd_ne _ _ hjn]; exact (B.fresh j (by omega)).2.2.1
      · show upd (upd s.right nxt row) (s.left row) nxt j = j
        rw [upd_ne _ _ hjlr, upd_ne _ _ hjn]; exact (B.fresh j (by omega)).2.2.2.1
    · have hnxtrow : nxt ∉ row :: rl := fun h => hcellN nxt (hrmem nxt h) rfl
      exact circle_append hrp hrnd hnxtrow
    · show (row :: (rl ++ [nxt])).Nodup
      rw [← List.cons_append]
      refine List.Nodup.append hrnd (List.nodup_singleton _) ?_
      intro y hy hy'
      exact hcellN y (hrmem y hy) (List.mem_singleton.mp hy')
    · intro y hy
      rcases List.mem_cons.mp hy with rfl | hy'
      · exact hmono _ hrow_ac
      · rcases List.mem_append.mp hy' with h | h
        · exact hmono y (hrmem y (List.mem_cons_of_mem _ h))
        · rw [List.mem_singleton.mp h]
          exact hnxtmem

/-- One element insertion preserves the build invariant and the row
circle; the allocation cursor advances by one or two. -/
theorem insertCell_inv [DecidableEq α] {s : Mat α} {nxt : Nat} {hs : List Nat}
    {cl : Nat → List Nat} (B : BuildInv s nxt hs cl) (rowIdx : Nat)
    {rf : Option Nat} {rl : List Nat} (RF : RowOK s hs cl rf rl) (x : α)
    {fuel : Nat} (hfuel : nxt + 1 ≤ fuel) :
    ∃ hs' cl' rl',
      BuildInv (insertCell fuel s 0 rowIdx rf x nxt).1
          (insertCell fuel s 0 rowIdx rf x nxt).2.2 hs' cl'
        ∧ RowOK (insertCell fuel s 0 rowIdx rf x nxt).1 hs' cl'
            (some (insertCell fuel s 0 rowIdx rf x nxt).2.1) rl'
        ∧ nxt < (insertCell fuel s 0 rowIdx rf x nxt).2.2
        ∧ (insertCell fuel s 0 rowIdx rf x nxt).2.2 ≤ nxt + 2 := by
  have hlen : hs.length + 2 ≤ fuel := by
    have := buildInv_hs_lt B
    omega
  have heq : insertCell fuel s 0 rowIdx rf x nxt
      = ((insertCellAt (find_column fuel s 0 x nxt).1
            (find_column fuel s 0 x nxt).2.1 rowIdx
            (find_column fuel s 0 x nxt).2.2 rf).1,
         (insertCellAt (find_column fuel s 0 x nxt).1
            (find_column fuel s 0 x nxt).2.1 rowIdx
            (find_column fuel s 0 x nxt).2.2 rf).2,
         (find_column fuel s 0 x nxt).2.2 + 1) := rfl
  rcases find_column_inv B x hlen with ⟨c, hfc, hcmem, _⟩ |
    ⟨hc1, hc2, B', hAC, hframe, _, _, _⟩
  · rw [heq, hfc]
    dsimp only
    obtain ⟨BI, RO⟩ := insertCellAt_inv B hcmem rowIdx RF
    exact ⟨hs, _, _, BI, RO, by omega, by omega⟩
  · have RF' : RowOK (find_column fuel s 0 x nxt).1 (hs ++ [nxt])
        (fun d => if d = nxt then [] else cl d) rf rl := by
      cases rf with
      | none => exact RF
      | some r =>
        obtain ⟨hrp, hrnd, hrmem⟩ := RF
        refine ⟨?_, hrnd, ?_⟩
        · refine Path.congr hrp (fun y hy => (hframe y (hrmem y hy)).1)
            (fun y hy => (hframe y (hrmem y ?_)).2)
          rcases List.mem_append.mp hy with h | h
          · exact List.mem_cons_of_mem _ h
          · rw [List.mem_singleton.mp h]
            exact List.mem_cons_self _ _
        · intro y hy
          rw [hAC]
          exact hrmem y hy
    have hcmem' : (find_column fuel s 0 x nxt).2.1 ∈ hs ++ [nxt] := by
      rw [hc1]
      exact List.mem_append.mpr (Or.inr (List.mem_singleton.mpr rfl))
    obtain ⟨BI, RO⟩ := insertCellAt_inv B' hcmem' rowIdx RF'
    rw [heq, hc2]
    dsimp only
    exact ⟨hs ++ [nxt], _, _, BI, RO, by omega, by omega⟩

/-- The step function of the inner element loop of `insertRow`. -/
def insCellStep [DecidableEq α] (fuel rowIdx : Nat) :
    (Mat α × Option Nat × Nat) → α → (Mat α × Option Nat × Nat) :=
  fun acc x =>
    let res := insertCell fuel acc.1 0 rowIdx acc.2.1 x acc.2.2
    (res.1, some res.2.1, res.2.2)

/-- Folding element insertions over a row preserves the build invariant
and the row circle. -/
theorem insCellStep_fold_inv [DecidableEq α] (rowIdx : Nat) {fuel : Nat}
    (xs : List α) :
    ∀ (s : Mat α) (nxt : Nat) (hs : List Nat) (cl : Nat → List Nat)
      (rf : Option Nat) (rl : List Nat),
      BuildInv s nxt hs cl → RowOK s hs cl rf rl →
      nxt + 2 * xs.length ≤ fuel →
      ∃ hs' cl' rl',
        BuildInv (xs.foldl (insCellStep fuel rowIdx) (s, rf, nxt)).1
            (xs.foldl (insCellStep fuel rowIdx) (s, rf, nxt)).2.2 hs' cl'
          ∧ RowOK (xs.foldl (insCellStep fuel rowIdx) (s, rf, nxt)).1 hs' cl'
              (xs.foldl (insCellStep fuel rowIdx) (s, rf, nxt)).2.1 rl'
          ∧ nxt ≤ (xs.foldl (insCellStep fuel rowIdx) (s, rf, nxt)).2.2
          ∧ (xs.foldl (insCellStep fuel rowIdx) (s, rf, nxt)).2.2
              ≤ nxt + 2 * xs.length := by
  induction xs with
  | nil =>
    intro s nxt hs cl rf rl B RF _
    exact ⟨hs, cl, rl, B, RF, le_refl _, Nat.le_add_right _ _⟩
  | cons x xs ih =>
    intro s nxt hs cl rf rl B RF hfuel
    simp only [List.length_cons] at hfuel ⊢
    rw [List.foldl_cons]
    have h1 : nxt + 1 ≤ fuel := by omega
    obtain ⟨hs1, cl1, rl1, B1, RO1, hlt, hle⟩ := insertCell_inv B rowIdx RF x h1
    have hstep : insCellStep fuel rowIdx (s, rf, nxt) x
        = ((insertCell fuel s 0 rowIdx rf x nxt).1,
           some (insertCell fuel s 0 rowIdx rf x nxt).2.1,
           (insertCell fuel s 0 rowIdx rf x nxt).2.2) := rfl
    rw [hstep]
    obtain ⟨hs', cl', rl', B', RO', h3, h4⟩ :=
      ih (insertCell fuel s 0 rowIdx rf x nxt).1
        (insertCell fuel s 0 rowIdx rf x nxt).2.2 hs1 cl1
        (some (insertCell fuel s 0 rowIdx rf x nxt).2.1) rl1 B1 RO1 (by omega)
    exact ⟨hs', cl', rl', B', RO', by omega, by omega⟩

/-- Inserting a whole input row preserves the build invariant; the
allocation cursor grows by at most two per element. -/
theorem insertRow_inv [DecidableEq α] {s : Mat α} {nxt : Nat} {hs : List Nat}
    {cl : Nat → List Nat} (B : BuildInv s nxt hs cl) (rowIdx : Nat)
    (xs : List α) {fuel : Nat} (hfuel : nxt + 2 * xs.length ≤ fuel) :
    ∃ hs' cl',
      BuildInv (insertRow fuel s 0 rowIdx xs nxt).1
          (insertRow fuel s 0 rowIdx xs nxt).2 hs' cl'
        ∧ nxt ≤ (insertRow fuel s 0 rowIdx xs nxt).2
        ∧ (insertRow fuel s 0 rowIdx xs nxt).2 ≤ nxt + 2 * xs.length := by
  have heq : insertRow fuel s 0 rowIdx xs nxt
      = ((xs.foldl (insCellStep fuel rowIdx) (s, none, nxt)).1,
         (xs.foldl (insCellStep fuel rowIdx) (s, none, nxt)).2.2) := rfl
  rw [heq]
  obtain ⟨hs', cl', rl', B', RO', h3, h4⟩ :=
    insCellStep_fold_inv rowIdx xs s nxt hs cl none [] B rfl hfuel
  exact ⟨hs', cl', B', h3, h4⟩

/-- The build loop of `coverings_init` preserves the build invariant. -/
theorem buildLoop_inv [DecidableEq α] {fuel : Nat} :
    ∀ (rows : List (List α)) (i : Nat) (s : Mat α) (nxt : Nat)
      (hs : List Nat) (cl : Nat → List Nat),
      BuildInv s nxt hs cl →
      nxt + 2 * (rows.map List.length).sum ≤ fuel →
      ∃ hs' cl',
        BuildInv (buildLoop fuel rows i (s, nxt)).1
          (buildLoop fuel rows i (s, nxt)).2 hs' cl'
  | [], _, _, _, hs, cl, B, _ => ⟨hs, cl, B⟩
  | xs :: rest, i, s, nxt, hs, cl, B, hfuel => by
    simp only [List.map_cons, List.sum_cons] at hfuel
    rw [show buildLoop fuel (xs :: rest) i (s, nxt)
        = buildLoop fuel rest (i + 1) (insertRow fuel s 0 i xs nxt) from rfl]
    obtain ⟨hs1, cl1, B1, h1, h2⟩ := @insertRow_inv α _ s nxt hs cl B i xs fuel (by omega)
    exact buildLoop_inv rest (i + 1) (insertRow fuel s 0 i xs nxt).1
      (insertRow fuel s 0 i xs nxt).2 hs1 cl1 B1 (by omega)

/-- The matrix built by `coverings_init` satisfies the build invariant,
given fuel at least one plus twice the total number of input elements. -/
theorem buildMatrix_inv [DecidableEq α] (rows : List (List α)) {fuel : Nat}
    (hfuel : 1 + 2 * (rows.map List.length).sum ≤ fuel) :
    ∃ hs cl, BuildInv (buildMatrix fuel rows).1 (buildMatrix fuel rows).2 hs cl :=
  buildLoop_inv rows 0 alloc_matrix 1 [] (fun _ => []) buildInv_init hfuel

/-- The concrete matrix built from the input rows `[0,1]` and `[1,2]`,
used to instantiate the general theorems: corner `0`, headers `1`, `3`,
`6` labelled `0`, `1`, `2`, cells `2`, `4` (first row) and `5`, `7`
(second row). -/
def exMat : Mat Nat := (buildMatrix 20 [[0, 1], [1, 2]]).1

/-- The row circles of `exMat` as seen from the two cells of column `3`. -/
def exRC : Nat → List Nat := fun r => if r = 4 then [2] else if r = 5 then [7] else []

/-- The `CoverOK` witness data for covering column `3` of `exMat`. -/
theorem exMat_coverOK : CoverOK exMat 0 3 [1, 3, 6] [4, 5] exRC [(1, [2]), (6, [7])] :=
  ⟨by decide, by decide, by decide, by decide, by decide, by decide, by decide,
    by decide, by decide, by decide, by decide, by decide⟩

/-! ### Claims -/

/-- C3: for every well-formed matrix state and every column header `h`
currently linked into the horizontal header list, performing uncover
(`link_column`) on `h` immediately after cover (`unlink_column`) on `h`
restores the matrix exactly to the state it had before the cover: every
`left`/`right`/`up`/`down` link, every header count, and the horizontal
header list are identical to before (the states are equal in all fields). -/
theorem c3_uncover_after_cover_restores {α : Type} {s : Mat α} {corner h : Nat}
    {hs cells : List Nat} {rc : Nat → List Nat} {F : List (Nat × List Nat)}
    (W : CoverOK s corner h hs cells rc F) {fuel : Nat}
    (hfuel : cells.length + 2 ≤ fuel)
    (hicap : ∀ r ∈ cells, (rc r).length + 2 ≤ fuel) :
    link_column fuel (unlink_column fuel s h) h = s :=
  cover_uncover_restore W hfuel hicap

/-- Witness for C3 at a concrete input: covering and uncovering column `3`
of the matrix built from the rows `[0,1]`, `[1,2]` is the identity. -/
theorem c3_uncover_after_cover_restores_witness :
    link_column 4 (unlink_column 4 exMat 3) 3 = exMat :=
  c3_uncover_after_cover_restores exMat_coverOK (by decide) (by decide)

/-- Cells of a list of rows in downward row order and rightward cell
order: the cover processing order that the specification asserts. -/
def flatFwd (rc : Nat → List Nat) : List Nat → List Nat
  | [] => []
  | r :: rs => rc r ++ flatFwd rc rs

/-- The concrete matrix built from the duplicate rows `[0,1]` and `[0,1]`:
corner `0`, headers `1` (label `0`) and `3` (label `1`), first row cells
`2`, `4`, second row cells `5`, `6`. -/
def exMat2 : Mat Nat := (buildMatrix 20 [[0, 1], [0, 1]]).1

/-- The row circles of `exMat2` as seen from the two cells of column `1`. -/
def exRC2 : Nat → List Nat := fun r => if r = 2 then [4] else if r = 5 then [6] else []

/-- C6, counterexample: the claim asserts that `unlink_column` walks the
covered column in the `down` direction and each row in the `right`
direction, i.e. that it computes the removal sequence `flatFwd rc cells`.
On the well-formed matrix built from two copies of the row `[0,1]`,
covering column `1` in that claimed order yields a different state from
what `unlink_column` actually computes (the actual walk is `up` then
`left`), witnessed at the `down` link of cell `4`. -/
theorem c6_counterexample :
    CoverOK exMat2 0 1 [1, 3] [2, 5] exRC2 [(3, [4, 6])] ∧
      unlink_column 4 exMat2 1
        ≠ removeSeq (unlinkHeader exMat2 1) (flatFwd exRC2 [2, 5]) := by
  constructor
  · exact ⟨by decide, by decide, by decide, by decide, by decide, by decide, by decide,
      by decide, by decide, by decide, by decide, by decide⟩
  · intro hEq
    have := congrArg (fun m => m.down 4) hEq
    revert this
    decide

/-- C6, amended: `unlink_column` walks the covered column's vertical list
in the `up` direction and each encountered row in the `left` direction
(the removal sequence is `flatRev rc cells.reverse`), while `link_column`
walks `down` then `right`, so that uncover undoes the link mutations in
the exact reverse order cover made them: re-adding the removed cells in
reverse removal order restores the post-header-unlink state exactly, and
the full uncover restores the original state. -/
theorem c6_traversal_order {α : Type} {s : Mat α} {corner h : Nat}
    {hs cells : List Nat} {rc : Nat → List Nat} {F : List (Nat × List Nat)}
    (W : CoverOK s corner h hs cells rc F) {fuel : Nat}
    (hfuel : cells.length + 2 ≤ fuel)
    (hicap : ∀ r ∈ cells, (rc r).length + 2 ≤ fuel) :
    unlink_column fuel s h = removeSeq (unlinkHeader s h) (flatRev rc cells.reverse)
      ∧ addSeq (removeSeq (unlinkHeader s h) (flatRev rc cells.reverse))
          (flatRev rc cells.reverse).reverse = unlinkHeader s h
      ∧ link_column fuel (unlink_column fuel s h) h = s :=
  ⟨unlink_column_eq W hfuel hicap,
    addSeq_removeSeq (fam_consume W.fam_t W.consumeES).1,
    cover_uncover_restore W hfuel hicap⟩

/-- Witness for the amended C6 at the `exMat` instance. -/
theorem c6_traversal_order_witness :
    unlink_column 4 exMat 3 = removeSeq (unlinkHeader exMat 3) (flatRev exRC [5, 4])
      ∧ addSeq (removeSeq (unlinkHeader exMat 3) (flatRev exRC [5, 4]))
          (flatRev exRC [5, 4]).reverse = unlinkHeader exMat 3
      ∧ link_column 4 (unlink_column 4 exMat 3) 3 = exMat :=
  c6_traversal_order exMat_coverOK (by decide) (by decide)

/-- The concrete matrix built from the rows `[0,1]` and `[1]`: corner `0`,
headers `1` (label `0`) and `3` (label `1`), first row cells `2`, `4`,
second row cell `5`. -/
def exMat3 : Mat Nat := (buildMatrix 20 [[0, 1], [1]]).1

/-- The row circle of the single cell of column `1` of `exMat3`. -/
def exRC3 : Nat → List Nat := fun r => if r = 2 then [4] else []

/-- C9, counterexample: the claim asserts that for columns other than the
covered one, only the up/down links of cells in rows intersecting `h`
change.  On the well-formed matrix built from the rows `[0,1]` and `[1]`,
covering column `1` changes the `up` link of cell `5`, which is the sole
cell of the second row — a row whose only column is `3`, so it does not
intersect the covered column at all (its cells are vertical neighbours of
the removed cell `4`). -/
theorem c9_counterexample :
    CoverOK exMat3 0 1 [1, 3] [2] exRC3 [(3, [4, 5])] ∧
      Path exMat3.right exMat3.left 5 [] 5 ∧
      exMat3.col 5 = 3 ∧
      (unlink_column 4 exMat3 1).up 5 ≠ exMat3.up 5 := by
  refine ⟨⟨by decide, by decide, by decide, by decide, by decide, by decide, by decide,
    by decide, by decide, by decide, by decide, by decide⟩, by decide, by decide, ?_⟩
  decide

/-- C9, amended frame property: covering `h` modifies neither `h.count`
nor the up/down links of the cells of `h`'s own vertical list, and for
every other column, only the column counts and the up/down links of nodes
in the touched columns' vertical lists change (those nodes are the
vertical neighbours of the removed cells, and may include headers and
cells of rows not intersecting `h`); backtracking advances to the next
candidate row of the same column via the row's `down` link. -/
theorem c9_cover_frame {α : Type} {s : Mat α} {corner h : Nat}
    {hs cells : List Nat} {rc : Nat → List Nat} {F : List (Nat × List Nat)}
    (W : CoverOK s corner h hs cells rc F) {fuel : Nat}
    (hfuel : cells.length + 2 ≤ fuel)
    (hicap : ∀ r ∈ cells, (rc r).length + 2 ≤ fuel) :
    (unlink_column fuel s h).count h = s.count h
      ∧ (∀ x ∈ h :: cells,
          (unlink_column fuel s h).up x = s.up x
            ∧ (unlink_column fuel s h).down x = s.down x)
      ∧ (∀ x, x ∉ famNodes F →
          (unlink_column fuel s h).up x = s.up x
            ∧ (unlink_column fuel s h).down x = s.down x
            ∧ (unlink_column fuel s h).count x = s.count x)
      ∧ (∀ (m : Mat α) (row : Nat) (rest : List Nat) (bfuel : Nat),
          backupLoop bfuel m (row :: rest)
            = (if (link_row bfuel m row).down row
                  = (link_row bfuel m row).col ((link_row bfuel m row).down row) then
                backupLoop bfuel (link_row bfuel m row) rest
              else
                (unlink_row bfuel (link_row bfuel m row)
                    ((link_row bfuel m row).down row),
                  (link_row bfuel m row).down row :: rest, true))) := by
  have hframe := (fam_consume W.fam_t W.consumeES).2.2
  have heq := unlink_column_eq W hfuel hicap
  refine ⟨?_, ?_, ?_, ?_⟩
  · rw [heq]
    exact (hframe h (W.colhF h (List.mem_cons_self _ _))).2.2
  · intro x hx
    rw [heq]
    exact ⟨(hframe x (W.colhF x hx)).1, (hframe x (W.colhF x hx)).2.1⟩
  · intro x hx
    rw [heq]
    exact hframe x hx
  · intro m row rest bfuel
    rfl

/-- The `smallest_column` loop folds the comparison step over the
rightward path it walks. -/
theorem smallestLoop_run {s : Mat α} {corner : Nat} :
    ∀ {l : List Nat} {i : Nat} {acc : Option Nat} {fuel : Nat},
      Path s.right s.left i l corner → corner ∉ i :: l →
      l.length + 2 ≤ fuel →
      smallestLoop s corner fuel i acc = (i :: l).foldl (chooser s) acc := by
  intro l
  induction l with
  | nil =>
    intro i acc fuel hP hc hfuel
    obtain ⟨f, rfl⟩ : ∃ f, fuel = f + 1 + 1 := ⟨fuel - 2, by omega⟩
    have hine : i ≠ corner := fun hh => hc (hh ▸ List.mem_cons_self _ _)
    rw [smallestLoop, if_neg hine]
    show smallestLoop s corner (f + 1) (s.right i) (chooser s acc i) = _
    rw [hP.1, smallestLoop, if_pos rfl]
    rfl
  | cons x l ih =>
    intro i acc fuel hP hc hfuel
    obtain ⟨f, rfl⟩ : ∃ f, fuel = f + 1 := ⟨fuel - 1, by omega⟩
    have hine : i ≠ corner := fun hh => hc (hh ▸ List.mem_cons_self _ _)
    rw [smallestLoop, if_neg hine]
    show smallestLoop s corner f (s.right i) (chooser s acc i) = _
    rw [hP.1]
    rw [ih hP.2.2 (fun hh => hc (List.mem_cons_of_mem _ hh))
      (by simp at hfuel ⊢; omega)]
    rfl

/-- The fold of the comparison step starting from a candidate returns the
first minimum of the candidate-then-list sequence. -/
theorem chooser_foldl_spec (s : Mat α) :
    ∀ (l : List Nat) (sm : Nat),
      ∃ m l₁ l₂, l.foldl (chooser s) (some sm) = some m
        ∧ sm :: l = l₁ ++ m :: l₂
        ∧ (∀ c ∈ l₁, s.count m < s.count c)
        ∧ (∀ c ∈ l₂, s.count m ≤ s.count c) := by
  intro l
  induction l with
  | nil =>
    intro sm
    exact ⟨sm, [], [], rfl, rfl, by simp, by simp⟩
  | cons c l ih =>
    intro sm
    by_cases hcmp : s.count sm > s.count c
    · obtain ⟨m, l₁, l₂, hfold, hsplit, hpre, hpost⟩ := ih c
      have hmle : s.count m ≤ s.count c := by
        cases l₁ with
        | nil =>
          have : c = m := (List.cons.injEq _ _ _ _ ▸ hsplit).1
          rw [this]
        | cons c₁ l₁' =>
          have hc₁ : c₁ = c := ((List.cons.injEq _ _ _ _ ▸ hsplit).1).symm
          exact le_of_lt (hc₁ ▸ hpre c₁ (List.mem_cons_self _ _))
      refine ⟨m, sm :: l₁, l₂, ?_, ?_, ?_, hpost⟩
      · show l.foldl (chooser s) (chooser s (some sm) c) = some m
        show l.foldl (chooser s)
            (if s.count sm > s.count c then some c else some sm) = some m
        rw [if_pos hcmp]
        exact hfold
      · show sm :: c :: l = (sm :: l₁) ++ m :: l₂
        rw [List.cons_append, hsplit]
      · intro x hx
        rcases List.mem_cons.mp hx with rfl | hx
        · exact lt_of_le_of_lt hmle hcmp
        · exact hpre x hx
    · obtain ⟨m, l₁, l₂, hfold, hsplit, hpre, hpost⟩ := ih sm
      have hstep : l.foldl (chooser s) (chooser s (some sm) c) = some m := by
        show l.foldl (chooser s)
            (if s.count sm > s.count c then some c else some sm) = some m
        rw [if_neg hcmp]
        exact hfold
      have hsmc : s.count sm ≤ s.count c := le_of_not_lt hcmp
      cases l₁ with
      | nil =>
        obtain ⟨hm, hl⟩ := List.cons.injEq _ _ _ _ ▸ hsplit
        refine ⟨m, [], c :: l₂, hstep, ?_, by simp, ?_⟩
        · rw [List.nil_append, ← hm, ← hl]
        · intro x hx
          rcases List.mem_cons.mp hx with rfl | hx
          · exact hm ▸ hsmc
          · exact hpost x hx
      | cons a l₁' =>
        obtain ⟨ha, hl⟩ := List.cons.injEq _ _ _ _ ▸ hsplit
        refine ⟨m, sm :: c :: l₁', l₂, hstep, ?_, ?_, hpost⟩
        · show sm :: c :: l = (sm :: c :: l₁') ++ m :: l₂
          rw [hl]
          rfl
        · intro x hx
          have hmsm : s.count m < s.count sm := ha ▸ hpre a (List.mem_cons_self _ _)
          rcases List.mem_cons.mp hx with rfl | hx
          · exact hmsm
          · rcases List.mem_cons.mp hx with rfl | hx
            · exact lt_of_lt_of_le hmsm hsmc
            · exact hpre x (List.mem_cons_of_mem _ hx)

/-- C7: `smallest_column` scans the header list exactly once from
`root.right` back to `root` (it computes the single left fold of the
comparison step over the header list); it returns `none` exactly when the
horizontal header list is empty; and when it returns a header `m`, `m`
has minimal count and every header encountered before `m` has a strictly
larger count (ties break in favour of the first, i.e. leftmost,
encountered header). -/
theorem c7_smallest_column_spec {α : Type} {s : Mat α} {corner : Nat} {hs : List Nat}
    {fuel : Nat} (hdr : Path s.right s.left corner hs corner)
    (hnd : (corner :: hs).Nodup) (hfuel : hs.length + 2 ≤ fuel) :
    smallest_column fuel s corner = hs.foldl (chooser s) none
      ∧ (smallest_column fuel s corner = none ↔ hs = [])
      ∧ (∀ m, smallest_column fuel s corner = some m →
          ∃ l₁ l₂, hs = l₁ ++ m :: l₂
            ∧ (∀ c ∈ l₁, s.count m < s.count c)
            ∧ (∀ c ∈ hs, s.count m ≤ s.count c)) := by
  have hcornot : corner ∉ hs := (List.nodup_cons.mp hnd).1
  have h1 : smallest_column fuel s corner = hs.foldl (chooser s) none := by
    show smallestLoop s corner fuel (s.right corner) none = _
    cases hhs : hs with
    | nil =>
      obtain ⟨f, rfl⟩ : ∃ f, fuel = f + 1 := ⟨fuel - 1, by omega⟩
      rw [hhs] at hdr
      rw [hdr.1, smallestLoop, if_pos rfl]
      rfl
    | cons c rest =>
      rw [hhs] at hdr hcornot
      rw [hdr.1]
      exact smallestLoop_run hdr.2.2 (fun hc => hcornot hc)
        (by rw [hhs] at hfuel; simp only [List.length_cons] at hfuel ⊢; omega)
  refine ⟨h1, ?_, ?_⟩
  · constructor
    · intro hnone
      cases hhs : hs with
      | nil => rfl
      | cons c rest =>
        rw [h1, hhs] at hnone
        obtain ⟨m, l₁, l₂, hfold, _, _, _⟩ := chooser_foldl_spec s rest c
        rw [show (c :: rest).foldl (chooser s) none
            = rest.foldl (chooser s) (some c) from rfl, hfold] at hnone
        cases hnone
    · rintro rfl
      rw [h1]
      rfl
  · intro m hm
    cases hhs : hs with
    | nil =>
      rw [h1, hhs] at hm
      cases hm
    | cons c rest =>
      rw [h1, hhs] at hm
      obtain ⟨m', l₁, l₂, hfold, hsplit, hpre, hpost⟩ := chooser_foldl_spec s rest c
      rw [show (c :: rest).foldl (chooser s) none
          = rest.foldl (chooser s) (some c) from rfl, hfold] at hm
      obtain rfl : m' = m := (Option.some.injEq _ _ ▸ hm)
      refine ⟨l₁, l₂, hsplit, hpre, ?_⟩
      intro x hx
      rw [hsplit] at hx
      rcases List.mem_append.mp hx with hx | hx
      · exact le_of_lt (hpre x hx)
      · rcases List.mem_cons.mp hx with rfl | hx
        · exact le_refl _
        · exact hpost x hx

/-- Witness for C7 at the `exMat` instance. -/
theorem c7_smallest_column_spec_witness :
    smallest_column 5 exMat 0 = [1, 3, 6].foldl (chooser exMat) none
      ∧ (smallest_column 5 exMat 0 = none ↔ [1, 3, 6] = ([] : List Nat))
      ∧ (∀ m, smallest_column 5 exMat 0 = some m →
          ∃ l₁ l₂, [1, 3, 6] = l₁ ++ m :: l₂
            ∧ (∀ c ∈ l₁, exMat.count m < exMat.count c)
            ∧ (∀ c ∈ [1, 3, 6], exMat.count m ≤ exMat.count c)) :=
  c7_smallest_column_spec (by decide) (by decide) (by decide)

/-- C8: for empty input (no rows at all), the iterator yields exactly one
solution, the empty tuple, on the first call to `next`, and every
subsequent call to `next` reports exhaustion (returns the
exhausted marker with the iterator state unchanged, so all later calls
behave identically). -/
theorem c8_empty_input (α : Type) [DecidableEq α] (bfuel fuel lfuel : Nat) :
    coverings_next (fuel + 1) (lfuel + 1) (coverings_init bfuel ([] : List (List α)))
        = some (some [],
            { coverings_init bfuel ([] : List (List α)) with first := false })
      ∧ ∀ (fuel2 lfuel2 : Nat),
          coverings_next fuel2 lfuel2
              { coverings_init bfuel ([] : List (List α)) with first := false }
            = some (none,
                { coverings_init bfuel ([] : List (List α)) with first := false }) :=
  ⟨rfl, fun _ _ => rfl⟩

/-- C10: construction performs no deduplication of equal elements within
one row.  First part: every call of the element-insertion step allocates a
fresh cell (id at least `nxt`, the only node whose row object changes),
records the input row as its row object, places it in the column returned
by `find_column`, and increments that column's count by one.  Second
part: building from a single row containing the same element twice
produces two distinct cells (`2` and `3`) of the same row (`0`) in the
same column (`1`, the column labelled by that element), whose count ends
at `2`. -/
theorem c10_no_dedup_within_row (α : Type) [DecidableEq α] :
    (∀ (s : Mat α) (corner rowIdx : Nat) (rf : Option Nat) (x : α) (nxt fuel : Nat),
      (insertCell fuel s corner rowIdx rf x nxt).2.2
          = (find_column fuel s corner x nxt).2.2 + 1
        ∧ (insertCell fuel s corner rowIdx rf x nxt).1.robj
            (find_column fuel s corner x nxt).2.2 = some rowIdx
        ∧ (insertCell fuel s corner rowIdx rf x nxt).1.col
            (find_column fuel s corner x nxt).2.2 = (find_column fuel s corner x nxt).2.1
        ∧ (insertCell fuel s corner rowIdx rf x nxt).1.count
              (find_column fuel s corner x nxt).2.1
            = (find_column fuel s corner x nxt).1.count
                (find_column fuel s corner x nxt).2.1 + 1
        ∧ nxt ≤ (find_column fuel s corner x nxt).2.2
        ∧ (find_column fuel s corner x nxt).1.robj = s.robj
        ∧ ∀ j, j ≠ (find_column fuel s corner x nxt).2.2 →
            (insertCell fuel s corner rowIdx rf x nxt).1.robj j = s.robj j)
      ∧ ∀ (x : α),
          ((buildMatrix 20 [[x, x]]).1).col 2 = 1
            ∧ ((buildMatrix 20 [[x, x]]).1).col 3 = 1
            ∧ ((buildMatrix 20 [[x, x]]).1).robj 2 = some 0
            ∧ ((buildMatrix 20 [[x, x]]).1).robj 3 = some 0
            ∧ ((buildMatrix 20 [[x, x]]).1).count 1 = 2
            ∧ ((buildMatrix 20 [[x, x]]).1).hobj 1 = some x := by
  constructor
  · intro s corner rowIdx rf x nxt fuel
    refine ⟨?_, ?_, ?_, ?_, ?_, ?_, ?_⟩
    · cases rf <;> simp [insertCell, insertCellAt]
    · cases rf <;> simp [insertCell, insertCellAt, upd, updZ]
    · cases rf <;> simp [insertCell, insertCellAt, upd, updZ]
    · cases rf <;> simp [insertCell, insertCellAt, upd, updZ]
    · unfold find_column
      cases findColumnLoop s corner x fuel (s.right corner) <;> simp
    · unfold find_column
      cases findColumnLoop s corner x fuel (s.right corner) <;> simp
    · intro j hj
      have hfr : (find_column fuel s corner x nxt).1.robj = s.robj := by
        unfold find_column
        cases findColumnLoop s corner x fuel (s.right corner) <;> simp
      cases rf <;> simp [insertCell, insertCellAt, upd, updZ, hj, hfr]
  · intro x
    refine ⟨?_, ?_, ?_, ?_, ?_, ?_⟩ <;>
      simp [buildMatrix, buildLoop, insertRow, insertCell, insertCellAt, find_column,
        findColumnLoop, alloc_matrix, upd, updZ]

/-- Witness for C8 at concrete fuel values. -/
theorem c8_empty_input_witness :
    coverings_next 1 1 (coverings_init 1 ([] : List (List Nat)))
        = some (some [], { coverings_init 1 ([] : List (List Nat)) with first := false })
      ∧ coverings_next 7 9 { coverings_init 1 ([] : List (List Nat)) with first := false }
          = some (none, { coverings_init 1 ([] : List (List Nat)) with first := false }) :=
  ⟨(c8_empty_input Nat 1 0 0).1, (c8_empty_input Nat 1 0 0).2 7 9⟩

/-- Witness for C10 at a concrete input: the duplicate-element row `[0,0]`
yields two cells in column `1` and count `2`. -/
theorem c10_no_dedup_within_row_witness :
    ((buildMatrix 20 [[(0 : Nat), 0]]).1).count 1 = 2
      ∧ ((buildMatrix 20 [[(0 : Nat), 0]]).1).robj 2 = some 0
      ∧ ((buildMatrix 20 [[(0 : Nat), 0]]).1).robj 3 = some 0 :=
  ⟨((c10_no_dedup_within_row Nat).2 0).2.2.2.2.1,
    ((c10_no_dedup_within_row Nat).2 0).2.2.1,
    ((c10_no_dedup_within_row Nat).2 0).2.2.2.1⟩

/-- Witness for the amended C9 at the `exMat` instance. -/
theorem c9_cover_frame_witness :
    (unlink_column 4 exMat 3).count 3 = exMat.count 3
      ∧ (∀ x ∈ 3 :: [4, 5],
          (unlink_column 4 exMat 3).up x = exMat.up x
            ∧ (unlink_column 4 exMat 3).down x = exMat.down x)
      ∧ (∀ x, x ∉ famNodes [(1, [2]), (6, [7])] →
          (unlink_column 4 exMat 3).up x = exMat.up x
            ∧ (unlink_column 4 exMat 3).down x = exMat.down x
            ∧ (unlink_column 4 exMat 3).count x = exMat.count x)
      ∧ (∀ (m : Mat Nat) (row : Nat) (rest : List Nat) (bfuel : Nat),
          backupLoop bfuel m (row :: rest)
            = (if (link_row bfuel m row).down row
                  = (link_row bfuel m row).col ((link_row bfuel m row).down row) then
                backupLoop bfuel (link_row bfuel m row) rest
              else
                (unlink_row bfuel (link_row bfuel m row)
                    ((link_row bfuel m row).down row),
                  (link_row bfuel m row).down row :: rest, true))) :=
  c9_cover_frame exMat_coverOK (by decide) (by decide)

/-- A column header's `count` field equals the length of its current
vertical cell list. -/
def CountOK (s : Mat α) (c : Nat) : Prop :=
  ∃ l, Path s.down s.up c l c ∧ s.count c = (l.length : Int)

/-- Erasing cells from a family keeps every header's entry present. -/
theorem eraseFseq_keys {c : Nat} :
    ∀ {es : List Nat} {F : List (Nat × List Nat)} {l : List Nat},
      (c, l) ∈ F → ∃ l', (c, l') ∈ eraseFseq F es
  | [], _, l, h => ⟨l, h⟩
  | e :: es, _, _, h =>
    @eraseFseq_keys c es _ _ (List.mem_map_of_mem (fun p => (p.1, p.2.erase e)) h)

/-- C4: between search steps, every column header present in the
horizontal header list has its `count` equal to the number of non-header
cells currently linked into its vertical list.  The invariant holds after
the build (`coverings_init`), is preserved by a cover (`unlink_column`)
for all headers remaining in the horizontal list, and is restored for
every column by the following uncover (`link_column`). -/
theorem c4_count_invariant [DecidableEq α] :
    (∀ (rows : List (List α)) (fuel : Nat),
        1 + 2 * (rows.map List.length).sum ≤ fuel →
        ∃ hs, Path (buildMatrix fuel rows).1.right (buildMatrix fuel rows).1.left 0 hs 0
          ∧ ∀ c ∈ hs, CountOK (buildMatrix fuel rows).1 c)
    ∧ (∀ (s : Mat α) (corner h : Nat) (hs cells : List Nat) (rc : Nat → List Nat)
        (F : List (Nat × List Nat)) (fuel : Nat),
        CoverOK s corner h hs cells rc F →
        (∀ c ∈ hs, c ≠ h → ∃ l, (c, l) ∈ F) →
        cells.length + 2 ≤ fuel →
        (∀ r ∈ cells, (rc r).length + 2 ≤ fuel) →
        Path (unlink_column fuel s h).right (unlink_column fuel s h).left
            corner (hs.erase h) corner
          ∧ ∀ c ∈ hs.erase h, CountOK (unlink_column fuel s h) c)
    ∧ (∀ (s : Mat α) (corner h : Nat) (hs cells : List Nat) (rc : Nat → List Nat)
        (F : List (Nat × List Nat)) (fuel : Nat),
        CoverOK s corner h hs cells rc F →
        cells.length + 2 ≤ fuel →
        (∀ r ∈ cells, (rc r).length + 2 ≤ fuel) →
        ∀ c, CountOK s c →
          CountOK (link_column fuel (unlink_column fuel s h) h) c) := by
  refine ⟨?_, ?_, ?_⟩
  · intro rows fuel hfuel
    obtain ⟨hs, cl, B⟩ := buildMatrix_inv rows hfuel
    exact ⟨hs, B.hdr, fun c hc => ⟨cl c, B.cols c hc, B.counts c hc⟩⟩
  · intro s corner h hs cells rc F fuel W hkeys hfuel hicap
    have hUC := unlink_column_eq W hfuel hicap
    obtain ⟨hseq, hfam, hframe⟩ := fam_consume W.fam_t W.consumeES
    obtain ⟨l₁, l₂, hdecomp⟩ := List.append_of_mem W.hmem
    have hhdrnd : (corner :: hs).Nodup := W.hdrnd
    have hsnd : hs.Nodup := (List.nodup_cons.mp hhdrnd).2
    have hcornot : corner ∉ hs := (List.nodup_cons.mp hhdrnd).1
    have hnotl₁ : h ∉ l₁ := by
      rw [hdecomp] at hsnd
      exact fun hc => (List.disjoint_of_nodup_append hsnd) hc (List.mem_cons_self _ _)
    have hErase : hs.erase h = l₁ ++ l₂ := by
      rw [hdecomp, List.erase_append_right _ hnotl₁, List.erase_cons_head]
    constructor
    · rw [hUC, hErase]
      have hpe : Path (upd s.right (s.left h) (s.right h))
          (upd s.left (s.right h) (s.left h)) corner (l₁ ++ l₂) corner := by
        refine path_erase ?_ ?_ ?_
        · rw [← hdecomp]; exact W.hdr
        · rw [← hdecomp]; exact hhdrnd
        · intro hc
          rw [← hdecomp] at hc
          exact hcornot hc
      have hR : (unlinkHeader s h).right = upd s.right (s.left h) (s.right h) := by
        rw [unlinkHeader_eq]
      have hL : (unlinkHeader s h).left = upd s.left (s.right h) (s.left h) := by
        rw [unlinkHeader_eq]
      refine Path.congr hpe (fun y _ => ?_) (fun y _ => ?_)
      · rw [removeSeq_right, hR]
      · rw [removeSeq_left, hL]
    · intro c hc
      have hc' := (List.Nodup.mem_erase_iff hsnd).mp hc
      obtain ⟨l, hlF⟩ := hkeys c hc'.2 hc'.1
      obtain ⟨l', hl'⟩ := eraseFseq_keys hlF
      obtain ⟨hpath, hcolx, hcnt⟩ := hfam.1 _ hl'
      rw [hUC]
      exact ⟨l', hpath, hcnt⟩
  · intro s corner h hs cells rc F fuel W hfuel hicap c hcok
    rw [cover_uncover_restore W hfuel hicap]
    exact hcok

/-- Witness for C4 at the concrete built matrix `exMat` and the cover of
column `3`. -/
theorem c4_count_invariant_witness :
    (∃ hs, Path (buildMatrix 20 [[0, 1], [1, 2]]).1.right
          (buildMatrix 20 [[0, 1], [1, 2]]).1.left 0 hs 0
        ∧ ∀ c ∈ hs, CountOK (buildMatrix 20 [[0, 1], [1, 2]]).1 c)
    ∧ (Path (unlink_column 4 exMat 3).right (unlink_column 4 exMat 3).left
          0 ([1, 3, 6].erase 3) 0
        ∧ ∀ c ∈ [1, 3, 6].erase 3, CountOK (unlink_column 4 exMat 3) c)
    ∧ CountOK (link_column 4 (unlink_column 4 exMat 3) 3) 1 :=
  ⟨(@c4_count_invariant Nat _).1 [[0, 1], [1, 2]] 20 (by decide),
   (@c4_count_invariant Nat _).2.1 exMat 0 3 [1, 3, 6] [4, 5] exRC
     [(1, [2]), (6, [7])] 4 exMat_coverOK
     (by
       intro c hc hne
       fin_cases hc
       · exact ⟨[2], by decide⟩
       · exact absurd rfl hne
       · exact ⟨[7], by decide⟩)
     (by decide) (by decide),
   (@c4_count_invariant Nat _).2.2 exMat 0 3 [1, 3, 6] [4, 5] exRC
     [(1, [2]), (6, [7])] 4 exMat_coverOK (by decide) (by decide) 1
     ⟨[2], by decide, by decide⟩⟩

/-! ### The search-state invariant -/

/-- Iterated erasure keeps a sublist. -/
theorem foldl_erase_sublist : ∀ (es : List Nat) (l : List Nat),
    List.Sublist (es.foldl List.erase l) l
  | [], l => List.Sublist.refl l
  | e :: es, l => (foldl_erase_sublist es (l.erase e)).trans (List.erase_sublist e l)

/-- Membership after iterated erasure from a duplicate-free list. -/
theorem foldl_erase_mem {x : Nat} : ∀ (es : List Nat) (l : List Nat), l.Nodup →
    (x ∈ es.foldl List.erase l ↔ x ∈ l ∧ x ∉ es) := by
  intro es
  induction es with
  | nil =>
    intro l _
    simp
  | cons e es ih =>
    intro l hnd
    rw [List.foldl_cons, ih (l.erase e) (hnd.erase e), List.Nodup.mem_erase_iff hnd]
    simp only [List.mem_cons]
    constructor
    · rintro ⟨⟨hne, hx⟩, hnotin⟩
      exact ⟨hx, fun hc => hc.elim hne hnotin⟩
    · rintro ⟨hx, hn⟩
      exact ⟨⟨fun hc => hn (Or.inl hc), hx⟩, fun hc => hn (Or.inr hc)⟩

/-- `eraseFseq` acts entrywise on a family presented by a key list. -/
theorem eraseFseq_map : ∀ (es : List Nat) (A : List Nat) (f : Nat → List Nat),
    eraseFseq (A.map fun c => (c, f c)) es
      = A.map (fun c => (c, es.foldl List.erase (f c))) := by
  intro es
  induction es with
  | nil =>
    intro A f
    rfl
  | cons e es ih =>
    intro A f
    show eraseFseq (eraseF (A.map fun c => (c, f c)) e) es = _
    rw [show eraseF (A.map fun c => (c, f c)) e
        = A.map (fun c => (c, (f c).erase e)) from by
      unfold eraseF
      rw [List.map_map]
      rfl]
    rw [ih A (fun c => (f c).erase e)]
    rfl

/-- The nodes of a key-list family, as a flat block list. -/
theorem famNodes_map_acl (A : List Nat) (acl : Nat → List Nat) :
    famNodes (A.map fun c => (c, acl c)) = allCells A (fun c => c :: acl c) := by
  unfold famNodes allCells
  rw [List.map_map]
  rfl

/-- The block heads form a sublist of the flat block list. -/
theorem heads_sublist (A : List Nat) (acl : Nat → List Nat) :
    List.Sublist A (allCells A (fun c => c :: acl c)) := by
  induction A with
  | nil => exact List.nil_sublist _
  | cons c A ih =>
    show List.Sublist (c :: A) ((c :: acl c) ++ allCells A _)
    rw [List.cons_append]
    exact List.Sublist.cons₂ c (ih.trans (List.sublist_append_right _ _))

/-- Erasing, one by one, distinct members of a list splits it up to
permutation. -/
theorem perm_foldl_erase : ∀ (l A : List Nat), l.Nodup → (∀ x ∈ l, x ∈ A) →
    A.Perm (l ++ l.foldl List.erase A)
  | [], A, _, _ => by simpa using List.Perm.refl A
  | x :: l, A, hnd, hmem => by
    have hx : x ∈ A := hmem x (List.mem_cons_self _ _)
    have hxl := (List.nodup_cons.mp hnd).1
    have hmem' : ∀ y ∈ l, y ∈ A.erase x := fun y hy =>
      (List.mem_erase_of_ne (fun hc => hxl (by rw [← hc]; exact hy))).mpr
        (hmem y (List.mem_cons_of_mem _ hy))
    have ih := perm_foldl_erase l (A.erase x) (List.nodup_cons.mp hnd).2 hmem'
    exact (List.perm_cons_erase hx).trans (List.Perm.cons x ih)

/-- Iterated erasure only removes members. -/
theorem foldl_erase_subset : ∀ (es l : List Nat) {e : Nat},
    e ∈ es.foldl List.erase l → e ∈ l
  | [], _, _, h => h
  | x :: es, l, e, h =>
    List.mem_of_mem_erase (foldl_erase_subset es (l.erase x) h)

/-- Well-formedness of a search state of the dancing-links matrix: `A` is
the active header list in horizontal order, `acl c` the active vertical
cell list of active column `c`, and `rc r` the (static) list of the other
cells of cell `r`'s row circle.  Captures the header circle, the family
invariant of the active columns, the intactness and activity of the row
circles of active cells, the pairwise-distinct-columns property of rows,
and the coherence and disjointness of the row circles. -/
structure SWF (s : Mat α) (A : List Nat) (acl rc : Nat → List Nat) : Prop where
  hdr : Path s.right s.left 0 A 0
  hdrnd : (0 :: A).Nodup
  nodesnd : (0 :: famNodes (A.map fun c => (c, acl c))).Nodup
  entries : ∀ c ∈ A, EntryOK s c (acl c)
  colz : ∀ c ∈ A, s.col c = c
  rows : ∀ c ∈ A, ∀ r ∈ acl c, Path s.right s.left r (rc r) r
  rcnd : ∀ c ∈ A, ∀ r ∈ acl c, (r :: rc r).Nodup
  sibcol : ∀ c ∈ A, ∀ r ∈ acl c, ((r :: rc r).map s.col).Nodup
  sib : ∀ c ∈ A, ∀ r ∈ acl c, ∀ e ∈ rc r,
    s.col e ∈ A ∧ s.col e ≠ c ∧ e ∈ acl (s.col e)
  rccoh : ∀ c ∈ A, ∀ r ∈ acl c, ∀ e ∈ rc r, (e :: rc e).Perm (r :: rc r)
  hdisj : ∀ y ∈ 0 :: A, ∀ c ∈ A, ∀ r ∈ acl c, y ∉ r :: rc r

/-- Fuel capacity for all loops run from a search state. -/
def HCap (icap : Nat) (A : List Nat) (acl rc : Nat → List Nat) : Prop :=
  A.length + 2 ≤ icap
    ∧ (∀ c ∈ A, (acl c).length + 2 ≤ icap)
    ∧ (∀ c ∈ A, ∀ r ∈ acl c, (rc r).length + 2 ≤ icap)

/-- The active cell lists after the removal sequence of a cover. -/
def aclAfter (es : List Nat) (acl : Nat → List Nat) : Nat → List Nat :=
  fun c => es.foldl List.erase (acl c)

/-- The flat removal list of a cover has no duplicates when the blocks do
and are pairwise disjoint. -/
theorem flatRev_nodup {rc : Nat → List Nat} : ∀ {rs : List Nat},
    (∀ r ∈ rs, (rc r).Nodup) →
    (∀ r₁ ∈ rs, ∀ r₂ ∈ rs, r₁ ≠ r₂ → ∀ e ∈ rc r₁, e ∉ rc r₂) →
    rs.Nodup → (flatRev rc rs).Nodup := by
  intro rs
  induction rs with
  | nil =>
    intro _ _ _
    exact List.nodup_nil
  | cons r rs ih =>
    intro hbl hdisj hnd
    show ((rc r).reverse ++ flatRev rc rs).Nodup
    refine List.Nodup.append (List.nodup_reverse.mpr (hbl r (List.mem_cons_self _ _)))
      (ih (fun r' hr' => hbl r' (List.mem_cons_of_mem _ hr'))
        (fun r₁ h1 r₂ h2 hne => hdisj r₁ (List.mem_cons_of_mem _ h1)
          r₂ (List.mem_cons_of_mem _ h2) hne)
        (List.nodup_cons.mp hnd).2) ?_
    intro e he hef
    obtain ⟨r₂, hr₂, he₂⟩ := mem_flatRev.mp hef
    exact hdisj r (List.mem_cons_self _ _) r₂ (List.mem_cons_of_mem _ hr₂)
      (fun hc => (List.nodup_cons.mp hnd).1 (hc ▸ hr₂)) e (List.mem_reverse.mp he) he₂

/-- Erasing a key keeps the flat block list a sublist. -/
theorem allCells_erase_sublist (cl : Nat → List Nat) :
    ∀ (A : List Nat) (h : Nat),
      List.Sublist (allCells (A.erase h) cl) (allCells A cl)
  | [], _ => List.Sublist.refl _
  | c :: A, h => by
    rw [List.erase_cons]
    simp only [beq_iff_eq]
    by_cases hch : c = h
    · rw [if_pos hch]
      show List.Sublist (allCells A cl) (cl c ++ allCells A cl)
      exact List.sublist_append_right _ _
    · rw [if_neg hch]
      show List.Sublist (cl c ++ allCells (A.erase h) cl) (cl c ++ allCells A cl)
      exact List.Sublist.append (List.Sublist.refl _) (allCells_erase_sublist cl A h)

namespace SWF

variable {s : Mat α} {A : List Nat} {acl rc : Nat → List Nat}

/-- The active blocks have pairwise-distinct nodes. -/
theorem acnd (W : SWF s A acl rc) :
    (allCells A (fun c => c :: acl c)).Nodup := by
  have hN := W.nodesnd
  rw [famNodes_map_acl] at hN
  exact (List.nodup_cons.mp hN).2

/-- The corner is not an active node. -/
theorem zero_notin (W : SWF s A acl rc) :
    (0 : Nat) ∉ allCells A (fun c => c :: acl c) := by
  have hN := W.nodesnd
  rw [famNodes_map_acl] at hN
  exact (List.nodup_cons.mp hN).1

/-- One active block has no duplicate nodes. -/
theorem blocknd (W : SWF s A acl rc) {c : Nat} (hc : c ∈ A) :
    (c :: acl c).Nodup :=
  allCells_block_nodup W.acnd hc

/-- Active cells carry their column in `col`. -/
theorem cell_col (W : SWF s A acl rc) {c r : Nat} (hc : c ∈ A) (hr : r ∈ acl c) :
    s.col r = c :=
  (W.entries c hc).2.1 r hr

/-- An active cell is never an active header. -/
theorem cell_ne_hdr (W : SWF s A acl rc) {c r c' : Nat} (hc : c ∈ A)
    (hr : r ∈ acl c) (hc' : c' ∈ A) : r ≠ c' := by
  intro h
  subst h
  by_cases hcc : c = r
  · rw [hcc] at hr
    exact (List.nodup_cons.mp (W.blocknd hc')).1 hr
  · exact allCells_disjoint hcc (List.mem_cons_of_mem _ hr)
      (List.mem_cons_self _ _) W.acnd hc hc'

/-- Distinct cells of one active row circle lie in distinct columns, so the
removal blocks of a cover of `h` are pairwise disjoint. -/
theorem rcdisj (W : SWF s A acl rc) {h : Nat} (hh : h ∈ A) :
    ∀ r₁ ∈ acl h, ∀ r₂ ∈ acl h, r₁ ≠ r₂ → ∀ e ∈ rc r₁, e ∉ rc r₂ := by
  intro r₁ h1 r₂ h2 hne e he₁ he₂
  have hperm1 := W.rccoh h hh r₁ h1 e he₁
  have hperm2 := W.rccoh h hh r₂ h2 e he₂
  have hmem : r₂ ∈ r₁ :: rc r₁ :=
    hperm1.mem_iff.mp (hperm2.symm.mem_iff.mp (List.mem_cons_self _ _))
  rcases List.mem_cons.mp hmem with h' | h'
  · exact hne h'.symm
  · have hc1 : s.col r₁ = h := W.cell_col hh h1
    have hc2 : s.col r₂ = h := W.cell_col hh h2
    have hmapnd := W.sibcol h hh r₁ h1
    have heq := List.inj_on_of_nodup_map hmapnd (List.mem_cons_self r₁ _)
      (List.mem_cons_of_mem _ h') (by rw [hc1, hc2])
    exact hne heq

/-- The flat removal sequence of a cover of `h` has no duplicates. -/
theorem flatnd (W : SWF s A acl rc) {h : Nat} (hh : h ∈ A) :
    (flatRev rc (acl h).reverse).Nodup := by
  refine flatRev_nodup (fun r hr => ?_) (fun r₁ h1 r₂ h2 hne => ?_) ?_
  · exact (List.nodup_cons.mp
      (W.rcnd h hh r (List.mem_reverse.mp hr))).2
  · exact W.rcdisj hh r₁ (List.mem_reverse.mp h1) r₂ (List.mem_reverse.mp h2) hne
  · refine List.nodup_reverse.mpr ?_
    exact (List.nodup_cons.mp (W.blocknd hh)).2

/-- The global well-formedness instance needed to cover column `h`. -/
theorem coverOK (W : SWF s A acl rc) {h : Nat} (hh : h ∈ A) :
    CoverOK s 0 h A (acl h) rc ((A.erase h).map fun c => (c, acl c)) := by
  have hAnd : A.Nodup := (List.nodup_cons.mp W.hdrnd).2
  refine ⟨W.hdr, W.hdrnd, hh, (W.entries h hh).1, W.blocknd hh,
    fun r hr => W.rows h hh r hr, fun r hr => W.rcnd h hh r hr, ?_, ?_, ?_,
    W.flatnd hh, fun y hy r hr => W.hdisj y hy h hh r hr⟩
  · constructor
    · intro p hp
      obtain ⟨c, hcmem, rfl⟩ := List.mem_map.mp hp
      exact W.entries c (List.mem_of_mem_erase hcmem)
    · rw [famNodes_map_acl]
      exact List.Nodup.sublist (allCells_erase_sublist _ A h) W.acnd
  · intro x hx hmem
    rw [famNodes_map_acl] at hmem
    obtain ⟨blk, hblk, hxblk⟩ := List.mem_flatten.mp hmem
    obtain ⟨c, hcmem, rfl⟩ := List.mem_map.mp hblk
    have hcA := List.mem_of_mem_erase hcmem
    have hch : c ≠ h := ((List.Nodup.mem_erase_iff hAnd).mp hcmem).1
    exact allCells_disjoint (Ne.symm hch) hx hxblk W.acnd hh hcA
  · intro r hr e he
    obtain ⟨hceA, hcneh, heacl⟩ := W.sib h hh r hr e he
    refine ⟨(s.col e, acl (s.col e)), ?_, heacl⟩
    exact List.mem_map_of_mem _ ((List.Nodup.mem_erase_iff hAnd).mpr ⟨hcneh, hceA⟩)

end SWF

/-- Pointwise sublists give a sublist of flat block lists. -/
theorem allCells_pointwise_sublist {cl cl' : Nat → List Nat}
    (h : ∀ c, List.Sublist (cl' c) (cl c)) :
    ∀ (A : List Nat), List.Sublist (allCells A cl') (allCells A cl)
  | [] => List.Sublist.refl _
  | c :: A => by
    show List.Sublist (cl' c ++ allCells A cl') (cl c ++ allCells A cl)
    exact List.Sublist.append (h c) (allCells_pointwise_sublist h A)

/-- Covering an active column preserves the search invariant: the covered
header leaves the horizontal list, the cells of the rows of the covered
column leave the other columns' vertical lists, and the cover can be
undone exactly by `link_column`. -/
theorem swf_cover {s : Mat α} {A : List Nat} {acl rc : Nat → List Nat}
    (W : SWF s A acl rc) {h : Nat} (hh : h ∈ A) {fuel : Nat}
    (hfuel : (acl h).length + 2 ≤ fuel)
    (hicap : ∀ r ∈ acl h, (rc r).length + 2 ≤ fuel) :
    SWF (unlink_column fuel s h) (A.erase h)
      (aclAfter (flatRev rc (acl h).reverse) acl) rc
    ∧ link_column fuel (unlink_column fuel s h) h = s
    ∧ (unlink_column fuel s h).col = s.col
    ∧ ∀ y, y ∉ (0 : Nat) :: A →
        (unlink_column fuel s h).right y = s.right y
          ∧ (unlink_column fuel s h).left y = s.left y := by
  have W' := W.coverOK hh
  have hUC := unlink_column_eq W' hfuel hicap
  have hAnd : A.Nodup := (List.nodup_cons.mp W.hdrnd).2
  obtain ⟨hseq, hfam, hframe⟩ := fam_consume W'.fam_t W'.consumeES
  have hmapeq : eraseFseq ((A.erase h).map fun c => (c, acl c))
      (flatRev rc (acl h).reverse)
      = (A.erase h).map fun c =>
          (c, aclAfter (flatRev rc (acl h).reverse) acl c) :=
    eraseFseq_map _ _ _
  rw [hmapeq] at hfam
  have hR : (unlinkHeader s h).right = upd s.right (s.left h) (s.right h) := by
    rw [unlinkHeader_eq]
  have hL : (unlinkHeader s h).left = upd s.left (s.right h) (s.left h) := by
    rw [unlinkHeader_eq]
  have hcol2 : (removeSeq (unlinkHeader s h) (flatRev rc (acl h).reverse)).col
      = s.col := by
    rw [removeSeq_col, unlinkHeader_eq]
  obtain ⟨l₁, l₂, hdecomp⟩ := List.append_of_mem hh
  have hWhdr := W.hdr
  rw [hdecomp] at hWhdr
  obtain ⟨P₁, P₂⟩ := Path.split l₁ hWhdr
  have hlh : s.left h ∈ (0 : Nat) :: A := by
    rcases List.mem_cons.mp (path_prv_mem P₁) with h' | h'
    · rw [h']; exact List.mem_cons_self _ _
    · refine List.mem_cons_of_mem _ ?_
      rw [hdecomp]; exact List.mem_append.mpr (Or.inl h')
  have hrh : s.right h ∈ (0 : Nat) :: A := by
    rcases List.mem_append.mp (path_nxt_mem P₂) with h' | h'
    · refine List.mem_cons_of_mem _ ?_
      rw [hdecomp]
      exact List.mem_append.mpr (Or.inr (List.mem_cons_of_mem _ h'))
    · rw [List.mem_singleton.mp h']; exact List.mem_cons_self _ _
  have hcornot : (0 : Nat) ∉ A := (List.nodup_cons.mp W.hdrnd).1
  have hmemold : ∀ {c : Nat}, c ∈ A.erase h →
      ∀ {r : Nat}, r ∈ aclAfter (flatRev rc (acl h).reverse) acl c →
        r ∈ acl c ∧ r ∉ flatRev rc (acl h).reverse := by
    intro c hc r hr
    exact (foldl_erase_mem _ (acl c)
      ((List.nodup_cons.mp (W.blocknd (List.mem_of_mem_erase hc))).2)).mp hr
  refine ⟨?_, cover_uncover_restore W' hfuel hicap, by rw [hUC]; exact hcol2, ?_⟩
  case _ =>
    rw [hUC]
    refine ⟨?_, ?_, ?_, ?_, ?_, ?_, ?_, ?_, ?_, ?_, ?_⟩
    · -- header circle with h erased
      have hnotl₁ : h ∉ l₁ := by
        have hsnd := hAnd
        rw [hdecomp] at hsnd
        exact fun hc =>
          (List.disjoint_of_nodup_append hsnd) hc (List.mem_cons_self _ _)
      have hErase : A.erase h = l₁ ++ l₂ := by
        rw [hdecomp, List.erase_append_right _ hnotl₁, List.erase_cons_head]
      rw [hErase]
      have hpe : Path (upd s.right (s.left h) (s.right h))
          (upd s.left (s.right h) (s.left h)) 0 (l₁ ++ l₂) 0 := by
        refine path_erase hWhdr ?_ ?_
        · have := W.hdrnd
          rw [hdecomp] at this
          exact this
        · intro hc
          rw [← hdecomp] at hc
          exact hcornot hc
      refine Path.congr hpe (fun y _ => ?_) (fun y _ => ?_)
      · rw [removeSeq_right, hR]
      · rw [removeSeq_left, hL]
    · exact List.Nodup.sublist (List.Sublist.cons₂ 0 (List.erase_sublist h A)) W.hdrnd
    · rw [famNodes_map_acl]
      have hN := W.nodesnd
      rw [famNodes_map_acl] at hN
      refine List.Nodup.sublist (List.Sublist.cons₂ 0 ?_) hN
      refine List.Sublist.trans ?_ (allCells_erase_sublist _ A h)
      refine allCells_pointwise_sublist (fun c => ?_) (A.erase h)
      exact List.Sublist.cons₂ c (foldl_erase_sublist _ _)
    · intro c hc
      exact hfam.1 _ (List.mem_map_of_mem _ hc)
    · intro c hc
      rw [hcol2]
      exact W.colz c (List.mem_of_mem_erase hc)
    · intro c hc r hr
      obtain ⟨hrA, _⟩ := hmemold hc hr
      have hcA := List.mem_of_mem_erase hc
      refine Path.congr (W.rows c hcA r hrA) (fun y hy => ?_) (fun y hy => ?_)
      · rw [removeSeq_right, hR]
        refine upd_ne _ _ (fun hcase => ?_)
        exact W.hdisj (s.left h) hlh c hcA r hrA (hcase ▸ hy)
      · rw [removeSeq_left, hL]
        have hy' : y ∈ r :: rc r := by
          rcases List.mem_append.mp hy with h' | h'
          · exact List.mem_cons_of_mem _ h'
          · rw [List.mem_singleton.mp h']; exact List.mem_cons_self _ _
        refine upd_ne _ _ (fun hcase => ?_)
        exact W.hdisj (s.right h) hrh c hcA r hrA (hcase ▸ hy')
    · intro c hc r hr
      exact W.rcnd c (List.mem_of_mem_erase hc) r (hmemold hc hr).1
    · intro c hc r hr
      rw [hcol2]
      exact W.sibcol c (List.mem_of_mem_erase hc) r (hmemold hc hr).1
    · intro c hc r hr e he
      obtain ⟨hrA, hres⟩ := hmemold hc hr
      have hcA := List.mem_of_mem_erase hc
      have hcneh : c ≠ h := ((List.Nodup.mem_erase_iff hAnd).mp hc).1
      obtain ⟨hcolA, hcolne, heacl⟩ := W.sib c hcA r hrA e he
      have hchp : s.col e ≠ h := by
        intro hcase
        have heh : e ∈ acl h := hcase ▸ heacl
        have hperm := W.rccoh c hcA r hrA e he
        have hrmem : r ∈ e :: rc e := hperm.symm.mem_iff.mp (List.mem_cons_self _ _)
        rcases List.mem_cons.mp hrmem with h' | h'
        · exact allCells_disjoint hcneh (List.mem_cons_of_mem _ (h' ▸ hrA))
            (List.mem_cons_of_mem _ heh) W.acnd hcA hh
        · exact hres (mem_flatRev.mpr ⟨e, List.mem_reverse.mpr heh, h'⟩)
      have henotes : e ∉ flatRev rc (acl h).reverse := by
        intro hees
        obtain ⟨r', hr', her'⟩ := mem_flatRev.mp hees
        have hr'h : r' ∈ acl h := List.mem_reverse.mp hr'
        have hp1 := W.rccoh c hcA r hrA e he
        have hp2 := W.rccoh h hh r' hr'h e her'
        have hrmem : r ∈ r' :: rc r' :=
          hp2.mem_iff.mp (hp1.symm.mem_iff.mp (List.mem_cons_self _ _))
        rcases List.mem_cons.mp hrmem with h' | h'
        · exact allCells_disjoint hcneh (List.mem_cons_of_mem _ hrA)
            (List.mem_cons_of_mem _ (h' ▸ hr'h)) W.acnd hcA hh
        · exact hres (mem_flatRev.mpr ⟨r', hr', h'⟩)
      refine ⟨?_, ?_, ?_⟩
      · rw [hcol2]
        exact (List.Nodup.mem_erase_iff hAnd).mpr ⟨hchp, hcolA⟩
      · rw [hcol2]
        exact hcolne
      · rw [hcol2]
        exact (foldl_erase_mem _ (acl (s.col e))
          ((List.nodup_cons.mp (W.blocknd hcolA)).2)).mpr ⟨heacl, henotes⟩
    · intro c hc r hr e he
      exact W.rccoh c (List.mem_of_mem_erase hc) r (hmemold hc hr).1 e he
    · intro y hy c hc r hr
      have hy' : y ∈ (0 : Nat) :: A := by
        rcases List.mem_cons.mp hy with rfl | h'
        · exact List.mem_cons_self _ _
        · exact List.mem_cons_of_mem _ (List.mem_of_mem_erase h')
      exact W.hdisj y hy' c (List.mem_of_mem_erase hc) r (hmemold hc hr).1
  case _ =>
    intro y hy
    constructor
    · rw [hUC, removeSeq_right, hR]
      exact upd_ne _ _ (fun hc => hy (hc ▸ hlh))
    · rw [hUC, removeSeq_left, hL]
      exact upd_ne _ _ (fun hc => hy (hc ▸ hrh))

/-- Fuel capacity survives a cover. -/
theorem hcap_cover {icap : Nat} {A : List Nat} {acl rc : Nat → List Nat}
    (H : HCap icap A acl rc) (h : Nat) (es : List Nat) :
    HCap icap (A.erase h) (aclAfter es acl) rc := by
  have h0 := H.1
  refine ⟨?_, ?_, ?_⟩
  · have := (List.erase_sublist h A).length_le
    omega
  · intro c hc
    have h1 := (foldl_erase_sublist es (acl c)).length_le
    have h2 := H.2.1 c (List.mem_of_mem_erase hc)
    show (es.foldl List.erase (acl c)).length + 2 ≤ icap
    omega
  · intro c hc r hr
    exact H.2.2 c (List.mem_of_mem_erase hc) r
      ((foldl_erase_sublist es (acl c)).subset hr)

/-- The loop of `unlink_row`, walking the row circle rightwards from the
current cell `e` with remaining suffix `q`: every visited column is
covered in order, the search invariant and capacities are maintained, the
header list strictly shrinks, and the matching suffix of `link_row`'s loop
undoes everything back to the entry state. -/
theorem swf_unlink_row_go {s : Mat α} {A : List Nat} {rc : Nat → List Nat}
    {r₀ : Nat}
    (hVnd : (r₀ :: rc r₀).Nodup)
    (hcolnd : ((r₀ :: rc r₀).map s.col).Nodup)
    (hcells : ∀ y ∈ r₀ :: rc r₀, y ∉ (0 : Nat) :: A) :
    ∀ (q : List Nat) (e : Nat) (s_i : Mat α) (A_i : List Nat)
      (acl_i : Nat → List Nat) (icap f : Nat),
      SWF s_i A_i acl_i rc → HCap icap A_i acl_i rc →
      (∀ c ∈ A_i, c ∈ A) →
      (∀ y, y ∉ (0 : Nat) :: A → s_i.right y = s.right y ∧ s_i.left y = s.left y) →
      s_i.col = s.col →
      Path s.right s.left e q r₀ →
      (e :: q).Nodup →
      (∀ y ∈ e :: q, y ∈ r₀ :: rc r₀) →
      (∀ y ∈ q, y ∈ rc r₀) →
      s.col e ∈ A_i →
      (∀ y ∈ q, s.col y ∈ A_i) →
      q.length + 2 ≤ f →
      ∃ s_f A_f acl_f,
        unlinkRowLoop f icap s_i r₀ e = s_f
        ∧ SWF s_f A_f acl_f rc
        ∧ HCap icap A_f acl_f rc
        ∧ (∀ c ∈ A_f, c ∈ A_i)
        ∧ (∀ c e', e' ∈ acl_f c → e' ∈ acl_i c)
        ∧ A_f.length < A_i.length
        ∧ (∀ y, y ∉ (0 : Nat) :: A → s_f.right y = s.right y ∧ s_f.left y = s.left y)
        ∧ s_f.col = s.col
        ∧ A_f = ((e :: q).map s.col).foldl List.erase A_i
        ∧ ∀ lf, linkRowLoop (lf + (q.length + 1)) icap s_f r₀ (s.left r₀)
            = if s.left e = s.left r₀ then s_i
              else linkRowLoop lf icap s_i r₀ (s.left e) := by
  intro q
  induction q with
  | nil =>
    intro e s_i A_i acl_i icap f Wi Hi hsubA hfr hcoli hP hnd hsubV hsubT hact hactq hf
    obtain ⟨f', rfl⟩ : ∃ f', f = f' + 1 := ⟨f - 1, by omega⟩
    have henotz : e ∉ (0 : Nat) :: A := hcells e (hsubV e (List.mem_cons_self _ _))
    have henotzi : e ∉ (0 : Nat) :: A_i := by
      intro hc
      rcases List.mem_cons.mp hc with h' | h'
      · exact henotz (h' ▸ List.mem_cons_self _ _)
      · exact henotz (List.mem_cons_of_mem _ (hsubA e h'))
    obtain ⟨W', hrest, hcolp, hfr'⟩ :=
      swf_cover Wi hact (Hi.2.1 _ hact) (Hi.2.2 _ hact)
    have hloop : unlinkRowLoop (f' + 1) icap s_i r₀ e
        = unlink_column icap s_i (s.col e) := by
      rw [unlinkRowLoop]
      rw [show s_i.col e = s.col e from by rw [hcoli]]
      have hre : (unlink_column icap s_i (s.col e)).right e = r₀ := by
        rw [(hfr' e henotzi).1, (hfr e henotz).1]
        exact hP.1
      rw [hre, if_pos rfl]
    refine ⟨unlink_column icap s_i (s.col e), A_i.erase (s.col e),
      aclAfter (flatRev rc (acl_i (s.col e)).reverse) acl_i, hloop, W',
      hcap_cover Hi _ _, fun c hc => List.mem_of_mem_erase hc,
      fun c e' he' => foldl_erase_subset _ _ he', ?_, ?_, ?_, rfl, ?_⟩
    · have h1 := List.length_erase_of_mem hact
      have h2 : 1 ≤ A_i.length := List.length_pos.mpr
        (List.ne_nil_of_mem hact)
      omega
    · intro y hy
      have hyi : y ∉ (0 : Nat) :: A_i := by
        intro hc
        rcases List.mem_cons.mp hc with h' | h'
        · exact hy (h' ▸ List.mem_cons_self _ _)
        · exact hy (List.mem_cons_of_mem _ (hsubA y h'))
      obtain ⟨ha, hb⟩ := hfr' y hyi
      obtain ⟨hc, hd⟩ := hfr y hy
      exact ⟨ha.trans hc, hb.trans hd⟩
    · rw [hcolp, hcoli]
    · intro lf
      have hlr0 : s.left r₀ = e := hP.2
      rw [hlr0]
      simp only [List.length_nil, Nat.zero_add]
      simp only [linkRowLoop]
      rw [show (unlink_column icap s_i (s.col e)).col e = s.col e from by
        rw [hcolp, hcoli]]
      rw [hrest]
      rw [show s_i.left e = s.left e from (hfr e henotz).2]
      have hlr0i : s_i.left r₀ = s.left r₀ :=
        (hfr r₀ (hcells r₀ (List.mem_cons_self _ _))).2
      rw [hlr0i, hlr0]
  | cons e₁ q' ih =>
    intro e s_i A_i acl_i icap f Wi Hi hsubA hfr hcoli hP hnd hsubV hsubT hact hactq hf
    obtain ⟨f', rfl⟩ : ∃ f', f = f' + 1 := ⟨f - 1, by omega⟩
    have henotz : e ∉ (0 : Nat) :: A := hcells e (hsubV e (List.mem_cons_self _ _))
    have henotzi : e ∉ (0 : Nat) :: A_i := by
      intro hc
      rcases List.mem_cons.mp hc with h' | h'
      · exact henotz (h' ▸ List.mem_cons_self _ _)
      · exact henotz (List.mem_cons_of_mem _ (hsubA e h'))
    obtain ⟨W', hrest, hcolp, hfr'⟩ :=
      swf_cover Wi hact (Hi.2.1 _ hact) (Hi.2.2 _ hact)
    have hAind : A_i.Nodup := (List.nodup_cons.mp Wi.hdrnd).2
    have hne₁ : e ≠ e₁ := fun hc =>
      (List.nodup_cons.mp hnd).1 (hc ▸ List.mem_cons_self _ _)
    have hcol_inj : ∀ y ∈ e₁ :: q', s.col y ≠ s.col e := by
      intro y hy hc
      have heq := List.inj_on_of_nodup_map hcolnd
        (hsubV y (List.mem_cons_of_mem _ hy))
        (hsubV e (List.mem_cons_self _ _)) hc
      exact (List.nodup_cons.mp hnd).1 (heq ▸ hy)
    have hcolne : s.col e₁ ≠ s.col e := hcol_inj e₁ (List.mem_cons_self _ _)
    have he₁r₀ : e₁ ≠ r₀ := fun hc =>
      (List.nodup_cons.mp hVnd).1 (hc ▸ hsubT e₁ (List.mem_cons_self _ _))
    have hstep : unlinkRowLoop (f' + 1) icap s_i r₀ e
        = unlinkRowLoop f' icap (unlink_column icap s_i (s.col e)) r₀ e₁ := by
      rw [unlinkRowLoop]
      rw [show s_i.col e = s.col e from by rw [hcoli]]
      have hre : (unlink_column icap s_i (s.col e)).right e = e₁ := by
        rw [(hfr' e henotzi).1, (hfr e henotz).1]
        exact hP.1
      rw [hre, if_neg he₁r₀]
    have hfrC : ∀ y, y ∉ (0 : Nat) :: A →
        (unlink_column icap s_i (s.col e)).right y = s.right y
          ∧ (unlink_column icap s_i (s.col e)).left y = s.left y := by
      intro y hy
      have hyi : y ∉ (0 : Nat) :: A_i := by
        intro hc
        rcases List.mem_cons.mp hc with h' | h'
        · exact hy (h' ▸ List.mem_cons_self _ _)
        · exact hy (List.mem_cons_of_mem _ (hsubA y h'))
      obtain ⟨ha, hb⟩ := hfr' y hyi
      obtain ⟨hc, hd⟩ := hfr y hy
      exact ⟨ha.trans hc, hb.trans hd⟩
    obtain ⟨s_f, A_f, acl_f, hloop, Wf, Hf, hsubf, hsubacl, hlenf, hfrf, hcolf,
        hAfold, hLNK⟩ :=
      ih e₁ (unlink_column icap s_i (s.col e)) (A_i.erase (s.col e))
        (aclAfter (flatRev rc (acl_i (s.col e)).reverse) acl_i) icap f'
        W' (hcap_cover Hi _ _)
        (fun c hc => hsubA c (List.mem_of_mem_erase hc))
        hfrC
        (by rw [hcolp, hcoli])
        hP.2.2
        (List.nodup_cons.mp hnd).2
        (fun y hy => hsubV y (List.mem_cons_of_mem _ hy))
        (fun y hy => hsubT y (List.mem_cons_of_mem _ hy))
        ((List.Nodup.mem_erase_iff hAind).mpr
          ⟨hcolne, hactq e₁ (List.mem_cons_self _ _)⟩)
        (fun y hy => (List.Nodup.mem_erase_iff hAind).mpr
          ⟨hcol_inj y (List.mem_cons_of_mem _ hy),
            hactq y (List.mem_cons_of_mem _ hy)⟩)
        (by simp only [List.length_cons] at hf; omega)
    refine ⟨s_f, A_f, acl_f, by rw [hstep]; exact hloop, Wf, Hf,
      fun c hc => List.mem_of_mem_erase (hsubf c hc),
      fun c e' he' => foldl_erase_subset _ _ (hsubacl c e' he'), ?_, hfrf,
      hcolf, ?_, ?_⟩
    · have h1 := List.length_erase_of_mem hact
      have h2 : 1 ≤ A_i.length := List.length_pos.mpr (List.ne_nil_of_mem hact)
      omega
    · rw [hAfold]
      rfl
    · intro lf
      have hlfshift : lf + ((e₁ :: q').length + 1) = (lf + 1) + (q'.length + 1) := by
        simp only [List.length_cons]
        omega
      rw [hlfshift, hLNK (lf + 1)]
      have hle₁ : s.left e₁ = e := hP.2.1
      have hlr₀mem : s.left r₀ ∈ e₁ :: q' := by
        have := path_prv_getLast hP.2.2
        rw [this]
        exact List.getLast_mem _
      have hcond : s.left e₁ ≠ s.left r₀ := by
        rw [hle₁]
        intro hc
        exact (List.nodup_cons.mp hnd).1 (hc ▸ hlr₀mem)
      rw [if_neg hcond, hle₁]
      simp only [linkRowLoop]
      rw [show (unlink_column icap s_i (s.col e)).col e = s.col e from by
        rw [hcolp, hcoli]]
      rw [hrest]
      rw [show s_i.left e = s.left e from (hfr e henotz).2]
      have hlr0i : s_i.left r₀ = s.left r₀ :=
        (hfr r₀ (hcells r₀ (List.mem_cons_self _ _))).2
      rw [hlr0i]

/-- Unlinking the row of an active cell `r₀` preserves the search
invariant, strictly shrinks the header list, and is exactly undone by
`link_row`. -/
theorem swf_unlink_row {s : Mat α} {A : List Nat} {acl rc : Nat → List Nat}
    {fuel : Nat} (W : SWF s A acl rc) (H : HCap fuel A acl rc) {h r₀ : Nat}
    (hh : h ∈ A) (hr₀ : r₀ ∈ acl h) :
    ∃ A_f acl_f,
      SWF (unlink_row fuel s r₀) A_f acl_f rc
      ∧ HCap fuel A_f acl_f rc
      ∧ (∀ c ∈ A_f, c ∈ A)
      ∧ (∀ c e', e' ∈ acl_f c → e' ∈ acl c)
      ∧ A_f.length < A.length
      ∧ link_row fuel (unlink_row fuel s r₀) r₀ = s
      ∧ A_f = ((r₀ :: rc r₀).map s.col).foldl List.erase A := by
  have hVnd := W.rcnd h hh r₀ hr₀
  have hcolnd := W.sibcol h hh r₀ hr₀
  have hcells : ∀ y ∈ r₀ :: rc r₀, y ∉ (0 : Nat) :: A := by
    intro y hy hmem
    exact W.hdisj y hmem h hh r₀ hr₀ hy
  have hP : Path s.right s.left r₀ (rc r₀) r₀ := W.rows h hh r₀ hr₀
  have hact : s.col r₀ ∈ A := by
    rw [W.cell_col hh hr₀]
    exact hh
  have hactq : ∀ y ∈ rc r₀, s.col y ∈ A := fun y hy => (W.sib h hh r₀ hr₀ y hy).1
  obtain ⟨s_f, A_f, acl_f, hloop, Wf, Hf, hsubf, hsubacl, hlenf, hfrf, hcolf,
      hAfold, hLNK⟩ :=
    swf_unlink_row_go hVnd hcolnd hcells (rc r₀) r₀ s A acl fuel fuel
      W H (fun c hc => hc) (fun y _ => ⟨rfl, rfl⟩) rfl hP hVnd
      (fun y hy => hy) (fun y hy => hy) hact hactq
      (H.2.2 h hh r₀ hr₀)
  have hUR : unlink_row fuel s r₀ = s_f := hloop
  refine ⟨A_f, acl_f, hUR ▸ Wf, Hf, hsubf, hsubacl, hlenf, ?_, hAfold⟩
  have hlnk := hLNK (fuel - ((rc r₀).length + 1))
  rw [show fuel - ((rc r₀).length + 1) + ((rc r₀).length + 1) = fuel from by
    have := H.2.2 h hh r₀ hr₀
    omega] at hlnk
  rw [if_pos rfl] at hlnk
  show linkRowLoop fuel fuel (unlink_row fuel s r₀) r₀
      ((unlink_row fuel s r₀).left r₀) = s
  rw [hUR]
  rw [show s_f.left r₀ = s.left r₀ from
    (hfrf r₀ (hcells r₀ (List.mem_cons_self _ _))).2]
  exact hlnk

/-- `smallest_column` returns `none` exactly on an empty header list, and
otherwise a member of the header list. -/
theorem smallest_column_spec {s : Mat α} {A : List Nat} {fuel : Nat}
    (hP : Path s.right s.left 0 A 0) (hnd : (0 :: A).Nodup)
    (hf : A.length + 2 ≤ fuel) :
    (smallest_column fuel s 0 = none ↔ A = [])
      ∧ ∀ m, smallest_column fuel s 0 = some m → m ∈ A := by
  cases A with
  | nil =>
    obtain ⟨f, rfl⟩ : ∃ f, fuel = f + 1 := ⟨fuel - 1, by omega⟩
    have h0 : s.right 0 = 0 := hP.1
    have hnone : smallest_column (f + 1) s 0 = none := by
      show smallestLoop s 0 (f + 1) (s.right 0) none = none
      rw [h0, smallestLoop, if_pos rfl]
    exact ⟨by simp [hnone], fun m hm => by
      rw [hnone] at hm
      exact Option.noConfusion hm⟩
  | cons c rest =>
    have h0A : (0 : Nat) ∉ c :: rest := (List.nodup_cons.mp hnd).1
    have hrun : smallest_column fuel s 0 = (c :: rest).foldl (chooser s) none := by
      show smallestLoop s 0 fuel (s.right 0) none = _
      rw [hP.1]
      exact smallestLoop_run hP.2.2 h0A (by simp at hf ⊢; omega)
    have hfold : (c :: rest).foldl (chooser s) none
        = rest.foldl (chooser s) (some c) := rfl
    obtain ⟨m, l₁, l₂, hm, hsplit, _, _⟩ := chooser_foldl_spec s rest c
    have hsome : smallest_column fuel s 0 = some m := by
      rw [hrun, hfold, hm]
    constructor
    · rw [hsome]
      exact ⟨fun h => Option.noConfusion h, fun h => List.noConfusion h⟩
    · intro m' hm'
      rw [hsome] at hm'
      cases hm'
      rw [show c :: rest = l₁ ++ m :: l₂ from hsplit]
      exact List.mem_append.mpr (Or.inr (List.mem_cons_self _ _))

/-- The inner removal loop leaves `col`, `hobj` and `robj` untouched. -/
theorem unlinkCells_frames : ∀ (fuel : Nat) (s : Mat α) (row e : Nat),
    (unlinkCells fuel s row e).col = s.col
    ∧ (unlinkCells fuel s row e).hobj = s.hobj
    ∧ (unlinkCells fuel s row e).robj = s.robj
  | 0, _, _, _ => ⟨rfl, rfl, rfl⟩
  | fuel + 1, s, row, e => by
    rw [unlinkCells]
    by_cases h : e = row
    · rw [if_pos h]
      exact ⟨rfl, rfl, rfl⟩
    · rw [if_neg h]
      exact unlinkCells_frames fuel (removeCell s e) row ((removeCell s e).left e)

/-- The outer removal loop leaves `col`, `hobj` and `robj` untouched. -/
theorem unlinkRows_frames : ∀ (fuel icap : Nat) (s : Mat α) (h row : Nat),
    (unlinkRows fuel icap s h row).col = s.col
    ∧ (unlinkRows fuel icap s h row).hobj = s.hobj
    ∧ (unlinkRows fuel icap s h row).robj = s.robj
  | 0, _, _, _, _ => ⟨rfl, rfl, rfl⟩
  | fuel + 1, icap, s, h, row => by
    rw [unlinkRows]
    by_cases hc : row = h
    · rw [if_pos hc]
      exact ⟨rfl, rfl, rfl⟩
    · rw [if_neg hc]
      obtain ⟨h1, h2, h3⟩ := unlinkRows_frames fuel icap
        (unlinkCells icap s row (s.left row)) h
        ((unlinkCells icap s row (s.left row)).up row)
      obtain ⟨g1, g2, g3⟩ := unlinkCells_frames icap s row (s.left row)
      exact ⟨h1.trans g1, h2.trans g2, h3.trans g3⟩

/-- `unlink_column` leaves `col`, `hobj` and `robj` untouched. -/
theorem unlink_column_frames (fuel : Nat) (s : Mat α) (h : Nat) :
    (unlink_column fuel s h).col = s.col
    ∧ (unlink_column fuel s h).hobj = s.hobj
    ∧ (unlink_column fuel s h).robj = s.robj := by
  obtain ⟨h1, h2, h3⟩ := unlinkRows_frames fuel fuel (unlinkHeader s h) h
    ((unlinkHeader s h).up h)
  exact ⟨h1, h2, h3⟩

/-- The row-cover loop leaves `col`, `hobj` and `robj` untouched. -/
theorem unlinkRowLoop_frames : ∀ (fuel icap : Nat) (s : Mat α) (row e : Nat),
    (unlinkRowLoop fuel icap s row e).col = s.col
    ∧ (unlinkRowLoop fuel icap s row e).hobj = s.hobj
    ∧ (unlinkRowLoop fuel icap s row e).robj = s.robj
  | 0, _, _, _, _ => ⟨rfl, rfl, rfl⟩
  | fuel + 1, icap, s, row, e => by
    rw [unlinkRowLoop]
    obtain ⟨g1, g2, g3⟩ := unlink_column_frames icap s (s.col e)
    by_cases hc : (unlink_column icap s (s.col e)).right e = row
    · rw [if_pos hc]
      exact ⟨g1, g2, g3⟩
    · rw [if_neg hc]
      obtain ⟨h1, h2, h3⟩ := unlinkRowLoop_frames fuel icap
        (unlink_column icap s (s.col e)) row
        ((unlink_column icap s (s.col e)).right e)
      exact ⟨h1.trans g1, h2.trans g2, h3.trans g3⟩

/-- `unlink_row` leaves `col`, `hobj` and `robj` untouched. -/
theorem unlink_row_frames (fuel : Nat) (s : Mat α) (row : Nat) :
    (unlink_row fuel s row).col = s.col
    ∧ (unlink_row fuel s row).hobj = s.hobj
    ∧ (unlink_row fuel s row).robj = s.robj :=
  unlinkRowLoop_frames fuel fuel s row row

/-- The columns covered by unlinking an active row split the header list
up to permutation. -/
theorem swf_row_cols_perm {s : Mat α} {A : List Nat} {acl rc : Nat → List Nat}
    (W : SWF s A acl rc) {h r : Nat} (hh : h ∈ A) (hr : r ∈ acl h)
    {A' : List Nat} (hAf : A' = ((r :: rc r).map s.col).foldl List.erase A) :
    A.Perm (((r :: rc r).map s.col) ++ A') := by
  have hmemcols : ∀ x ∈ (r :: rc r).map s.col, x ∈ A := by
    intro x hx
    obtain ⟨y, hy, hyx⟩ := List.mem_map.mp hx
    rcases List.mem_cons.mp hy with heq | hy'
    · rw [← hyx, heq, W.cell_col hh hr]
      exact hh
    · rw [← hyx]
      exact (W.sib h hh r hr y hy').1
  rw [hAf]
  exact perm_foldl_erase _ _ (W.sibcol h hh r hr) hmemcols

/-- The stack of states visited by the search: each pushed cell unlinked
its row from the state below, the invariant holds at the top, and the
matrix below can be recovered exactly by `link_row`. -/
inductive Search (rc : Nat → List Nat) (fuel : Nat) (s₀ : Mat α) (A₀ : List Nat)
    (acl₀ : Nat → List Nat) :
    Mat α → List Nat → (Nat → List Nat) → List Nat → Prop where
  | base :
      SWF s₀ A₀ acl₀ rc → HCap fuel A₀ acl₀ rc →
      Search rc fuel s₀ A₀ acl₀ s₀ A₀ acl₀ []
  | push {s : Mat α} {A : List Nat} {acl : Nat → List Nat} {sol : List Nat}
      {h r : Nat} {A' : List Nat} {acl' : Nat → List Nat} :
      Search rc fuel s₀ A₀ acl₀ s A acl sol →
      h ∈ A → r ∈ acl h →
      SWF (unlink_row fuel s r) A' acl' rc →
      HCap fuel A' acl' rc →
      A'.length < A.length →
      link_row fuel (unlink_row fuel s r) r = s →
      (unlink_row fuel s r).col = s.col →
      (unlink_row fuel s r).hobj = s.hobj →
      (unlink_row fuel s r).robj = s.robj →
      A.Perm (((r :: rc r).map s.col) ++ A') →
      (∀ c e, e ∈ acl' c → e ∈ acl c) →
      Search rc fuel s₀ A₀ acl₀ (unlink_row fuel s r) A' acl' (r :: sol)

/-- The invariant at the top of the stack. -/
theorem Search.swf {rc : Nat → List Nat} {fuel : Nat} {s₀ : Mat α}
    {A₀ : List Nat} {acl₀ : Nat → List Nat} {s : Mat α}
    {A : List Nat} {acl : Nat → List Nat} {sol : List Nat}
    (hs : Search rc fuel s₀ A₀ acl₀ s A acl sol) :
    SWF s A acl rc ∧ HCap fuel A acl rc := by
  cases hs with
  | base W H => exact ⟨W, H⟩
  | push _ _ _ W H _ _ _ _ _ _ _ => exact ⟨W, H⟩

/-- The solution stack never exceeds the initial number of columns. -/
theorem Search.bound {rc : Nat → List Nat} {fuel : Nat} {s₀ : Mat α}
    {A₀ : List Nat} {acl₀ : Nat → List Nat} {s : Mat α}
    {A : List Nat} {acl : Nat → List Nat} {sol : List Nat}
    (hs : Search rc fuel s₀ A₀ acl₀ s A acl sol) :
    A.length + sol.length ≤ A₀.length := by
  induction hs with
  | base _ _ =>
    simp only [List.length_nil]
    omega
  | push _ _ _ _ _ hlt _ _ _ _ _ _ ih =>
    simp only [List.length_cons]
    omega

/-- Semantic facts carried by the search stack: the matrix labels are
those of the base state, the base header list splits into the column
lists of the stacked rows plus the active headers, active cells come from
the base cell lists, and every stacked cell is a base cell. -/
theorem Search.sem {rc : Nat → List Nat} {fuel : Nat} {s₀ : Mat α}
    {A₀ : List Nat} {acl₀ : Nat → List Nat} {s : Mat α}
    {A : List Nat} {acl : Nat → List Nat} {sol : List Nat}
    (hs : Search rc fuel s₀ A₀ acl₀ s A acl sol) :
    s.col = s₀.col ∧ s.hobj = s₀.hobj ∧ s.robj = s₀.robj
    ∧ A₀.Perm ((sol.map fun r => (r :: rc r).map s₀.col).flatten ++ A)
    ∧ (∀ c e, e ∈ acl c → e ∈ acl₀ c)
    ∧ (∀ r ∈ sol, ∃ c, r ∈ acl₀ c ∧ c ∈ A₀) := by
  induction hs with
  | base W H =>
    refine ⟨rfl, rfl, rfl, ?_, fun c e he => he, fun r hr => (by cases hr)⟩
    simpa using List.Perm.refl A₀
  | @push s A acl sol h r A' acl' prev hh hr W H hlt hrest hcol hhobj hrobj
      hperm hsub ih =>
    obtain ⟨ic, ih2, ih3, ihperm, ihacl, ihsol⟩ := ih
    refine ⟨hcol.trans ic, hhobj.trans ih2, hrobj.trans ih3, ?_,
      fun c e he => ihacl c e (hsub c e he), ?_⟩
    · have hperm' : A.Perm (((r :: rc r).map s₀.col) ++ A') := by
        rw [← ic]
        exact hperm
      rw [List.map_cons, List.flatten_cons, List.append_assoc]
      refine ihperm.trans ?_
      refine (List.Perm.append_left _ hperm').trans ?_
      rw [← List.append_assoc, ← List.append_assoc]
      exact List.Perm.append_right _ List.perm_append_comm
    · intro r' hr'
      rcases List.mem_cons.mp hr' with heq | hr''
      · have hrA : r' ∈ acl₀ h := by
          rw [heq]
          exact ihacl h r hr
        have hhA₀ : h ∈ A₀ :=
          ihperm.mem_iff.mpr (List.mem_append.mpr (Or.inr hh))
        exact ⟨h, hrA, hhA₀⟩
      · exact ihsol r' hr''

/-- One `coverings_step` preserves the search stack: a `CONT` step pushes
a row of the chosen column, the other actions leave the state unchanged;
`SOLUTION` is reported exactly when no column remains. -/
theorem search_step {rc : Nat → List Nat} {fuel : Nat} {s₀ : Mat α}
    {A₀ : List Nat} {acl₀ : Nat → List Nat} {it : Iter α}
    {A : List Nat} {acl : Nat → List Nat}
    (hs : Search rc fuel s₀ A₀ acl₀ it.m A acl it.solution) :
    ((coverings_step fuel it).2 = Action.CONT →
      (∃ A' acl', Search rc fuel s₀ A₀ acl₀ (coverings_step fuel it).1.m A' acl'
          (coverings_step fuel it).1.solution)
        ∧ (coverings_step fuel it).1.solution.length = it.solution.length + 1
        ∧ it.solution.length + 1 ≤ A₀.length)
    ∧ ((coverings_step fuel it).2 ≠ Action.CONT → (coverings_step fuel it).1 = it)
    ∧ ((coverings_step fuel it).2 = Action.SOLUTION → A = []) := by
  obtain ⟨W, H⟩ := hs.swf
  cases hsm : smallest_column fuel it.m 0 with
  | none =>
    unfold coverings_step
    rw [hsm]
    dsimp only
    refine ⟨fun hc => Action.noConfusion hc, fun _ => rfl, fun _ => ?_⟩
    exact (smallest_column_spec W.hdr W.hdrnd H.1).1.mp hsm
  | some column =>
    have hcolA : column ∈ A :=
      (smallest_column_spec W.hdr W.hdrnd H.1).2 column hsm
    by_cases hcnt : it.m.count column = 0
    · unfold coverings_step
      rw [hsm]
      dsimp only
      rw [if_pos hcnt]
      exact ⟨fun hc => Action.noConfusion hc, fun _ => rfl,
        fun hc => Action.noConfusion hc⟩
    · cases hacl : acl column with
      | nil =>
        exfalso
        have := (W.entries column hcolA).2.2
        rw [hacl] at this
        simp at this
        exact hcnt this
      | cons r tl =>
        have hdown : it.m.down column = r := by
          have := (W.entries column hcolA).1
          rw [hacl] at this
          exact this.1
        have hr : r ∈ acl column := by
          rw [hacl]
          exact List.mem_cons_self _ _
        unfold coverings_step
        rw [hsm]
        dsimp only
        rw [if_neg hcnt, hdown]
        obtain ⟨A₂, acl₂, W₂, H₂, _, hsubacl₂, hlen₂, hrest₂, hAf₂⟩ :=
          swf_unlink_row W H hcolA hr
        have hA1 : 1 ≤ A.length := List.length_pos.mpr (List.ne_nil_of_mem hcolA)
        have hb := hs.bound
        obtain ⟨hfrc, hfrh, hfrr⟩ := unlink_row_frames fuel it.m r
        have hperm₂ := swf_row_cols_perm W hcolA hr hAf₂
        refine ⟨fun _ => ⟨⟨A₂, acl₂, ?_⟩, by simp, by omega⟩,
          fun hc => absurd rfl hc, fun hc => Action.noConfusion hc⟩
        exact Search.push hs hcolA hr W₂ H₂ hlen₂ hrest₂ hfrc hfrh hfrr hperm₂
          hsubacl₂

/-- The backup loop preserves the search stack. -/
theorem search_backup {rc : Nat → List Nat} {fuel : Nat} {s₀ : Mat α}
    {A₀ : List Nat} {acl₀ : Nat → List Nat} :
    ∀ {m : Mat α} {A : List Nat} {acl : Nat → List Nat} {sol : List Nat},
      Search rc fuel s₀ A₀ acl₀ m A acl sol →
      ∃ A' acl', Search rc fuel s₀ A₀ acl₀ (backupLoop fuel m sol).1 A' acl'
          (backupLoop fuel m sol).2.1 := by
  intro m A acl sol hs
  induction hs with
  | base W H => exact ⟨_, _, Search.base W H⟩
  | @push s AA aclA solA h r A' acl' prev hh hr Wf Hf hlt hrest _ _ _ _ _ ih =>
    obtain ⟨W, H⟩ := prev.swf
    show ∃ A₂ acl₂, Search rc fuel s₀ A₀ acl₀
        (backupLoop fuel (unlink_row fuel s r) (r :: solA)).1 A₂ acl₂
        (backupLoop fuel (unlink_row fuel s r) (r :: solA)).2.1
    simp only [backupLoop]
    rw [hrest]
    obtain ⟨l₁, l₂, hdec⟩ := List.append_of_mem hr
    have hPh := (W.entries h hh).1
    rw [hdec] at hPh
    obtain ⟨P₁, P₂⟩ := Path.split l₁ hPh
    cases l₂ with
    | nil =>
      rw [show s.down r = h from P₂.1, W.colz h hh, if_pos rfl]
      exact ih
    | cons r' l₂' =>
      have hr' : r' ∈ aclA h := by
        rw [hdec]
        exact List.mem_append.mpr
          (Or.inr (List.mem_cons_of_mem _ (List.mem_cons_self _ _)))
      rw [show s.down r = r' from P₂.1]
      rw [W.cell_col hh hr']
      rw [if_neg (W.cell_ne_hdr hh hr' hh)]
      obtain ⟨A₂, acl₂, W₂, H₂, _, hsubacl₂, hlen₂, hrest₂, hAf₂⟩ :=
        swf_unlink_row W H hh hr'
      obtain ⟨hfrc, hfrh, hfrr⟩ := unlink_row_frames fuel s r'
      have hperm₂ := swf_row_cols_perm W hh hr' hAf₂
      exact ⟨A₂, acl₂, Search.push prev hh hr' W₂ H₂ hlen₂ hrest₂ hfrc hfrh hfrr
        hperm₂ hsubacl₂⟩

/-- A good iterator state: its matrix and solution stack fit a search
stack over the static row data `rc` started from the base state `s₀` with
active columns `A₀` and cell lists `acl₀`. -/
def Good (rc : Nat → List Nat) (fuel : Nat) (s₀ : Mat α) (A₀ : List Nat)
    (acl₀ : Nat → List Nat) (it : Iter α) : Prop :=
  ∃ A acl, Search rc fuel s₀ A₀ acl₀ it.m A acl it.solution

theorem good_bound {rc : Nat → List Nat} {fuel : Nat} {s₀ : Mat α}
    {A₀ : List Nat} {acl₀ : Nat → List Nat} {it : Iter α}
    (hg : Good rc fuel s₀ A₀ acl₀ it) : it.solution.length ≤ A₀.length := by
  obtain ⟨A, acl, hs⟩ := hg
  have := hs.bound
  omega

theorem good_step {rc : Nat → List Nat} {fuel : Nat} {s₀ : Mat α}
    {A₀ : List Nat} {acl₀ : Nat → List Nat} {it : Iter α}
    (hg : Good rc fuel s₀ A₀ acl₀ it) :
    Good rc fuel s₀ A₀ acl₀ (coverings_step fuel it).1 := by
  obtain ⟨A, acl, hs⟩ := hg
  obtain ⟨h1, h2, _⟩ := search_step hs
  by_cases hc : (coverings_step fuel it).2 = Action.CONT
  · obtain ⟨⟨A', acl', hs'⟩, _, _⟩ := h1 hc
    exact ⟨A', acl', hs'⟩
  · rw [h2 hc]
    exact ⟨A, acl, hs⟩

theorem good_backup {rc : Nat → List Nat} {fuel : Nat} {s₀ : Mat α}
    {A₀ : List Nat} {acl₀ : Nat → List Nat} {it : Iter α}
    (hg : Good rc fuel s₀ A₀ acl₀ it) :
    Good rc fuel s₀ A₀ acl₀ (coverings_backup fuel it).1 := by
  obtain ⟨A, acl, hs⟩ := hg
  obtain ⟨A', acl', hs'⟩ := search_backup hs
  exact ⟨A', acl', hs'⟩

theorem good_nextLoop {rc : Nat → List Nat} {fuel : Nat} {s₀ : Mat α}
    {A₀ : List Nat} {acl₀ : Nat → List Nat} :
    ∀ (lfuel : Nat) (it : Iter α), Good rc fuel s₀ A₀ acl₀ it →
      ∀ (t : Option (List Nat)) (it' : Iter α),
        nextLoop fuel lfuel it = some (t, it') → Good rc fuel s₀ A₀ acl₀ it' := by
  intro lfuel
  induction lfuel with
  | zero =>
    intro it _ t it' h
    exact Option.noConfusion h
  | succ lf ih =>
    intro it hg t it' h
    simp only [nextLoop] at h
    cases ha : (coverings_step fuel it).2 with
    | CONT =>
      rw [ha] at h
      exact ih _ (good_step hg) _ _ h
    | BACKUP =>
      rw [ha] at h
      by_cases hb : (coverings_backup fuel (coverings_step fuel it).1).2 = true
      · rw [if_pos hb] at h
        exact ih _ (good_backup (good_step hg)) _ _ h
      · rw [if_neg hb] at h
        have h2 := Option.some.inj h
        have h3 : (coverings_backup fuel (coverings_step fuel it).1).1 = it' :=
          congrArg Prod.snd h2
        rw [← h3]
        exact good_backup (good_step hg)
    | SOLUTION =>
      rw [ha] at h
      have h2 := Option.some.inj h
      have h3 : (coverings_step fuel it).1 = it' := congrArg Prod.snd h2
      rw [← h3]
      exact good_step hg

theorem good_next {rc : Nat → List Nat} {fuel : Nat} {s₀ : Mat α}
    {A₀ : List Nat} {acl₀ : Nat → List Nat} {it : Iter α}
    (hg : Good rc fuel s₀ A₀ acl₀ it) {lfuel : Nat} {t : Option (List Nat)}
    {it' : Iter α} (h : coverings_next fuel lfuel it = some (t, it')) :
    Good rc fuel s₀ A₀ acl₀ it' := by
  unfold coverings_next at h
  by_cases hf : it.first
  · rw [if_pos hf] at h
    refine good_nextLoop lfuel { it with first := false } ?_ t it' h
    obtain ⟨A, acl, hs⟩ := hg
    exact ⟨A, acl, hs⟩
  · rw [if_neg hf] at h
    dsimp only at h
    by_cases hb : (coverings_backup fuel it).2 = true
    · rw [if_pos hb] at h
      exact good_nextLoop lfuel _ (good_backup hg) t it' h
    · rw [if_neg hb] at h
      have h2 := Option.some.inj h
      have h3 : (coverings_backup fuel it).1 = it' := congrArg Prod.snd h2
      rw [← h3]
      exact good_backup hg

/-- Inversion of a yielding run of the step loop: the yielded tuple is the
solution of the final state, whose search stack has no active column
left. -/
theorem yield_nextLoop {rc : Nat → List Nat} {fuel : Nat} {s₀ : Mat α}
    {A₀ : List Nat} {acl₀ : Nat → List Nat} :
    ∀ (lfuel : Nat) (it : Iter α), Good rc fuel s₀ A₀ acl₀ it →
      ∀ (t : List Nat) (it' : Iter α),
        nextLoop fuel lfuel it = some (some t, it') →
        (∃ acl, Search rc fuel s₀ A₀ acl₀ it'.m [] acl it'.solution)
        ∧ t = coverings_solution it' := by
  intro lfuel
  induction lfuel with
  | zero =>
    intro it _ t it' h
    exact Option.noConfusion h
  | succ lf ih =>
    intro it hg t it' h
    simp only [nextLoop] at h
    cases ha : (coverings_step fuel it).2 with
    | CONT =>
      rw [ha] at h
      exact ih _ (good_step hg) _ _ h
    | BACKUP =>
      rw [ha] at h
      by_cases hb : (coverings_backup fuel (coverings_step fuel it).1).2 = true
      · rw [if_pos hb] at h
        exact ih _ (good_backup (good_step hg)) _ _ h
      · rw [if_neg hb] at h
        have h2 := Option.some.inj h
        exact Option.noConfusion (congrArg Prod.fst h2)
    | SOLUTION =>
      rw [ha] at h
      have h2 := Option.some.inj h
      have h3 : (coverings_step fuel it).1 = it' := congrArg Prod.snd h2
      have h4 : some (coverings_solution (coverings_step fuel it).1) = some t :=
        congrArg Prod.fst h2
      obtain ⟨A, acl, hsS⟩ := hg
      obtain ⟨_, hNC, hSOL⟩ := search_step hsS
      have hAnil : A = [] := hSOL ha
      subst hAnil
      have hid : (coverings_step fuel it).1 = it :=
        hNC (fun hc => by rw [ha] at hc; exact Action.noConfusion hc)
      refine ⟨⟨acl, ?_⟩, ?_⟩
      · rw [← h3, hid]
        exact hsS
      · rw [← h3, hid]
        rw [hid] at h4
        exact (Option.some.inj h4).symm

/-- Inversion of a yielding call of `coverings_next`. -/
theorem yield_next {rc : Nat → List Nat} {fuel : Nat} {s₀ : Mat α}
    {A₀ : List Nat} {acl₀ : Nat → List Nat} {it : Iter α}
    (hg : Good rc fuel s₀ A₀ acl₀ it) {lfuel : Nat} {t : List Nat}
    {it' : Iter α} (h : coverings_next fuel lfuel it = some (some t, it')) :
    (∃ acl, Search rc fuel s₀ A₀ acl₀ it'.m [] acl it'.solution)
    ∧ t = coverings_solution it' := by
  unfold coverings_next at h
  by_cases hf : it.first
  · rw [if_pos hf] at h
    refine yield_nextLoop lfuel { it with first := false } ?_ t it' h
    obtain ⟨A, acl, hs⟩ := hg
    exact ⟨A, acl, hs⟩
  · rw [if_neg hf] at h
    dsimp only at h
    by_cases hb : (coverings_backup fuel it).2 = true
    · rw [if_pos hb] at h
      exact yield_nextLoop lfuel _ (good_backup hg) t it' h
    · rw [if_neg hb] at h
      have h2 := Option.some.inj h
      exact Option.noConfusion (congrArg Prod.fst h2)

/-- States reachable by repeated calls of `coverings_next`. -/
inductive Reach (fuel lfuel : Nat) : Iter α → Iter α → Prop where
  | refl (it : Iter α) : Reach fuel lfuel it it
  | next {it₀ it it' : Iter α} {t : Option (List Nat)} :
      Reach fuel lfuel it₀ it →
      coverings_next fuel lfuel it = some (t, it') →
      Reach fuel lfuel it₀ it'

theorem good_reach {rc : Nat → List Nat} {fuel : Nat} {s₀ : Mat α}
    {A₀ : List Nat} {acl₀ : Nat → List Nat} {lfuel : Nat}
    {it₀ it : Iter α} (hr : Reach fuel lfuel it₀ it)
    (hg : Good rc fuel s₀ A₀ acl₀ it₀) : Good rc fuel s₀ A₀ acl₀ it := by
  induction hr with
  | refl => exact hg
  | next _ hn ih => exact good_next ih hn

/-- Loop of `column_count` along the header path. -/
theorem columnCountLoop_run {s : Mat α} :
    ∀ {l : List Nat} {i acc fuel : Nat},
      Path s.right s.left i l 0 → (0 : Nat) ∉ i :: l → l.length + 2 ≤ fuel →
      columnCountLoop s 0 fuel i acc = acc + (l.length + 1) := by
  intro l
  induction l with
  | nil =>
    intro i acc fuel hP hc hf
    obtain ⟨f, rfl⟩ : ∃ f, fuel = f + 1 + 1 := ⟨fuel - 2, by omega⟩
    have hine : i ≠ 0 := fun hh => hc (hh ▸ List.mem_cons_self _ _)
    rw [columnCountLoop, if_neg hine, hP.1, columnCountLoop, if_pos rfl]
    simp
  | cons x l ih =>
    intro i acc fuel hP hc hf
    obtain ⟨f, rfl⟩ : ∃ f, fuel = f + 1 := ⟨fuel - 1, by omega⟩
    have hine : i ≠ 0 := fun hh => hc (hh ▸ List.mem_cons_self _ _)
    rw [columnCountLoop, if_neg hine, hP.1]
    rw [ih hP.2.2 (fun hm => hc (List.mem_cons_of_mem _ hm))
      (by simp at hf ⊢; omega)]
    simp only [List.length_cons]
    omega

/-- `column_count` counts the headers of the horizontal list. -/
theorem column_count_run {s : Mat α} {A : List Nat} {fuel : Nat}
    (hP : Path s.right s.left 0 A 0) (hnd : (0 :: A).Nodup)
    (hf : A.length + 2 ≤ fuel) : column_count fuel s 0 = A.length := by
  cases A with
  | nil =>
    obtain ⟨f, rfl⟩ : ∃ f, fuel = f + 1 := ⟨fuel - 1, by omega⟩
    show columnCountLoop s 0 (f + 1) (s.right 0) 0 = 0
    rw [hP.1, columnCountLoop, if_pos rfl]
  | cons c rest =>
    show columnCountLoop s 0 fuel (s.right 0) 0 = (c :: rest).length
    rw [hP.1]
    rw [columnCountLoop_run hP.2.2 (List.nodup_cons.mp hnd).1
      (by simp at hf ⊢; omega)]
    simp

/-- Record-level frame facts of `insertCellAt`: `hobj` is untouched, `col`
changes only at the new cell, and `left`/`right` change only at the new
cell and its row-circle neighbours. -/
theorem insertCellAt_extras (s : Mat α) (column rowIdx e : Nat) :
    ∀ (rf : Option Nat), (∀ row, rf = some row → row ≠ e) →
    (insertCellAt s column rowIdx e rf).1.hobj = s.hobj
    ∧ (insertCellAt s column rowIdx e rf).1.col e = column
    ∧ (∀ y, y ≠ e → (insertCellAt s column rowIdx e rf).1.col y = s.col y)
    ∧ (∀ y, y ≠ e → (∀ row, rf = some row → y ≠ row ∧ y ≠ s.left row) →
        (insertCellAt s column rowIdx e rf).1.left y = s.left y
          ∧ (insertCellAt s column rowIdx e rf).1.right y = s.right y)
  | none, _ => by
    rw [insertCellAt_none_eq]
    refine ⟨rfl, upd_same _ _ _, fun y hy => upd_ne _ _ hy, fun y hy _ => ?_⟩
    exact ⟨upd_ne _ _ hy, upd_ne _ _ hy⟩
  | some row, hre => by
    rw [insertCellAt_some_eq]
    have hrow_ne : row ≠ e := hre row rfl
    refine ⟨rfl, upd_same _ _ _, fun y hy => upd_ne _ _ hy, fun y hy hcond => ?_⟩
    obtain ⟨h1, h2⟩ := hcond row rfl
    constructor
    · show upd (upd s.left e (s.left row)) row e y = s.left y
      rw [upd_ne _ _ h1, upd_ne _ _ hy]
    · show upd (upd s.right e row) (upd s.left e (s.left row) row) e y = s.right y
      rw [upd_ne _ _ hrow_ne, upd_ne _ _ h2, upd_ne _ _ hy]

/-- Splitting a list at the first occurrence of a member. -/
theorem takeWhile_dropWhile_of_not_mem :
    ∀ {l₁ : List Nat} {r : Nat}, r ∉ l₁ → ∀ (l₂ : List Nat),
      (l₁ ++ r :: l₂).takeWhile (fun y => y != r) = l₁
      ∧ (l₁ ++ r :: l₂).dropWhile (fun y => y != r) = r :: l₂ := by
  intro l₁
  induction l₁ with
  | nil =>
    intro r _ l₂
    constructor
    · show List.takeWhile _ (r :: l₂) = []
      simp [List.takeWhile_cons]
    · show List.dropWhile _ (r :: l₂) = r :: l₂
      simp [List.dropWhile_cons]
  | cons a l₁ ih =>
    intro r hr l₂
    have ha : a ≠ r := fun hc => hr (hc ▸ List.mem_cons_self _ _)
    have hr' : r ∉ l₁ := fun hc => hr (List.mem_cons_of_mem _ hc)
    obtain ⟨h1, h2⟩ := ih hr' l₂
    constructor
    · show List.takeWhile _ (a :: (l₁ ++ r :: l₂)) = a :: l₁
      rw [List.takeWhile_cons, if_pos (by simp [ha]), h1]
    · show List.dropWhile _ (a :: (l₁ ++ r :: l₂)) = r :: l₂
      rw [List.dropWhile_cons, if_pos (by simp [ha]), h2]

/-- The rotation of a circle list starting just after member `r`. -/
def rotAfter (l : List Nat) (r : Nat) : List Nat :=
  (l.dropWhile (fun y => y != r)).tail ++ l.takeWhile (fun y => y != r)

theorem rotAfter_eq {l₁ l₂ : List Nat} {r : Nat} (hr : r ∉ l₁) :
    rotAfter (l₁ ++ r :: l₂) r = l₂ ++ l₁ := by
  obtain ⟨h1, h2⟩ := takeWhile_dropWhile_of_not_mem hr l₂
  unfold rotAfter
  rw [h1, h2]
  rfl

theorem rotAfter_nil (r : Nat) : rotAfter [] r = [] := rfl

/-- Each cell's row circle, read off the per-row block list built by
`coverings_init`: the rotation at the cell of the block containing it. -/
def rcOf (RS : List (Nat × List Nat)) (r : Nat) : List Nat :=
  match RS.find? (fun p => decide (r ∈ p.1 :: p.2)) with
  | some p => rotAfter (p.1 :: p.2) r
  | none => []

/-- With globally duplicate-free blocks, a node determines its block. -/
theorem blocks_disjoint_unique :
    ∀ {RS : List (Nat × List Nat)},
      ((RS.map fun p => p.1 :: p.2).flatten).Nodup →
      ∀ {p₁}, p₁ ∈ RS → ∀ {p₂}, p₂ ∈ RS →
        ∀ {r : Nat}, r ∈ p₁.1 :: p₁.2 → r ∈ p₂.1 :: p₂.2 → p₁ = p₂ := by
  intro RS
  induction RS with
  | nil =>
    intro _ _ hp₁
    cases hp₁
  | cons q RS ih =>
    intro hnd p₁ hp₁ p₂ hp₂ r hr₁ hr₂
    rw [List.map_cons, List.flatten_cons] at hnd
    have hdisj := List.disjoint_of_nodup_append hnd
    have hmemflat : ∀ {p : Nat × List Nat}, p ∈ RS → ∀ {y : Nat},
        y ∈ p.1 :: p.2 → y ∈ (RS.map fun p => p.1 :: p.2).flatten := by
      intro p hp y hy
      exact List.mem_flatten.mpr ⟨p.1 :: p.2, List.mem_map_of_mem _ hp, hy⟩
    rcases List.mem_cons.mp hp₁ with rfl | hp₁' <;>
      rcases List.mem_cons.mp hp₂ with h2 | hp₂'
    · exact h2.symm
    · exact absurd (hmemflat hp₂' hr₂) (fun hc => hdisj hr₁ hc)
    · subst h2
      exact absurd (hmemflat hp₁' hr₁) (fun hc => hdisj hr₂ hc)
    · exact ih hnd.of_append_right hp₁' hp₂' hr₁ hr₂

theorem rcOf_spec {RS : List (Nat × List Nat)}
    (hnd : ((RS.map fun p => p.1 :: p.2).flatten).Nodup)
    {p : Nat × List Nat} (hp : p ∈ RS) {r : Nat} (hr : r ∈ p.1 :: p.2) :
    rcOf RS r = rotAfter (p.1 :: p.2) r := by
  unfold rcOf
  cases hfind : RS.find? (fun p => decide (r ∈ p.1 :: p.2)) with
  | none =>
    exfalso
    have := List.find?_eq_none.mp hfind p hp
    exact this (decide_eq_true hr)
  | some p' =>
    have hr0 := List.find?_some hfind
    have hr' : r ∈ p'.1 :: p'.2 := of_decide_eq_true hr0
    have hpp : p' = p :=
      blocks_disjoint_unique hnd (List.mem_of_find?_eq_some hfind) hp hr' hr
    rw [hpp]

/-- Rotating a consistent circular path at any member keeps it consistent
and permutes the node list. -/
theorem path_rotate {nxt prv : Nat → Nat} {c₀ : Nat} {rest : List Nat}
    (hp : Path nxt prv c₀ rest c₀) (hnd : (c₀ :: rest).Nodup) {r : Nat}
    (hr : r ∈ c₀ :: rest) :
    Path nxt prv r (rotAfter (c₀ :: rest) r) r
    ∧ (r :: rotAfter (c₀ :: rest) r).Perm (c₀ :: rest) := by
  obtain ⟨l₁, l₂, hdec⟩ := List.append_of_mem hr
  have hrl₁ : r ∉ l₁ := by
    rw [hdec] at hnd
    intro hc
    exact (List.disjoint_of_nodup_append hnd) hc (List.mem_cons_self _ _)
  have hrot : rotAfter (c₀ :: rest) r = l₂ ++ l₁ := by
    rw [hdec]
    exact rotAfter_eq hrl₁
  rw [hrot]
  cases l₁ with
  | nil =>
    rw [List.nil_append] at hdec
    injection hdec with h1 h2
    subst h1
    subst h2
    rw [List.append_nil]
    exact ⟨hp, List.Perm.refl _⟩
  | cons a l₁' =>
    rw [List.cons_append] at hdec
    injection hdec with h1 h2
    subst h1
    rw [h2] at hp
    obtain ⟨P₁, P₂⟩ := Path.split l₁' hp
    constructor
    · exact Path.append P₂ P₁
    · rw [h2]
      rw [show r :: (l₂ ++ c₀ :: l₁') = (r :: l₂) ++ (c₀ :: l₁') from rfl,
        show c₀ :: (l₁' ++ r :: l₂) = (c₀ :: l₁') ++ (r :: l₂) from rfl]
      exact List.perm_append_comm

/-- The full node list of the row circle being built. -/
def cn (rf : Option Nat) (rl : List Nat) : List Nat :=
  match rf with
  | none => []
  | some r => r :: rl

/-- Mid-row build invariant: the matrix build invariant, the circle of the
row under construction, the circles of the completed rows, the partition
of all cells into those circles, and the element labels of the current
circle's columns. -/
structure MidInv (s : Mat α) (nxt : Nat) (hs : List Nat)
    (cl : Nat → List Nat) (RS : List (Nat × List Nat)) (rf : Option Nat)
    (rl : List Nat) (xsDone : List α) : Prop where
  B : BuildInv s nxt hs cl
  RF : RowOK s hs cl rf rl
  paths : ∀ p ∈ RS, Path s.right s.left p.1 p.2 p.1
  nodups : ∀ p ∈ RS, (p.1 :: p.2).Nodup
  colnd : ∀ p ∈ RS, ((p.1 :: p.2).map s.col).Nodup
  part : (((RS.map fun p => p.1 :: p.2).flatten) ++ cn rf rl).Perm (allCells hs cl)
  hmap : (cn rf rl).map (fun y => s.hobj (s.col y)) = xsDone.map some
  hinj : ∀ c₁ ∈ hs, ∀ c₂ ∈ hs, c₁ ≠ c₂ → s.hobj c₁ ≠ s.hobj c₂

/-- Every cell knows its column and is listed there. -/
theorem allCells_col {s : Mat α} {nxt : Nat} {hs : List Nat}
    {cl : Nat → List Nat} (B : BuildInv s nxt hs cl) {y : Nat}
    (hy : y ∈ allCells hs cl) : s.col y ∈ hs ∧ y ∈ cl (s.col y) := by
  obtain ⟨blk, hblk, hybl⟩ := List.mem_flatten.mp hy
  obtain ⟨c, hc, rfl⟩ := List.mem_map.mp hblk
  have hcy := B.colOK c hc y hybl
  rw [hcy]
  exact ⟨hc, hybl⟩

/-- Members of the current row circle are cells. -/
theorem cn_mem {s : Mat α} {hs : List Nat} {cl : Nat → List Nat}
    {rf : Option Nat} {rl : List Nat} (RF : RowOK s hs cl rf rl) :
    ∀ y ∈ cn rf rl, y ∈ allCells hs cl := by
  cases rf with
  | none =>
    intro y hy
    cases hy
  | some r =>
    exact RF.2.2

/-- Closed forms of the fields of `insertCellAt` not covered above. -/
theorem insertCellAt_robj (s : Mat α) (column rowIdx e : Nat) (rf : Option Nat) :
    (insertCellAt s column rowIdx e rf).1.robj
      = fun j => if j = e then some rowIdx else s.robj j := by
  cases rf <;> rfl

theorem insertCellAt_hobj_eq (s : Mat α) (column rowIdx e : Nat) (rf : Option Nat) :
    (insertCellAt s column rowIdx e rf).1.hobj = s.hobj := by
  cases rf <;> rfl

theorem insertCellAt_col_eq (s : Mat α) (column rowIdx e : Nat) (rf : Option Nat) :
    (insertCellAt s column rowIdx e rf).1.col = upd s.col e column := by
  cases rf <;> rfl

/-- `find_column` never touches `robj`. -/
theorem find_column_robj [DecidableEq α] (fuel : Nat) (s : Mat α) (x : α)
    (nxt : Nat) : (find_column fuel s 0 x nxt).1.robj = s.robj := by
  unfold find_column
  cases findColumnLoop s 0 x fuel (s.right 0) <;> rfl

/-- `find_column` touches `col` and `hobj` only at the fresh id. -/
theorem find_column_lo [DecidableEq α] (fuel : Nat) (s : Mat α) (x : α)
    (nxt : Nat) {y : Nat} (hy : y ≠ nxt) :
    (find_column fuel s 0 x nxt).1.col y = s.col y
    ∧ (find_column fuel s 0 x nxt).1.hobj y = s.hobj y := by
  unfold find_column
  cases findColumnLoop s 0 x fuel (s.right 0) with
  | none => exact ⟨upd_ne _ _ hy, if_neg hy⟩
  | some c => exact ⟨rfl, rfl⟩

/-- The id returned by `find_column` for the new cell is at least `nxt`. -/
theorem find_column_nxt [DecidableEq α] (fuel : Nat) (s : Mat α) (x : α)
    (nxt : Nat) : nxt ≤ (find_column fuel s 0 x nxt).2.2 := by
  unfold find_column
  cases findColumnLoop s 0 x fuel (s.right 0) with
  | none => exact Nat.le_succ nxt
  | some c => exact le_refl nxt

/-- `insertCell` strictly advances the free-id counter. -/
theorem insertCell_nxt [DecidableEq α] (fuel rowIdx : Nat) (s : Mat α)
    (rf : Option Nat) (x : α) (nxt : Nat) :
    nxt < (insertCell fuel s 0 rowIdx rf x nxt).2.2 := by
  have h := find_column_nxt fuel s x nxt
  show nxt < (find_column fuel s 0 x nxt).2.2 + 1
  omega

/-- `insertCell` leaves `robj`, `col` and `hobj` untouched below `nxt`. -/
theorem insertCell_lo [DecidableEq α] (fuel rowIdx : Nat) (s : Mat α)
    (rf : Option Nat) (x : α) (nxt : Nat) {y : Nat} (hy : y < nxt) :
    (insertCell fuel s 0 rowIdx rf x nxt).1.robj y = s.robj y
    ∧ (insertCell fuel s 0 rowIdx rf x nxt).1.col y = s.col y
    ∧ (insertCell fuel s 0 rowIdx rf x nxt).1.hobj y = s.hobj y := by
  have hfc := find_column_nxt fuel s x nxt
  have hyn : y ≠ (find_column fuel s 0 x nxt).2.2 := by omega
  have hynxt : y ≠ nxt := by omega
  refine ⟨?_, ?_, ?_⟩
  · show (insertCellAt (find_column fuel s 0 x nxt).1
        (find_column fuel s 0 x nxt).2.1 rowIdx
        (find_column fuel s 0 x nxt).2.2 rf).1.robj y = s.robj y
    rw [insertCellAt_robj]
    dsimp only
    rw [if_neg hyn, find_column_robj]
  · show (insertCellAt (find_column fuel s 0 x nxt).1
        (find_column fuel s 0 x nxt).2.1 rowIdx
        (find_column fuel s 0 x nxt).2.2 rf).1.col y = s.col y
    rw [insertCellAt_col_eq, upd_ne _ _ hyn]
    exact (find_column_lo fuel s x nxt hynxt).1
  · show (insertCellAt (find_column fuel s 0 x nxt).1
        (find_column fuel s 0 x nxt).2.1 rowIdx
        (find_column fuel s 0 x nxt).2.2 rf).1.hobj y = s.hobj y
    rw [insertCellAt_hobj_eq]
    exact (find_column_lo fuel s x nxt hynxt).2

/-- The row fold leaves `robj`, `col` and `hobj` untouched below `nxt` and
advances the free-id counter monotonically. -/
theorem insCellStep_fold_lo [DecidableEq α] (rowIdx fuel : Nat) :
    ∀ (xs : List α) (s : Mat α) (rf : Option Nat) (nxt : Nat),
      nxt ≤ (xs.foldl (insCellStep fuel rowIdx) (s, rf, nxt)).2.2
      ∧ ∀ y, y < nxt →
        (xs.foldl (insCellStep fuel rowIdx) (s, rf, nxt)).1.robj y = s.robj y
        ∧ (xs.foldl (insCellStep fuel rowIdx) (s, rf, nxt)).1.col y = s.col y
        ∧ (xs.foldl (insCellStep fuel rowIdx) (s, rf, nxt)).1.hobj y = s.hobj y
  | [], s, rf, nxt => ⟨le_refl _, fun y hy => ⟨rfl, rfl, rfl⟩⟩
  | x :: xs, s, rf, nxt => by
    rw [List.foldl_cons]
    have hstep : insCellStep fuel rowIdx (s, rf, nxt) x
        = ((insertCell fuel s 0 rowIdx rf x nxt).1,
           some (insertCell fuel s 0 rowIdx rf x nxt).2.1,
           (insertCell fuel s 0 rowIdx rf x nxt).2.2) := rfl
    rw [hstep]
    obtain ⟨h1, h2⟩ := insCellStep_fold_lo rowIdx fuel xs
      (insertCell fuel s 0 rowIdx rf x nxt).1
      (some (insertCell fuel s 0 rowIdx rf x nxt).2.1)
      (insertCell fuel s 0 rowIdx rf x nxt).2.2
    have hn := insertCell_nxt fuel rowIdx s rf x nxt
    refine ⟨by omega, fun y hy => ?_⟩
    obtain ⟨g1, g2, g3⟩ := h2 y (by omega)
    obtain ⟨f1, f2, f3⟩ := insertCell_lo fuel rowIdx s rf x nxt hy
    exact ⟨g1.trans f1, g2.trans f2, g3.trans f3⟩

/-- `insertRow` leaves `robj`, `col` and `hobj` untouched below `nxt`. -/
theorem insertRow_lo [DecidableEq α] (fuel rowIdx : Nat) (xs : List α)
    (s : Mat α) (nxt : Nat) {y : Nat} (hy : y < nxt) :
    (insertRow fuel s 0 rowIdx xs nxt).1.robj y = s.robj y
    ∧ (insertRow fuel s 0 rowIdx xs nxt).1.col y = s.col y
    ∧ (insertRow fuel s 0 rowIdx xs nxt).1.hobj y = s.hobj y :=
  (insCellStep_fold_lo rowIdx fuel xs s none nxt).2 y hy

/-- Inserting one cell for element `x` into a column labelled `x`
maintains the mid-row invariant. -/
theorem insertCellAt_mid {s : Mat α} {nxt : Nat} {hs : List Nat}
    {cl : Nat → List Nat} {RS : List (Nat × List Nat)} {rf : Option Nat}
    {rl : List Nat} {xsDone : List α}
    (M : MidInv s nxt hs cl RS rf rl xsDone) {column : Nat} (hcol : column ∈ hs)
    (x : α) (hhobj : s.hobj column = some x) (rowIdx : Nat) :
    MidInv (insertCellAt s column rowIdx nxt rf).1 (nxt + 1) hs
        (fun d => if d = column then cl column ++ [nxt] else cl d) RS
        (some (insertCellAt s column rowIdx nxt rf).2) (rlExt rf rl nxt)
        (xsDone ++ [x])
      ∧ cn (some (insertCellAt s column rowIdx nxt rf).2) (rlExt rf rl nxt)
          = cn rf rl ++ [nxt] := by
  obtain ⟨BI, RO⟩ := insertCellAt_inv M.B hcol rowIdx M.RF
  have hcnmem := cn_mem M.RF
  have hbound_cells : ∀ y ∈ allCells hs cl, y < nxt := fun y hy =>
    M.B.bound y (List.mem_cons_of_mem _ (List.mem_append.mpr (Or.inr hy)))
  have hre : ∀ row, rf = some row → row ≠ nxt := by
    intro row hrf
    have hrow : row ∈ cn rf rl := by
      rw [hrf]
      exact List.mem_cons_self _ _
    have := hbound_cells row (hcnmem _ hrow)
    omega
  obtain ⟨hobjE, hcolE, hcolF, hlrF⟩ := insertCellAt_extras s column rowIdx nxt rf hre
  have hACnd : (allCells hs cl).Nodup :=
    ((List.nodup_cons.mp M.B.nodes).2).of_append_right
  have hflcn_nd : (((RS.map fun p => p.1 :: p.2).flatten) ++ cn rf rl).Nodup :=
    M.part.symm.nodup hACnd
  have hdisjFC := List.disjoint_of_nodup_append hflcn_nd
  have hmemflatRS : ∀ {p : Nat × List Nat}, p ∈ RS → ∀ {y : Nat},
      y ∈ p.1 :: p.2 → y ∈ (RS.map fun p => p.1 :: p.2).flatten := by
    intro p hp y hy
    exact List.mem_flatten.mpr ⟨p.1 :: p.2, List.mem_map_of_mem _ hp, hy⟩
  have hflat_cells : ∀ y ∈ (RS.map fun p => p.1 :: p.2).flatten,
      y ∈ allCells hs cl := by
    intro y hy
    exact M.part.mem_iff.mp (List.mem_append.mpr (Or.inl hy))
  have hblk_frames : ∀ {p : Nat × List Nat}, p ∈ RS → ∀ {y : Nat},
      y ∈ p.1 :: p.2 →
      (insertCellAt s column rowIdx nxt rf).1.left y = s.left y
        ∧ (insertCellAt s column rowIdx nxt rf).1.right y = s.right y
        ∧ (insertCellAt s column rowIdx nxt rf).1.col y = s.col y := by
    intro p hp y hy
    have hyfl := hmemflatRS hp hy
    have hyn : y ≠ nxt := by
      have := hbound_cells y (hflat_cells y hyfl)
      omega
    have hycond : ∀ row, rf = some row → y ≠ row ∧ y ≠ s.left row := by
      intro row hrf
      have hrow : row ∈ cn rf rl := by
        rw [hrf]
        exact List.mem_cons_self _ _
      have hlrow : s.left row ∈ cn rf rl := by
        rw [hrf]
        have hRF := M.RF
        rw [hrf] at hRF
        exact path_prv_mem hRF.1
      constructor
      · intro hc
        exact hdisjFC hyfl (hc ▸ hrow)
      · intro hc
        exact hdisjFC hyfl (hc ▸ hlrow)
    obtain ⟨h1, h2⟩ := hlrF y hyn hycond
    exact ⟨h1, h2, hcolF y hyn⟩
  have hP := allCells_update_perm ((List.nodup_cons.mp M.B.nodes).2).of_append_left
    hcol cl nxt
  have hcneq : cn (some (insertCellAt s column rowIdx nxt rf).2) (rlExt rf rl nxt)
      = cn rf rl ++ [nxt] := by
    cases rf with
    | none => rfl
    | some row => rfl
  refine ⟨⟨BI, RO, ?_, M.nodups, ?_, ?_, ?_, ?_⟩, hcneq⟩
  · intro p hp
    refine Path.congr (M.paths p hp) (fun y hy => ?_) (fun y hy => ?_)
    · exact (hblk_frames hp hy).2.1
    · have hy' : y ∈ p.1 :: p.2 := by
        rcases List.mem_append.mp hy with h' | h'
        · exact List.mem_cons_of_mem _ h'
        · rw [List.mem_singleton.mp h']
          exact List.mem_cons_self _ _
      exact (hblk_frames hp hy').1
  · intro p hp
    have : (p.1 :: p.2).map (insertCellAt s column rowIdx nxt rf).1.col
        = (p.1 :: p.2).map s.col :=
      List.map_congr_left (fun y hy => (hblk_frames hp hy).2.2)
    rw [this]
    exact M.colnd p hp
  · rw [hcneq]
    have h1 : ((RS.map fun p => p.1 :: p.2).flatten) ++ (cn rf rl ++ [nxt])
        = (((RS.map fun p => p.1 :: p.2).flatten) ++ cn rf rl) ++ [nxt] := by
      rw [List.append_assoc]
    rw [h1]
    refine List.Perm.trans ?_ hP.symm
    exact M.part.append_right _
  · rw [hcneq, List.map_append, List.map_append]
    congr 1
    · refine (List.map_congr_left (fun y hy => ?_)).trans M.hmap
      have hyac := hcnmem y hy
      have hyn : y ≠ nxt := by
        have := hbound_cells y hyac
        omega
      obtain ⟨hcolA, _⟩ := allCells_col M.B hyac
      have hcolv : (insertCellAt s column rowIdx nxt rf).1.col y = s.col y :=
        hcolF y hyn
      rw [hcolv, hobjE]
    · show [(insertCellAt s column rowIdx nxt rf).1.hobj
          ((insertCellAt s column rowIdx nxt rf).1.col nxt)] = [some x]
      rw [hcolE, hobjE, hhobj]
  · intro c₁ h₁ c₂ h₂ hne
    rw [hobjE]
    exact M.hinj c₁ h₁ c₂ h₂ hne

/-- One element insertion maintains the mid-row invariant; the current row
circle grows by exactly one cell. -/
theorem insertCell_mid [DecidableEq α] {s : Mat α} {nxt : Nat} {hs : List Nat}
    {cl : Nat → List Nat} {RS : List (Nat × List Nat)} {rf : Option Nat}
    {rl : List Nat} {xsDone : List α}
    (M : MidInv s nxt hs cl RS rf rl xsDone) (rowIdx : Nat) (x : α)
    {fuel : Nat} (hfuel : nxt + 1 ≤ fuel) :
    ∃ hs' cl' rl',
      MidInv (insertCell fuel s 0 rowIdx rf x nxt).1
          (insertCell fuel s 0 rowIdx rf x nxt).2.2 hs' cl' RS
          (some (insertCell fuel s 0 rowIdx rf x nxt).2.1) rl' (xsDone ++ [x])
      ∧ (∃ e, cn (some (insertCell fuel s 0 rowIdx rf x nxt).2.1) rl'
            = cn rf rl ++ [e]
          ∧ (insertCell fuel s 0 rowIdx rf x nxt).1.robj e = some rowIdx
          ∧ e < (insertCell fuel s 0 rowIdx rf x nxt).2.2)
      ∧ nxt < (insertCell fuel s 0 rowIdx rf x nxt).2.2
      ∧ (insertCell fuel s 0 rowIdx rf x nxt).2.2 ≤ nxt + 2 := by
  have hlen : hs.length + 2 ≤ fuel := by
    have := buildInv_hs_lt M.B
    omega
  have heq : insertCell fuel s 0 rowIdx rf x nxt
      = ((insertCellAt (find_column fuel s 0 x nxt).1
            (find_column fuel s 0 x nxt).2.1 rowIdx
            (find_column fuel s 0 x nxt).2.2 rf).1,
         (insertCellAt (find_column fuel s 0 x nxt).1
            (find_column fuel s 0 x nxt).2.1 rowIdx
            (find_column fuel s 0 x nxt).2.2 rf).2,
         (find_column fuel s 0 x nxt).2.2 + 1) := rfl
  rcases find_column_inv M.B x hlen with ⟨c, hfc, hcmem, hcx⟩ |
    ⟨hc1, hc2, B', hAC, hframe, hhobjn, hfr2, hnofind⟩
  · rw [heq, hfc]
    dsimp only
    obtain ⟨M', hcneq⟩ := insertCellAt_mid M hcmem x hcx rowIdx
    refine ⟨hs, _, _, M', ⟨nxt, hcneq, ?_, by omega⟩, by omega, by omega⟩
    rw [insertCellAt_robj]
    dsimp only
    rw [if_pos rfl]
  · have hbound_cells : ∀ y ∈ allCells hs cl, y < nxt := fun y hy =>
      M.B.bound y (List.mem_cons_of_mem _ (List.mem_append.mpr (Or.inr hy)))
    have hhdr_lt : ∀ d ∈ hs, d < nxt := fun d hd =>
      M.B.bound d (List.mem_cons_of_mem _ (List.mem_append.mpr (Or.inl hd)))
    have hcnmem := cn_mem M.RF
    have M₁ : MidInv (find_column fuel s 0 x nxt).1 (nxt + 1) (hs ++ [nxt])
        (fun d => if d = nxt then [] else cl d) RS rf rl xsDone := by
      refine ⟨B', ?_, ?_, M.nodups, ?_, ?_, ?_, ?_⟩
      · cases hrf : rf with
        | none =>
          have hRF := M.RF
          rw [hrf] at hRF
          exact hRF
        | some r =>
          have hRF := M.RF
          rw [hrf] at hRF
          obtain ⟨hrp, hrnd, hrmem⟩ := hRF
          refine ⟨?_, hrnd, ?_⟩
          · refine Path.congr hrp (fun y hy => (hframe y (hrmem y hy)).1)
              (fun y hy => (hframe y (hrmem y ?_)).2)
            rcases List.mem_append.mp hy with h' | h'
            · exact List.mem_cons_of_mem _ h'
            · rw [List.mem_singleton.mp h']
              exact List.mem_cons_self _ _
          · intro y hy
            rw [hAC]
            exact hrmem y hy
      · intro p hp
        have hmem : ∀ {y : Nat}, y ∈ p.1 :: p.2 → y ∈ allCells hs cl := by
          intro y hy
          refine M.part.mem_iff.mp (List.mem_append.mpr (Or.inl ?_))
          exact List.mem_flatten.mpr ⟨p.1 :: p.2, List.mem_map_of_mem _ hp, hy⟩
        refine Path.congr (M.paths p hp) (fun y hy => (hframe y (hmem hy)).1)
          (fun y hy => (hframe y (hmem ?_)).2)
        rcases List.mem_append.mp hy with h' | h'
        · exact List.mem_cons_of_mem _ h'
        · rw [List.mem_singleton.mp h']
          exact List.mem_cons_self _ _
      · intro p hp
        have hmem : ∀ {y : Nat}, y ∈ p.1 :: p.2 → y ∈ allCells hs cl := by
          intro y hy
          refine M.part.mem_iff.mp (List.mem_append.mpr (Or.inl ?_))
          exact List.mem_flatten.mpr ⟨p.1 :: p.2, List.mem_map_of_mem _ hp, hy⟩
        have hcong : (p.1 :: p.2).map (find_column fuel s 0 x nxt).1.col
            = (p.1 :: p.2).map s.col := by
          refine List.map_congr_left (fun y hy => ?_)
          have : y ≠ nxt := by
            have := hbound_cells y (hmem hy)
            omega
          exact (hfr2 y this).2
        rw [hcong]
        exact M.colnd p hp
      · rw [hAC]
        exact M.part
      · refine (List.map_congr_left (fun y hy => ?_)).trans M.hmap
        have hyac := hcnmem y hy
        have hyn : y ≠ nxt := by
          have := hbound_cells y hyac
          omega
        obtain ⟨hcolA, _⟩ := allCells_col M.B hyac
        have hcoln : s.col y ≠ nxt := by
          have := hhdr_lt _ hcolA
          omega
        rw [(hfr2 y hyn).2, (hfr2 _ hcoln).1]
      · intro c₁ h₁ c₂ h₂ hne
        rcases List.mem_append.mp h₁ with h₁' | h₁'
        · rcases List.mem_append.mp h₂ with h₂' | h₂'
          · rw [(hfr2 c₁ (by have := hhdr_lt c₁ h₁'; omega)).1,
              (hfr2 c₂ (by have := hhdr_lt c₂ h₂'; omega)).1]
            exact M.hinj c₁ h₁' c₂ h₂' hne
          · have hc₂ : c₂ = nxt := List.mem_singleton.mp h₂'
            subst hc₂
            rw [(hfr2 c₁ (by have := hhdr_lt c₁ h₁'; omega)).1, hhobjn]
            exact hnofind c₁ h₁'
        · have hc₁ : c₁ = nxt := List.mem_singleton.mp h₁'
          subst hc₁
          rcases List.mem_append.mp h₂ with h₂' | h₂'
          · rw [(hfr2 c₂ (by have := hhdr_lt c₂ h₂'; omega)).1, hhobjn]
            intro hc
            exact hnofind c₂ h₂' hc.symm
          · exact absurd ((List.mem_singleton.mp h₂').symm.trans rfl) hne
    have hcm : (find_column fuel s 0 x nxt).2.1 ∈ hs ++ [nxt] := by
      rw [hc1]
      exact List.mem_append.mpr (Or.inr (List.mem_singleton.mpr rfl))
    have hobjc : (find_column fuel s 0 x nxt).1.hobj
        (find_column fuel s 0 x nxt).2.1 = some x := by
      rw [hc1]
      exact hhobjn
    obtain ⟨M', hcneq⟩ := insertCellAt_mid M₁ hcm x hobjc rowIdx
    rw [heq, hc2]
    dsimp only
    refine ⟨hs ++ [nxt], _, _, M', ⟨nxt + 1, hcneq, ?_, by omega⟩, by omega, by omega⟩
    rw [insertCellAt_robj]
    dsimp only
    rw [if_pos rfl]

/-- Folding the element insertions of one row maintains the mid-row
invariant, and the row circle grows by one cell per element. -/
theorem insCellStep_fold_mid [DecidableEq α] (rowIdx : Nat) {fuel : Nat}
    (xs : List α) :
    ∀ (s : Mat α) (nxt : Nat) (hs : List Nat) (cl : Nat → List Nat)
      (RS : List (Nat × List Nat)) (rf : Option Nat) (rl : List Nat)
      (xsDone : List α),
      MidInv s nxt hs cl RS rf rl xsDone →
      nxt + 2 * xs.length ≤ fuel →
      ∃ hs' cl' rl',
        MidInv (xs.foldl (insCellStep fuel rowIdx) (s, rf, nxt)).1
            (xs.foldl (insCellStep fuel rowIdx) (s, rf, nxt)).2.2 hs' cl' RS
            (xs.foldl (insCellStep fuel rowIdx) (s, rf, nxt)).2.1 rl'
            (xsDone ++ xs)
        ∧ (∃ tailE : List Nat,
            cn (xs.foldl (insCellStep fuel rowIdx) (s, rf, nxt)).2.1 rl'
              = cn rf rl ++ tailE ∧ tailE.length = xs.length
            ∧ ∀ e ∈ tailE,
              (xs.foldl (insCellStep fuel rowIdx) (s, rf, nxt)).1.robj e
                = some rowIdx)
        ∧ nxt ≤ (xs.foldl (insCellStep fuel rowIdx) (s, rf, nxt)).2.2
        ∧ (xs.foldl (insCellStep fuel rowIdx) (s, rf, nxt)).2.2
            ≤ nxt + 2 * xs.length := by
  induction xs with
  | nil =>
    intro s nxt hs cl RS rf rl xsDone M _
    rw [List.append_nil]
    exact ⟨hs, cl, rl, M, ⟨[], by simp, rfl, fun e he => (by cases he)⟩,
      le_refl _, Nat.le_add_right _ _⟩
  | cons x xs ih =>
    intro s nxt hs cl RS rf rl xsDone M hfuel
    simp only [List.length_cons] at hfuel
    rw [List.foldl_cons]
    have h1 : nxt + 1 ≤ fuel := by omega
    obtain ⟨hs1, cl1, rl1, M1, ⟨e, hcn1, hrobj1, hebd⟩, hlt, hle⟩ :=
      insertCell_mid M rowIdx x h1
    have hstep : insCellStep fuel rowIdx (s, rf, nxt) x
        = ((insertCell fuel s 0 rowIdx rf x nxt).1,
           some (insertCell fuel s 0 rowIdx rf x nxt).2.1,
           (insertCell fuel s 0 rowIdx rf x nxt).2.2) := rfl
    rw [hstep]
    obtain ⟨hs', cl', rl', M', ⟨tailE, htaileq, htlen, hrobjT⟩, h3, h4⟩ :=
      ih (insertCell fuel s 0 rowIdx rf x nxt).1
        (insertCell fuel s 0 rowIdx rf x nxt).2.2 hs1 cl1 RS
        (some (insertCell fuel s 0 rowIdx rf x nxt).2.1) rl1
        (xsDone ++ [x]) M1 (by omega)
    rw [List.append_assoc] at M'
    rw [List.singleton_append] at M'
    refine ⟨hs', cl', rl', M', ⟨e :: tailE, ?_, ?_, ?_⟩, by omega,
      by simp only [List.length_cons]; omega⟩
    · rw [htaileq, hcn1, List.append_assoc, List.singleton_append]
    · simp [htlen]
    · intro e' he'
      rcases List.mem_cons.mp he' with rfl | he''
      · have hfr := (insCellStep_fold_lo rowIdx fuel xs
          (insertCell fuel s 0 rowIdx rf x nxt).1
          (some (insertCell fuel s 0 rowIdx rf x nxt).2.1)
          (insertCell fuel s 0 rowIdx rf x nxt).2.2).2 e' hebd
        exact hfr.1.trans hrobj1
      · exact hrobjT e' he''

/-- Inserting one whole input row with pairwise-distinct elements closes
its circle and extends the per-row block list. -/
theorem insertRow_rows [DecidableEq α] {s : Mat α} {nxt : Nat} {hs : List Nat}
    {cl : Nat → List Nat} {RS : List (Nat × List Nat)}
    (M : MidInv s nxt hs cl RS none [] ([] : List α)) (rowIdx : Nat)
    {xs : List α} (hxs : xs.Nodup) {fuel : Nat}
    (hfuel : nxt + 2 * xs.length ≤ fuel) :
    ∃ hs' cl' RS',
      MidInv (insertRow fuel s 0 rowIdx xs nxt).1
          (insertRow fuel s 0 rowIdx xs nxt).2 hs' cl' RS' none []
          ([] : List α)
      ∧ nxt ≤ (insertRow fuel s 0 rowIdx xs nxt).2
      ∧ (insertRow fuel s 0 rowIdx xs nxt).2 ≤ nxt + 2 * xs.length
      ∧ (∀ y, y < nxt →
          (insertRow fuel s 0 rowIdx xs nxt).1.robj y = s.robj y
          ∧ (insertRow fuel s 0 rowIdx xs nxt).1.col y = s.col y
          ∧ (insertRow fuel s 0 rowIdx xs nxt).1.hobj y = s.hobj y)
      ∧ ((RS' = RS ∧ xs = [])
          ∨ ∃ r rl', RS' = RS ++ [(r, rl')]
              ∧ ((r :: rl').map fun y =>
                  (insertRow fuel s 0 rowIdx xs nxt).1.hobj
                    ((insertRow fuel s 0 rowIdx xs nxt).1.col y))
                = xs.map some
              ∧ (∀ e ∈ r :: rl',
                  (insertRow fuel s 0 rowIdx xs nxt).1.robj e
                    = some rowIdx)) := by
  have heqIR : insertRow fuel s 0 rowIdx xs nxt
      = ((xs.foldl (insCellStep fuel rowIdx) (s, none, nxt)).1,
         (xs.foldl (insCellStep fuel rowIdx) (s, none, nxt)).2.2) := rfl
  rw [heqIR]
  obtain ⟨hs', cl', rl', M', ⟨tailE, htaileq, htlen, hrobjT⟩, hb1, hb2⟩ :=
    insCellStep_fold_mid rowIdx xs s nxt hs cl RS none [] [] M hfuel
  have hfr : ∀ y, y < nxt →
      (xs.foldl (insCellStep fuel rowIdx) (s, none, nxt)).1.robj y = s.robj y
      ∧ (xs.foldl (insCellStep fuel rowIdx) (s, none, nxt)).1.col y = s.col y
      ∧ (xs.foldl (insCellStep fuel rowIdx) (s, none, nxt)).1.hobj y
          = s.hobj y :=
    fun y hy => (insCellStep_fold_lo rowIdx fuel xs s none nxt).2 y hy
  rw [List.nil_append] at M'
  cases hrf' : (xs.foldl (insCellStep fuel rowIdx) (s, none, nxt)).2.1 with
  | none =>
    rw [hrf'] at M' htaileq
    have hrl' : rl' = [] := M'.RF
    rw [hrl'] at M'
    have htail0 : tailE = [] := by
      have h0 : cn (none : Option Nat) rl' = [] := rfl
      rw [h0] at htaileq
      have h1 := htaileq.symm
      rw [show cn (none : Option Nat) ([] : List Nat) = ([] : List Nat) from rfl,
        List.nil_append] at h1
      exact h1
    have hxs0 : xs = [] := by
      rw [htail0] at htlen
      exact List.length_eq_zero.mp htlen.symm
    subst hxs0
    exact ⟨hs', cl', RS, M', hb1, hb2, hfr, Or.inl ⟨rfl, rfl⟩⟩
  | some r =>
    rw [hrf'] at M' htaileq
    have htail : r :: rl' = tailE := by
      rw [show cn (none : Option Nat) ([] : List Nat) = ([] : List Nat) from rfl,
        List.nil_append] at htaileq
      exact htaileq
    refine ⟨hs', cl', RS ++ [(r, rl')], ?_, hb1, hb2, hfr,
      Or.inr ⟨r, rl', rfl, M'.hmap, fun e he => hrobjT e (htail ▸ he)⟩⟩
    have hcirc : cn (some r) rl' = r :: rl' := rfl
    have hflat : ((RS ++ [(r, rl')]).map fun p => p.1 :: p.2).flatten
        = (RS.map fun p => p.1 :: p.2).flatten ++ (r :: rl') := by
      rw [List.map_append, List.flatten_append]
      simp
    refine ⟨M'.B, rfl, ?_, ?_, ?_, ?_, rfl, M'.hinj⟩
    · intro p hp
      rcases List.mem_append.mp hp with h' | h'
      · exact M'.paths p h'
      · rw [List.mem_singleton.mp h']
        exact M'.RF.1
    · intro p hp
      rcases List.mem_append.mp hp with h' | h'
      · exact M'.nodups p h'
      · rw [List.mem_singleton.mp h']
        exact M'.RF.2.1
    · intro p hp
      rcases List.mem_append.mp hp with h' | h'
      · exact M'.colnd p h'
      · rw [List.mem_singleton.mp h']
        show (((r, rl').1 :: (r, rl').2).map _).Nodup
        have hmap := M'.hmap
        have hsomend : (xs.map (some : α → Option α)).Nodup :=
          hxs.map (Option.some_injective α)
        rw [← hmap] at hsomend
        have h2 : ((cn (some r) rl').map
            ((xs.foldl (insCellStep fuel rowIdx) (s, none, nxt)).1.col)).map
              (xs.foldl (insCellStep fuel rowIdx) (s, none, nxt)).1.hobj
            = (cn (some r) rl').map (fun y =>
              (xs.foldl (insCellStep fuel rowIdx) (s, none, nxt)).1.hobj
                ((xs.foldl (insCellStep fuel rowIdx) (s, none, nxt)).1.col y)) := by
          rw [List.map_map]
          rfl
        have h3 := hsomend
        rw [← h2] at h3
        exact h3.of_map _
    · show ((((RS ++ [(r, rl')]).map fun p => p.1 :: p.2).flatten)
          ++ cn none []).Perm (allCells hs' cl')
      rw [show cn (none : Option Nat) ([] : List Nat) = ([] : List Nat) from rfl,
        List.append_nil, hflat]
      exact M'.part

/-- The empty matrix satisfies the boundary invariant. -/
theorem midInv_init :
    MidInv (alloc_matrix : Mat α) 1 [] (fun _ => []) [] none [] ([] : List α) :=
  ⟨buildInv_init, rfl, fun p hp => (by cases hp), fun p hp => (by cases hp),
    fun p hp => (by cases hp), List.Perm.nil, rfl, fun c hc => (by cases hc)⟩

/-- Per-block semantics: the block's cells all carry row object `j`, and
the block's cells' column labels spell out row `j` of the input. -/
def BlockSem (s : Mat α) (rows₀ : List (List α)) (j : Nat)
    (p : Nat × List Nat) : Prop :=
  j < rows₀.length
    ∧ (∀ e ∈ p.1 :: p.2, s.robj e = some j)
    ∧ ((p.1 :: p.2).map fun y => s.hobj (s.col y)) = (rows₀.getD j []).map some

/-- Block-list semantics after processing the first `i` input rows: every
block is some already-processed row, distinct blocks carry distinct row
objects, and every non-empty processed row has a block. -/
def RSem (s : Mat α) (rows₀ : List (List α)) (i : Nat)
    (RS : List (Nat × List Nat)) : Prop :=
  (∀ p ∈ RS, ∃ j, j < i ∧ BlockSem s rows₀ j p)
    ∧ (∀ p ∈ RS, ∀ q ∈ RS, p ≠ q → s.robj p.1 ≠ s.robj q.1)
    ∧ (∀ j, j < i → j < rows₀.length → rows₀.getD j [] ≠ [] →
        ∃ p ∈ RS, s.robj p.1 = some j)

/-- The build loop maintains the boundary invariant and the block
semantics over all rows. -/
theorem buildLoop_rows [DecidableEq α] {fuel : Nat} (rows₀ : List (List α)) :
    ∀ (rows : List (List α)) (i : Nat) (s : Mat α) (nxt : Nat)
      (hs : List Nat) (cl : Nat → List Nat) (RS : List (Nat × List Nat)),
      MidInv s nxt hs cl RS none [] ([] : List α) →
      RSem s rows₀ i RS →
      i + rows.length = rows₀.length →
      (∀ j, j < rows.length → rows₀.getD (i + j) [] = rows.getD j []) →
      (∀ row ∈ rows, row.Nodup) →
      nxt + 2 * (rows.map List.length).sum ≤ fuel →
      ∃ hs' cl' RS',
        MidInv (buildLoop fuel rows i (s, nxt)).1
          (buildLoop fuel rows i (s, nxt)).2 hs' cl' RS' none [] ([] : List α)
        ∧ RSem (buildLoop fuel rows i (s, nxt)).1 rows₀ rows₀.length RS'
  | [], i, s, nxt, hs, cl, RS, M, R, hlen, hget, _, _ => by
    refine ⟨hs, cl, RS, M, ⟨?_, R.2.1, ?_⟩⟩
    · intro p hp
      obtain ⟨j, hj, hB⟩ := R.1 p hp
      exact ⟨j, hB.1, hB⟩
    · intro j hj1 hj2 hne
      refine R.2.2 j ?_ hj2 hne
      simp only [List.length_nil] at hlen
      omega
  | xs :: rest, i, s, nxt, hs, cl, RS, M, R, hlen, hget, hnd, hfuel => by
    simp only [List.map_cons, List.sum_cons] at hfuel
    rw [show buildLoop fuel (xs :: rest) i (s, nxt)
        = buildLoop fuel rest (i + 1) (insertRow fuel s 0 i xs nxt) from rfl]
    obtain ⟨hs1, cl1, RS1, M1, h1, h2, hfrI, hdisjI⟩ :=
      @insertRow_rows α _ s nxt hs cl RS M i xs
        (hnd xs (List.mem_cons_self _ _)) fuel (by omega)
    have hilt : i < rows₀.length := by
      simp only [List.length_cons] at hlen
      omega
    have hgeti : rows₀.getD i [] = xs := by
      have hg0 := hget 0 (by simp)
      rw [Nat.add_zero] at hg0
      exact hg0
    have hpart0 : ((RS.map fun p => p.1 :: p.2).flatten).Perm (allCells hs cl) := by
      have h := M.part
      rw [show cn (none : Option Nat) ([] : List Nat) = ([] : List Nat) from rfl,
        List.append_nil] at h
      exact h
    have hcells : ∀ p ∈ RS, ∀ y ∈ p.1 :: p.2, y ∈ allCells hs cl := by
      intro p hp y hy
      exact hpart0.mem_iff.mp
        (List.mem_flatten.mpr ⟨p.1 :: p.2, List.mem_map_of_mem _ hp, hy⟩)
    have hlt : ∀ y ∈ allCells hs cl, y < nxt := fun y hy =>
      M.B.bound y (List.mem_cons_of_mem _ (List.mem_append.mpr (Or.inr hy)))
    have hcollt : ∀ y ∈ allCells hs cl, s.col y < nxt := fun y hy =>
      M.B.bound _ (List.mem_cons_of_mem _
        (List.mem_append.mpr (Or.inl (allCells_col M.B hy).1)))
    have hpres : ∀ p ∈ RS, ∀ j : Nat, BlockSem s rows₀ j p →
        BlockSem (insertRow fuel s 0 i xs nxt).1 rows₀ j p := by
      intro p hp j hB
      obtain ⟨hj, hrobj, helem⟩ := hB
      refine ⟨hj, ?_, ?_⟩
      · intro e he
        rw [(hfrI e (hlt e (hcells p hp e he))).1]
        exact hrobj e he
      · refine (List.map_congr_left (fun y hy => ?_)).trans helem
        have hyc := hcells p hp y hy
        rw [(hfrI y (hlt y hyc)).2.1, (hfrI _ (hcollt y hyc)).2.2]
    have hrobj_fr : ∀ p ∈ RS,
        (insertRow fuel s 0 i xs nxt).1.robj p.1 = s.robj p.1 := by
      intro p hp
      exact (hfrI p.1 (hlt _ (hcells p hp p.1 (List.mem_cons_self _ _)))).1
    have R1 : RSem (insertRow fuel s 0 i xs nxt).1 rows₀ (i + 1) RS1 := by
      rcases hdisjI with ⟨hRS, hxs⟩ | ⟨r, rl', hRS, helemN, hrobjN⟩
      · subst hRS
        refine ⟨?_, ?_, ?_⟩
        · intro p hp
          obtain ⟨j, hj, hB⟩ := R.1 p hp
          exact ⟨j, by omega, hpres p hp j hB⟩
        · intro p hp q hq hne
          rw [hrobj_fr p hp, hrobj_fr q hq]
          exact R.2.1 p hp q hq hne
        · intro j hj1 hj2 hne
          by_cases hji : j < i
          · obtain ⟨p, hp, hpe⟩ := R.2.2 j hji hj2 hne
            exact ⟨p, hp, (hrobj_fr p hp).trans hpe⟩
          · exfalso
            have hij : j = i := by omega
            subst hij
            rw [hgeti] at hne
            exact hne hxs
      · subst hRS
        refine ⟨?_, ?_, ?_⟩
        · intro p hp
          rcases List.mem_append.mp hp with hp' | hp'
          · obtain ⟨j, hj, hB⟩ := R.1 p hp'
            exact ⟨j, by omega, hpres p hp' j hB⟩
          · rw [List.mem_singleton.mp hp']
            refine ⟨i, by omega, hilt, hrobjN, ?_⟩
            rw [hgeti]
            exact helemN
        · intro p hp q hq hne
          have hnew : (insertRow fuel s 0 i xs nxt).1.robj (r, rl').1 = some i :=
            hrobjN r (List.mem_cons_self _ _)
          have hold : ∀ p' ∈ RS, ∃ j', j' < i
              ∧ (insertRow fuel s 0 i xs nxt).1.robj p'.1 = some j' := by
            intro p' hp'
            obtain ⟨j', hj', hB⟩ := R.1 p' hp'
            exact ⟨j', hj',
              (hrobj_fr p' hp').trans (hB.2.1 p'.1 (List.mem_cons_self _ _))⟩
          rcases List.mem_append.mp hp with hp' | hp' <;>
            rcases List.mem_append.mp hq with hq' | hq'
          · rw [hrobj_fr p hp', hrobj_fr q hq']
            exact R.2.1 p hp' q hq' hne
          · rw [List.mem_singleton.mp hq']
            obtain ⟨j', hj', hval⟩ := hold p hp'
            rw [hval, hnew]
            intro hc
            have := Option.some.inj hc
            omega
          · rw [List.mem_singleton.mp hp']
            obtain ⟨j', hj', hval⟩ := hold q hq'
            rw [hval, hnew]
            intro hc
            have := Option.some.inj hc
            omega
          · exact absurd ((List.mem_singleton.mp hp').trans
              (List.mem_singleton.mp hq').symm) hne
        · intro j hj1 hj2 hne
          by_cases hji : j < i
          · obtain ⟨p, hp, hpe⟩ := R.2.2 j hji hj2 hne
            exact ⟨p, List.mem_append.mpr (Or.inl hp),
              (hrobj_fr p hp).trans hpe⟩
          · have hij : j = i := by omega
            subst hij
            exact ⟨(r, rl'),
              List.mem_append.mpr (Or.inr (List.mem_singleton.mpr rfl)),
              hrobjN r (List.mem_cons_self _ _)⟩
    exact buildLoop_rows rows₀ rest (i + 1) (insertRow fuel s 0 i xs nxt).1
      (insertRow fuel s 0 i xs nxt).2 hs1 cl1 RS1 M1 R1
      (by simp only [List.length_cons] at hlen ⊢; omega)
      (fun j hj => by
        have hg1 := hget (j + 1) (by simp only [List.length_cons]; omega)
        rw [show i + 1 + j = i + (j + 1) from by omega, hg1]
        rfl)
      (fun row hrow => hnd row (List.mem_cons_of_mem _ hrow)) (by omega)

/-- The matrix built from duplicate-free rows satisfies the boundary
invariant and the block semantics. -/
theorem buildMatrix_rows [DecidableEq α] (rows : List (List α))
    (hnd : ∀ row ∈ rows, row.Nodup) {fuel : Nat}
    (hfuel : 1 + 2 * (rows.map List.length).sum ≤ fuel) :
    ∃ hs cl RS,
      MidInv (buildMatrix fuel rows).1 (buildMatrix fuel rows).2 hs cl RS
        none [] ([] : List α)
      ∧ RSem (buildMatrix fuel rows).1 rows rows.length RS :=
  buildLoop_rows rows rows 0 alloc_matrix 1 [] (fun _ => []) [] midInv_init
    ⟨fun p hp => (by cases hp), fun p hp => (by cases hp),
      fun j hj => absurd hj (Nat.not_lt_zero j)⟩
    (Nat.zero_add _) (fun j hj => by rw [Nat.zero_add]) hnd hfuel

/-- Interleaved blocks are a permutation of heads plus flat cells. -/
theorem allCells_cons_perm : ∀ (hs : List Nat) (cl : Nat → List Nat),
    (allCells hs (fun c => c :: cl c)).Perm (hs ++ allCells hs cl)
  | [], _ => List.Perm.nil
  | c :: hs, cl => by
    show ((c :: cl c) ++ allCells hs (fun c => c :: cl c)).Perm
      ((c :: hs) ++ (cl c ++ allCells hs cl))
    rw [List.cons_append, List.cons_append]
    refine List.Perm.cons c ?_
    refine List.Perm.trans (List.Perm.append_left _ (allCells_cons_perm hs cl)) ?_
    rw [← List.append_assoc, ← List.append_assoc]
    exact List.Perm.append_right _ List.perm_append_comm

/-- A member block of a block list is a sublist of its flat node list. -/
theorem block_sublist_flatten {RS : List (Nat × List Nat)} {p : Nat × List Nat}
    (hp : p ∈ RS) :
    List.Sublist (p.1 :: p.2) ((RS.map fun q => q.1 :: q.2).flatten) := by
  induction RS with
  | nil => cases hp
  | cons q RS ih =>
    rw [List.map_cons, List.flatten_cons]
    rcases List.mem_cons.mp hp with rfl | hp'
    · exact List.sublist_append_left _ _
    · exact List.Sublist.trans (ih hp') (List.sublist_append_right _ _)

/-- The boundary build invariant yields the search invariant of the fresh
matrix: every column fully active, row circles read off the per-row
blocks, with fuel capacity `nxt + 2`. -/
theorem midInv_swf {s : Mat α} {nxt : Nat} {hs : List Nat}
    {cl : Nat → List Nat} {RS : List (Nat × List Nat)}
    (M : MidInv s nxt hs cl RS none [] ([] : List α)) :
    SWF s hs cl (rcOf RS)
    ∧ ∀ icap, nxt + 2 ≤ icap → HCap icap hs cl (rcOf RS) := by
  have B := M.B
  have hpart : ((RS.map fun p => p.1 :: p.2).flatten).Perm (allCells hs cl) := by
    have h := M.part
    rw [show cn (none : Option Nat) ([] : List Nat) = ([] : List Nat) from rfl,
      List.append_nil] at h
    exact h
  have hta : (hs ++ allCells hs cl).Nodup := (List.nodup_cons.mp B.nodes).2
  have h0notin : (0 : Nat) ∉ hs ++ allCells hs cl := (List.nodup_cons.mp B.nodes).1
  have hACnd : (allCells hs cl).Nodup := hta.of_append_right
  have hdisjHA := List.disjoint_of_nodup_append hta
  have hFLnd : ((RS.map fun p => p.1 :: p.2).flatten).Nodup :=
    hpart.symm.nodup hACnd
  have hblk_cells : ∀ {p : Nat × List Nat}, p ∈ RS → ∀ {y : Nat},
      y ∈ p.1 :: p.2 → y ∈ allCells hs cl := by
    intro p hp y hy
    exact hpart.mem_iff.mp ((block_sublist_flatten hp).subset hy)
  have hcirc : ∀ {c r : Nat}, c ∈ hs → r ∈ cl c →
      ∃ p ∈ RS, r ∈ p.1 :: p.2
        ∧ Path s.right s.left r (rcOf RS r) r
        ∧ (r :: rcOf RS r).Perm (p.1 :: p.2) := by
    intro c r hc hr
    have hrac : r ∈ allCells hs cl := mem_allCells hc hr
    obtain ⟨blk, hblk, hrb⟩ := List.mem_flatten.mp (hpart.mem_iff.mpr hrac)
    obtain ⟨p, hp, rfl⟩ := List.mem_map.mp hblk
    have hspec := rcOf_spec hFLnd hp hrb
    obtain ⟨hpath, hperm⟩ := path_rotate (M.paths p hp) (M.nodups p hp) hrb
    rw [← hspec] at hpath hperm
    exact ⟨p, hp, hrb, hpath, hperm⟩
  have hsibcol : ∀ {c r : Nat}, c ∈ hs → r ∈ cl c →
      ((r :: rcOf RS r).map s.col).Nodup := by
    intro c r hc hr
    obtain ⟨p, hp, _, _, hperm⟩ := hcirc hc hr
    exact ((hperm.map s.col).symm).nodup (M.colnd p hp)
  constructor
  · refine ⟨B.hdr, buildInv_hs_nodup B, ?_, ?_, B.hdrcol, ?_, ?_, ?_, ?_, ?_, ?_⟩
    · rw [famNodes_map_acl]
      have hperm : ((0 : Nat) :: allCells hs (fun c => c :: cl c)).Perm
          (0 :: (hs ++ allCells hs cl)) :=
        List.Perm.cons 0 (allCells_cons_perm hs cl)
      exact hperm.symm.nodup B.nodes
    · exact fun c hc => ⟨B.cols c hc, B.colOK c hc, B.counts c hc⟩
    · intro c hc r hr
      obtain ⟨p, hp, _, hpath, _⟩ := hcirc hc hr
      exact hpath
    · intro c hc r hr
      obtain ⟨p, hp, _, _, hperm⟩ := hcirc hc hr
      exact hperm.symm.nodup (M.nodups p hp)
    · intro c hc r hr
      exact hsibcol hc hr
    · intro c hc r hr e he
      obtain ⟨p, hp, hrb, _, hperm⟩ := hcirc hc hr
      have heblk : e ∈ p.1 :: p.2 :=
        hperm.mem_iff.mp (List.mem_cons_of_mem _ he)
      have heac : e ∈ allCells hs cl := hblk_cells hp heblk
      obtain ⟨hecol, hecl⟩ := allCells_col B heac
      have hrnd : (r :: rcOf RS r).Nodup := hperm.symm.nodup (M.nodups p hp)
      have hner : e ≠ r := fun hc' =>
        (List.nodup_cons.mp hrnd).1 (hc' ▸ he)
      refine ⟨hecol, ?_, hecl⟩
      intro hc'
      refine hner ?_
      refine List.inj_on_of_nodup_map (hsibcol hc hr)
        (List.mem_cons_of_mem _ he) (List.mem_cons_self _ _) ?_
      rw [hc', B.colOK c hc r hr]
    · intro c hc r hr e he
      obtain ⟨p, hp, hrb, _, hperm⟩ := hcirc hc hr
      have heblk : e ∈ p.1 :: p.2 :=
        hperm.mem_iff.mp (List.mem_cons_of_mem _ he)
      have hspec := rcOf_spec hFLnd hp heblk
      obtain ⟨_, hperm'⟩ := path_rotate (M.paths p hp) (M.nodups p hp) heblk
      rw [← hspec] at hperm'
      exact hperm'.trans hperm.symm
    · intro y hy c hc r hr hmem
      obtain ⟨p, hp, _, _, hperm⟩ := hcirc hc hr
      have hyac : y ∈ allCells hs cl :=
        hblk_cells hp (hperm.mem_iff.mp hmem)
      rcases List.mem_cons.mp hy with rfl | hy'
      · exact h0notin (List.mem_append.mpr (Or.inr hyac))
      · exact hdisjHA hy' hyac
  · intro icap hicap
    have hACsub : allCells hs cl ⊆ List.range nxt := fun y hy =>
      List.mem_range.mpr (B.bound y
        (List.mem_cons_of_mem _ (List.mem_append.mpr (Or.inr hy))))
    have hAClen : (allCells hs cl).length ≤ nxt := by
      have := (hACnd.subperm hACsub).length_le
      simpa using this
    refine ⟨?_, ?_, ?_⟩
    · have := buildInv_hs_lt B
      omega
    · intro c hc
      have hclnd : (cl c).Nodup := allCells_block_nodup hACnd hc
      have hsub : cl c ⊆ allCells hs cl := fun y hy => mem_allCells hc hy
      have := (hclnd.subperm hsub).length_le
      omega
    · intro c hc r hr
      obtain ⟨p, hp, _, _, hperm⟩ := hcirc hc hr
      have h1 := hperm.length_eq
      have h2 := (block_sublist_flatten hp).length_le
      have h3 := hpart.length_eq
      simp only [List.length_cons] at h1 h2
      omega

/-- C5: at every state reachable from the freshly constructed iterator by
any sequence of `coverings_next` calls, the solution stack's length is at
most the initial number of columns as measured by `column_count` on the
built matrix — the capacity of the solution buffer allocated by
`coverings` — and whenever `coverings_step` reports `CONT` (and hence
writes `solution[solutionSize]`), the incremented stack length still fits
that capacity, so the write stays within the buffer.  The hypothesis on
`rows` is the input format of the spec: each row's elements are pairwise
distinct. -/
theorem c5_solution_bound [DecidableEq α] (rows : List (List α))
    (hnd : ∀ row ∈ rows, row.Nodup) (bfuel ifuel cfuel lfuel : Nat)
    (hbf : 1 + 2 * (rows.map List.length).sum ≤ bfuel)
    (hif : (buildMatrix bfuel rows).2 + 2 ≤ ifuel)
    (hcf : (buildMatrix bfuel rows).2 + 2 ≤ cfuel)
    (it : Iter α)
    (hr : Reach ifuel lfuel (coverings_init bfuel rows) it) :
    it.solution.length ≤ column_count cfuel (buildMatrix bfuel rows).1 0
    ∧ ((coverings_step ifuel it).2 = Action.CONT →
        it.solution.length + 1
          ≤ column_count cfuel (buildMatrix bfuel rows).1 0) := by
  obtain ⟨hs, cl, RS, M, _⟩ := buildMatrix_rows rows hnd hbf
  have B := M.B
  obtain ⟨W, HC⟩ := midInv_swf M
  have H := HC ifuel hif
  have hg0 : Good (rcOf RS) ifuel (buildMatrix bfuel rows).1 hs cl
      (coverings_init bfuel rows) :=
    ⟨hs, cl, Search.base W H⟩
  have hg := good_reach hr hg0
  have hcc : column_count cfuel (buildMatrix bfuel rows).1 0 = hs.length := by
    refine column_count_run B.hdr (buildInv_hs_nodup B) ?_
    have := buildInv_hs_lt B
    omega
  rw [hcc]
  obtain ⟨A, acl, hsS⟩ := hg
  refine ⟨?_, fun hc => ?_⟩
  · have := hsS.bound
    omega
  · obtain ⟨h1, _, _⟩ := search_step hsS
    exact (h1 hc).2.2

theorem c5_solution_bound_witness :
    (∀ row ∈ ([[0, 1], [1, 2]] : List (List Nat)), row.Nodup)
    ∧ 1 + 2 * (([[0, 1], [1, 2]] : List (List Nat)).map List.length).sum ≤ 20
    ∧ (buildMatrix 20 ([[0, 1], [1, 2]] : List (List Nat))).2 + 2 ≤ 20
    ∧ ((coverings_init 20 ([[0, 1], [1, 2]] : List (List Nat))).solution.length
        ≤ column_count 20 (buildMatrix 20 ([[0, 1], [1, 2]] : List (List Nat))).1 0
      ∧ ((coverings_step 20
            (coverings_init 20 ([[0, 1], [1, 2]] : List (List Nat)))).2
            = Action.CONT →
          (coverings_init 20 ([[0, 1], [1, 2]] : List (List Nat))).solution.length
              + 1
            ≤ column_count 20
                (buildMatrix 20 ([[0, 1], [1, 2]] : List (List Nat))).1 0)) :=
  ⟨by decide, by decide, by decide,
    c5_solution_bound ([[0, 1], [1, 2]] : List (List Nat)) (by decide) 20 20 20 5
      (by decide) (by decide) (by decide) _
      (Reach.refl (coverings_init 20 ([[0, 1], [1, 2]] : List (List Nat))))⟩

/-- A flat list of blocks without duplicates forces distinct non-empty
block owners. -/
theorem nodup_flatten_map_nodup {f : Nat → List Nat} :
    ∀ {l : List Nat}, ((l.map f).flatten).Nodup → (∀ x ∈ l, f x ≠ []) →
      l.Nodup := by
  intro l
  induction l with
  | nil =>
    intro _ _
    exact List.nodup_nil
  | cons z l ih =>
    intro hnd hne
    rw [List.map_cons, List.flatten_cons] at hnd
    have hdis := List.disjoint_of_nodup_append hnd
    refine List.nodup_cons.mpr ⟨?_, ih hnd.of_append_right
      (fun y hy => hne y (List.mem_cons_of_mem _ hy))⟩
    intro hz
    obtain ⟨a, ha⟩ := List.exists_mem_of_ne_nil (f z)
      (hne z (List.mem_cons_self _ _))
    exact hdis ha (List.mem_flatten.mpr ⟨f z, List.mem_map_of_mem f hz, ha⟩)

/-- A flat list of blocks without duplicates has pairwise-disjoint
blocks. -/
theorem nodup_flatten_map_disj {f : Nat → List Nat} :
    ∀ {l : List Nat}, ((l.map f).flatten).Nodup → l.Nodup →
      ∀ x ∈ l, ∀ y ∈ l, x ≠ y → ∀ a ∈ f x, a ∉ f y := by
  intro l
  induction l with
  | nil =>
    intro _ _ x hx
    exact absurd hx (List.not_mem_nil x)
  | cons z l ih =>
    intro hnd hlnd x hx y hy hxy a hax hay
    rw [List.map_cons, List.flatten_cons] at hnd
    have hdis := List.disjoint_of_nodup_append hnd
    rcases List.mem_cons.mp hx with hxz | hx' <;>
      rcases List.mem_cons.mp hy with hyz | hy'
    · exact hxy (hxz.trans hyz.symm)
    · refine hdis ?_ (List.mem_flatten.mpr ⟨f y, List.mem_map_of_mem f hy', hay⟩)
      rw [← hxz]
      exact hax
    · refine hdis ?_ (List.mem_flatten.mpr ⟨f x, List.mem_map_of_mem f hx', hax⟩)
      rw [← hyz]
      exact hay
    · exact ih hnd.of_append_right (List.nodup_cons.mp hlnd).2 x hx' y hy' hxy
        a hax hay

/-- `getD` at an in-range index is a member. -/
theorem getD_mem {β : Type} : ∀ (l : List β) (i : Nat) (d : β),
    i < l.length → l.getD i d ∈ l
  | [], i, _, h => absurd h (by simp)
  | b :: l, 0, d, _ => List.mem_cons_self _ _
  | b :: l, i + 1, d, h =>
    List.mem_cons_of_mem _ (getD_mem l i d (by
      simp only [List.length_cons] at h
      omega))

/-- Every member is a `getD` at some in-range index. -/
theorem mem_exists_getD {β : Type} (d : β) : ∀ (l : List β) (b : β), b ∈ l →
    ∃ i, i < l.length ∧ l.getD i d = b
  | b' :: l, b, hb => by
    rcases List.mem_cons.mp hb with heq | hb'
    · exact ⟨0, by simp, heq.symm⟩
    · obtain ⟨i, hi, hgd⟩ := mem_exists_getD d l b hb'
      exact ⟨i + 1, by simp only [List.length_cons]; omega, hgd⟩

/-- C1: for input rows with pairwise-distinct elements per row, every
tuple yielded by `coverings_next` from any reachable state is a partition
of the universe (the union of all input rows): its entries are valid row
indices without repetition, the union of the element-sets of the chosen
rows is exactly the set of elements occurring in the input, and any two
distinct chosen rows are element-disjoint. -/
theorem c1_partition [DecidableEq α] (rows : List (List α))
    (hnd : ∀ row ∈ rows, row.Nodup) (bfuel ifuel lfuel : Nat)
    (hbf : 1 + 2 * (rows.map List.length).sum ≤ bfuel)
    (hif : (buildMatrix bfuel rows).2 + 2 ≤ ifuel)
    (it it' : Iter α) (t : List Nat)
    (hr : Reach ifuel lfuel (coverings_init bfuel rows) it)
    (hy : coverings_next ifuel lfuel it = some (some t, it')) :
    (∀ i ∈ t, i < rows.length)
    ∧ t.Nodup
    ∧ (∀ x : α, (∃ i ∈ t, x ∈ rows.getD i []) ↔ ∃ row ∈ rows, x ∈ row)
    ∧ (∀ i ∈ t, ∀ j ∈ t, i ≠ j →
        ∀ x : α, x ∈ rows.getD i [] → x ∉ rows.getD j []) := by
  obtain ⟨hs, cl, RS, M, R⟩ := buildMatrix_rows rows hnd hbf
  obtain ⟨W, HC⟩ := midInv_swf M
  have H := HC ifuel hif
  have hg0 : Good (rcOf RS) ifuel (buildMatrix bfuel rows).1 hs cl
      (coverings_init bfuel rows) := ⟨hs, cl, Search.base W H⟩
  obtain ⟨⟨acl, hsS⟩, ht⟩ := yield_next (good_reach hr hg0) hy
  obtain ⟨hcolE, hhobjE, hrobjE, hperm, haclE, hsolE⟩ := hsS.sem
  rw [List.append_nil] at hperm
  have B := M.B
  have ht' : t = it'.solution.reverse.map
      (fun e => ((buildMatrix bfuel rows).1.robj e).getD 0) := by
    rw [ht]
    unfold coverings_solution
    rw [hrobjE]
  have hpart : ((RS.map fun p => p.1 :: p.2).flatten).Perm (allCells hs cl) := by
    have h := M.part
    rw [show cn (none : Option Nat) ([] : List Nat) = ([] : List Nat) from rfl,
      List.append_nil] at h
    exact h
  have hACnd : (allCells hs cl).Nodup :=
    ((List.nodup_cons.mp B.nodes).2).of_append_right
  have hFLnd : ((RS.map fun p => p.1 :: p.2).flatten).Nodup :=
    hpart.symm.nodup hACnd
  have hblk_cells : ∀ {p : Nat × List Nat}, p ∈ RS → ∀ {y : Nat},
      y ∈ p.1 :: p.2 → y ∈ allCells hs cl := by
    intro p hp y hy2
    exact hpart.mem_iff.mp ((block_sublist_flatten hp).subset hy2)
  have hidx : ∀ r ∈ it'.solution, ∃ p ∈ RS, ∃ j,
      r ∈ p.1 :: p.2
      ∧ (r :: rcOf RS r).Perm (p.1 :: p.2)
      ∧ j < rows.length
      ∧ (∀ e ∈ p.1 :: p.2, (buildMatrix bfuel rows).1.robj e = some j)
      ∧ ((p.1 :: p.2).map fun y =>
          (buildMatrix bfuel rows).1.hobj ((buildMatrix bfuel rows).1.col y))
        = (rows.getD j []).map some := by
    intro r hrsol
    obtain ⟨c, hrc, hchs⟩ := hsolE r hrsol
    have hrac : r ∈ allCells hs cl := mem_allCells hchs hrc
    obtain ⟨blk, hblk, hrb⟩ := List.mem_flatten.mp (hpart.mem_iff.mpr hrac)
    obtain ⟨p, hp, hpb⟩ := List.mem_map.mp hblk
    rw [← hpb] at hrb
    have hspec := rcOf_spec hFLnd hp hrb
    obtain ⟨_, hperm2⟩ := path_rotate (M.paths p hp) (M.nodups p hp) hrb
    rw [← hspec] at hperm2
    obtain ⟨j, hjlt, hB⟩ := R.1 p hp
    exact ⟨p, hp, j, hrb, hperm2, hB.1, hB.2.1, hB.2.2⟩
  have hhsnd : hs.Nodup := (List.nodup_cons.mp (buildInv_hs_nodup B)).2
  have hFLATnd : ((it'.solution.map fun r =>
      (r :: rcOf RS r).map (buildMatrix bfuel rows).1.col).flatten).Nodup :=
    hperm.nodup hhsnd
  have hsolnd : it'.solution.Nodup := by
    refine nodup_flatten_map_nodup hFLATnd ?_
    intro r _ hc
    simp at hc
  have hdisjE := nodup_flatten_map_disj hFLATnd hsolnd
  have hmemt : ∀ i : Nat, i ∈ t ↔ ∃ r ∈ it'.solution,
      (buildMatrix bfuel rows).1.robj r = some i := by
    intro i
    rw [ht']
    constructor
    · intro hi
      obtain ⟨r, hrrev, hfr⟩ := List.mem_map.mp hi
      have hrsol : r ∈ it'.solution := List.mem_reverse.mp hrrev
      obtain ⟨p, hp, j, hrb, _, _, hrobjB, _⟩ := hidx r hrsol
      have hv : (buildMatrix bfuel rows).1.robj r = some j := hrobjB r hrb
      have hfr' : ((buildMatrix bfuel rows).1.robj r).getD 0 = i := hfr
      rw [hv] at hfr'
      have hji : j = i := hfr'
      rw [← hji]
      exact ⟨r, hrsol, hv⟩
    · intro hex
      obtain ⟨r, hrsol, hrv⟩ := hex
      have hval : ((buildMatrix bfuel rows).1.robj r).getD 0 = i := by
        rw [hrv]
        rfl
      rw [← hval]
      exact List.mem_map_of_mem _ (List.mem_reverse.mpr hrsol)
  refine ⟨?_, ?_, ?_, ?_⟩
  · intro i hi
    obtain ⟨r, hrsol, hrv⟩ := (hmemt i).mp hi
    obtain ⟨p, hp, j, hrb, _, hjlt, hrobjB, _⟩ := hidx r hrsol
    have hji : j = i := Option.some.inj ((hrobjB r hrb).symm.trans hrv)
    omega
  · rw [ht']
    refine List.Nodup.map_on ?_ (List.nodup_reverse.mpr hsolnd)
    intro r₁ h₁ r₂ h₂ hf
    have h₁s : r₁ ∈ it'.solution := List.mem_reverse.mp h₁
    have h₂s : r₂ ∈ it'.solution := List.mem_reverse.mp h₂
    obtain ⟨p₁, hp₁, j₁, hrb₁, hpm₁, hjlt₁, hrobjB₁, helem₁⟩ := hidx r₁ h₁s
    obtain ⟨p₂, hp₂, j₂, hrb₂, hpm₂, hjlt₂, hrobjB₂, helem₂⟩ := hidx r₂ h₂s
    have hf' : ((buildMatrix bfuel rows).1.robj r₁).getD 0
        = ((buildMatrix bfuel rows).1.robj r₂).getD 0 := hf
    rw [hrobjB₁ r₁ hrb₁, hrobjB₂ r₂ hrb₂] at hf'
    have hj : j₁ = j₂ := hf'
    by_contra hne
    by_cases hpp : p₁ = p₂
    · have hcol1 : (buildMatrix bfuel rows).1.col r₁
          ∈ (r₁ :: rcOf RS r₁).map (buildMatrix bfuel rows).1.col :=
        List.mem_map_of_mem _ (List.mem_cons_self _ _)
      have hcol1' : (buildMatrix bfuel rows).1.col r₁
          ∈ (r₂ :: rcOf RS r₂).map (buildMatrix bfuel rows).1.col := by
        have h1 : (buildMatrix bfuel rows).1.col r₁
            ∈ (p₂.1 :: p₂.2).map (buildMatrix bfuel rows).1.col := by
          rw [← hpp]
          exact List.mem_map_of_mem _ hrb₁
        exact ((hpm₂.map _).mem_iff).mpr h1
      exact hdisjE r₁ h₁s r₂ h₂s hne _ hcol1 hcol1'
    · have hR2 := R.2.1 p₁ hp₁ p₂ hp₂ hpp
      rw [hrobjB₁ p₁.1 (List.mem_cons_self _ _),
        hrobjB₂ p₂.1 (List.mem_cons_self _ _), hj] at hR2
      exact hR2 rfl
  · intro x
    constructor
    · intro h
      obtain ⟨i, hi, hx⟩ := h
      obtain ⟨r, hrsol, hrv⟩ := (hmemt i).mp hi
      obtain ⟨p, hp, j, hrb, _, hjlt, hrobjB, _⟩ := hidx r hrsol
      have hji : j = i := Option.some.inj ((hrobjB r hrb).symm.trans hrv)
      refine ⟨rows.getD i [], getD_mem rows i [] (by omega), hx⟩
    · intro h
      obtain ⟨row, hrow, hx⟩ := h
      obtain ⟨k, hk, hgd⟩ := mem_exists_getD [] rows row hrow
      have hner : rows.getD k [] ≠ [] := by
        rw [hgd]
        exact List.ne_nil_of_mem hx
      obtain ⟨p, hp, hpk⟩ := R.2.2 k hk hk hner
      obtain ⟨j, hjlt, hB⟩ := R.1 p hp
      have hjk : j = k := Option.some.inj
        ((hB.2.1 p.1 (List.mem_cons_self _ _)).symm.trans hpk)
      subst hjk
      have hxrow : x ∈ rows.getD j [] := by
        rw [hgd]
        exact hx
      have hsx : some x ∈ (rows.getD j []).map (some : α → Option α) :=
        List.mem_map_of_mem _ hxrow
      rw [← hB.2.2] at hsx
      obtain ⟨e, he, hge⟩ := List.mem_map.mp hsx
      have heac : e ∈ allCells hs cl := hblk_cells hp he
      have hchs : (buildMatrix bfuel rows).1.col e ∈ hs := (allCells_col B heac).1
      have hcf : (buildMatrix bfuel rows).1.col e
          ∈ (it'.solution.map fun r =>
              (r :: rcOf RS r).map (buildMatrix bfuel rows).1.col).flatten :=
        hperm.mem_iff.mp hchs
      obtain ⟨ecl, hecl, hcin⟩ := List.mem_flatten.mp hcf
      obtain ⟨r, hrsol, hrf⟩ := List.mem_map.mp hecl
      rw [← hrf] at hcin
      obtain ⟨e', he', hce'⟩ := List.mem_map.mp hcin
      obtain ⟨q, hq, j', hrb', hpm', hjlt', hrobjB', helem'⟩ := hidx r hrsol
      have he'b : e' ∈ q.1 :: q.2 := hpm'.mem_iff.mp he'
      have hge' : (buildMatrix bfuel rows).1.hobj
          ((buildMatrix bfuel rows).1.col e') = some x := by
        rw [hce']
        exact hge
      have hsx' : some x ∈ (rows.getD j' []).map (some : α → Option α) := by
        rw [← helem']
        exact List.mem_map.mpr ⟨e', he'b, hge'⟩
      obtain ⟨x', hx', hxx⟩ := List.mem_map.mp hsx'
      have hxeq : x' = x := Option.some.inj hxx
      subst hxeq
      exact ⟨j', (hmemt j').mpr ⟨r, hrsol, hrobjB' r hrb'⟩, hx'⟩
  · intro i hi j hj hij x hxi hxj
    obtain ⟨r₁, h₁s, hrv₁⟩ := (hmemt i).mp hi
    obtain ⟨r₂, h₂s, hrv₂⟩ := (hmemt j).mp hj
    obtain ⟨p₁, hp₁, j₁, hrb₁, hpm₁, hjlt₁, hrobjB₁, helem₁⟩ := hidx r₁ h₁s
    obtain ⟨p₂, hp₂, j₂, hrb₂, hpm₂, hjlt₂, hrobjB₂, helem₂⟩ := hidx r₂ h₂s
    have hj₁ : j₁ = i := Option.some.inj ((hrobjB₁ r₁ hrb₁).symm.trans hrv₁)
    have hj₂ : j₂ = j := Option.some.inj ((hrobjB₂ r₂ hrb₂).symm.trans hrv₂)
    have hr₁₂ : r₁ ≠ r₂ := by
      intro hc
      rw [hc] at hrv₁
      exact hij (Option.some.inj (hrv₁.symm.trans hrv₂))
    have hsx₁ : some x ∈ (rows.getD j₁ []).map (some : α → Option α) := by
      rw [hj₁]
      exact List.mem_map_of_mem _ hxi
    rw [← helem₁] at hsx₁
    obtain ⟨e₁, he₁, hge₁⟩ := List.mem_map.mp hsx₁
    have hsx₂ : some x ∈ (rows.getD j₂ []).map (some : α → Option α) := by
      rw [hj₂]
      exact List.mem_map_of_mem _ hxj
    rw [← helem₂] at hsx₂
    obtain ⟨e₂, he₂, hge₂⟩ := List.mem_map.mp hsx₂
    have hc₁hs : (buildMatrix bfuel rows).1.col e₁ ∈ hs :=
      (allCells_col B (hblk_cells hp₁ he₁)).1
    have hc₂hs : (buildMatrix bfuel rows).1.col e₂ ∈ hs :=
      (allCells_col B (hblk_cells hp₂ he₂)).1
    have hg₁ : (buildMatrix bfuel rows).1.hobj
        ((buildMatrix bfuel rows).1.col e₁) = some x := hge₁
    have hg₂ : (buildMatrix bfuel rows).1.hobj
        ((buildMatrix bfuel rows).1.col e₂) = some x := hge₂
    have hcc : (buildMatrix bfuel rows).1.col e₁
        = (buildMatrix bfuel rows).1.col e₂ := by
      by_contra hne
      have hinj := M.hinj _ hc₁hs _ hc₂hs hne
      rw [hg₁, hg₂] at hinj
      exact hinj rfl
    have hin₁ : (buildMatrix bfuel rows).1.col e₁
        ∈ (r₁ :: rcOf RS r₁).map (buildMatrix bfuel rows).1.col :=
      List.mem_map_of_mem _ (hpm₁.mem_iff.mpr he₁)
    have hin₂ : (buildMatrix bfuel rows).1.col e₂
        ∈ (r₂ :: rcOf RS r₂).map (buildMatrix bfuel rows).1.col :=
      List.mem_map_of_mem _ (hpm₂.mem_iff.mpr he₂)
    rw [← hcc] at hin₂
    exact hdisjE r₁ h₁s r₂ h₂s hr₁₂ _ hin₁ hin₂

theorem c1_partition_witness :
    (∀ row ∈ ([[0], [1]] : List (List Nat)), row.Nodup)
    ∧ 1 + 2 * (([[0], [1]] : List (List Nat)).map List.length).sum ≤ 20
    ∧ (buildMatrix 20 ([[0], [1]] : List (List Nat))).2 + 2 ≤ 20
    ∧ ((∀ i ∈ ([0, 1] : List Nat), i < ([[0], [1]] : List (List Nat)).length)
      ∧ ([0, 1] : List Nat).Nodup
      ∧ (∀ x : Nat, (∃ i ∈ ([0, 1] : List Nat),
            x ∈ ([[0], [1]] : List (List Nat)).getD i [])
          ↔ ∃ row ∈ ([[0], [1]] : List (List Nat)), x ∈ row)
      ∧ (∀ i ∈ ([0, 1] : List Nat), ∀ j ∈ ([0, 1] : List Nat), i ≠ j →
          ∀ x : Nat, x ∈ ([[0], [1]] : List (List Nat)).getD i []
            → x ∉ ([[0], [1]] : List (List Nat)).getD j [])) := by
  have hy : coverings_next 20 10 (coverings_init 20 ([[0], [1]] : List (List Nat)))
      = some (some [0, 1],
          ((coverings_next 20 10
              (coverings_init 20 ([[0], [1]] : List (List Nat)))).getD
            (none, coverings_init 20 ([[0], [1]] : List (List Nat)))).2) := rfl
  exact ⟨by decide, by decide, by decide,
    c1_partition ([[0], [1]] : List (List Nat)) (by decide) 20 20 10 (by decide)
      (by decide) (coverings_init 20 ([[0], [1]] : List (List Nat)))
      (((coverings_next 20 10
          (coverings_init 20 ([[0], [1]] : List (List Nat)))).getD
        (none, coverings_init 20 ([[0], [1]] : List (List Nat)))).2)
      [0, 1] (Reach.refl _) hy⟩

end ExactCover
